import Mathlib

/-!
ISO 2709 (MARC) codec of YAZ 2.1.28, `marcdisp.c`

A shallow embedding of the record model, the leader codec, the ISO2709
reader and the four writers of `src/dependencies/yaz-2.1.28/src/marcdisp.c`,
followed by theorems about them.

Conventions of the embedding.

* A byte is a `Nat` (its value as `unsigned char`); a byte string is a
  `List Nat`.  A `char *` stored in a node is the list of bytes that was
  allocated for it, without the terminating NUL; code that reads it as a C
  string sees `cstr s`, the bytes before the first NUL.
* `buf + i` is `buf.drop i`; reading `buf[i]` past the end of the list yields
  `0` (`peek`).
* The `int` variables of the reader and of the writer hold values produced by
  `atoi_n` on at most nine bytes and sums of three of them, which stay below
  `2^31`; they are modelled as `Nat`, return codes as `Int`.
-/

set_option autoImplicit false

namespace Yaz

/-! ## Bytes and C strings -/

/-- A byte string. -/
abbrev Bytes := List Nat

/-- The bytes of a string literal of the source. -/
def str (s : String) : Bytes := s.toList.map Char.toNat

/-- Record separator, `ISO2709_RS` (octal 035) of `yaz/marcdisp.h`. -/
def ISO2709_RS : Nat := 29

/-- Field separator, `ISO2709_FS` (octal 036) of `yaz/marcdisp.h`. -/
def ISO2709_FS : Nat := 30

/-- Identifier-field separator, `ISO2709_IDFS` (octal 037) of `yaz/marcdisp.h`. -/
def ISO2709_IDFS : Nat := 31

/-- `isdigit` of the C locale on an `unsigned char`. -/
def isdigit (c : Nat) : Bool := decide (48 ≤ c) && decide (c ≤ 57)

/-- `isspace` of the C locale. -/
def isspace (c : Nat) : Bool := decide (c = 32) || (decide (9 ≤ c) && decide (c ≤ 13))

/-- The C string held in an allocation: the bytes before the first NUL. -/
def cstr (s : Bytes) : Bytes := s.takeWhile (fun c => c != 0)

/-- `buf[i]`; bytes past the end of the list read as `0`. -/
def peek (buf : Bytes) (i : Nat) : Nat := buf.getD i 0

/-- The `n` bytes at `buf + i` (what `memcpy` or `nmem_strdupn` copies). -/
def mem (buf : Bytes) (i n : Nat) : Bytes := (List.range n).map (fun k => peek buf (i + k))

/-- Decimal digits of `n`, most significant first (`%d` for a non-negative value). -/
def decAux : Nat → Nat → Bytes → Bytes
  | 0, _, acc => acc
  | fuel + 1, n, acc =>
    if n < 10 then (48 + n) :: acc else decAux fuel (n / 10) ((48 + n % 10) :: acc)

/-- `%d` for a non-negative value. -/
def dec (n : Nat) : Bytes := decAux (n + 1) n []

/-- `%0*d` with width `w` for a non-negative value: zero padding on the left up
to `w` characters, never truncating. -/
def pad0 (w n : Nat) : Bytes := List.replicate (w - (dec n).length) 48 ++ dec n

/-- `%5d`-style formatting: blank padding on the left up to `w` characters. -/
def padSp (w n : Nat) : Bytes := List.replicate (w - (dec n).length) 32 ++ dec n

/-- One hexadecimal digit, upper case. -/
def hexDigit (d : Nat) : Nat := if d < 10 then 48 + d else 55 + d

/-- `" %02X"` of a byte. -/
def hex02 (c : Nat) : Bytes := [32, hexDigit (c % 256 / 16), hexDigit (c % 16)]

/-- Modelled from the spec: `atoi_n` is declared in `yaz/yaz-util.h` and its
body is not among the sources.  It parses the `len` bytes at `buf` as a decimal
number ("Parse record length from the first 5 bytes"); bytes that are not
digits contribute nothing. -/
def atoi_n (buf : Bytes) (len : Nat) : Nat :=
  (mem buf 0 len).foldl (fun val c => if isdigit c then val * 10 + (c - 48) else val) 0

/-- `atoi_n_check`: fails (`none`, C result 0) unless the first byte is a
digit, otherwise yields `atoi_n buf size`. -/
def atoi_n_check (buf : Bytes) (size : Nat) : Option Nat :=
  if !isdigit (peek buf 0) then none else some (atoi_n buf size)

/-! ## Record model -/

/-- A node of the record model (`struct yaz_marc_node`); the subfields of a
data field are its `code_data` strings in list order. -/
inductive yaz_marc_node where
  | datafield (tag indicator : Bytes) (subfields : List Bytes)
  | controlfield (tag data : Bytes)
  | comment (text : Bytes)
  | leader (bytes : Bytes)
deriving DecidableEq

/-- Modelled from the spec: the character-set converter collaborator
(`yaz_iconv_t`, not among the sources): "convert a full string" and "convert N
input bytes, report success/incomplete/error" (`probe` is true when the
conversion call does not return `(size_t) -1`). -/
structure Iconv where
  convert : Bytes → Bytes
  probe : Bytes → Bool

/-- The handle `struct yaz_marc_t_`.  `nodes` is the list headed by
`mt->nodes`; `subfield_pp` is the index in `nodes` of the data field whose
subfield list the append cursor points into, or `none` for a null cursor. -/
structure yaz_marc_t where
  xml : Int
  debug : Int
  iconv_cd : Option Iconv
  subfield_str : Bytes
  endline_str : Bytes
  leader_spec : Option Bytes
  nodes : List yaz_marc_node
  subfield_pp : Option Nat

/-- Output mode `YAZ_MARC_LINE` of `yaz/marcdisp.h`. -/
def YAZ_MARC_LINE : Int := 0
/-- Output mode `YAZ_MARC_MARCXML` of `yaz/marcdisp.h`. -/
def YAZ_MARC_MARCXML : Int := 3
/-- Output mode `YAZ_MARC_ISO2709` of `yaz/marcdisp.h`. -/
def YAZ_MARC_ISO2709 : Int := 4
/-- Output mode `YAZ_MARC_XCHANGE` of `yaz/marcdisp.h`. -/
def YAZ_MARC_XCHANGE : Int := 5

/-- `yaz_marc_reset`: drop all nodes and null the subfield cursor. -/
def yaz_marc_reset (mt : yaz_marc_t) : yaz_marc_t :=
  { mt with nodes := [], subfield_pp := none }

/-- `yaz_marc_create`: line mode, debug off, no converter, no leader-spec,
subfield separator `" $"`, line terminator `"\n"`. -/
def yaz_marc_create : yaz_marc_t :=
  { xml := YAZ_MARC_LINE, debug := 0, iconv_cd := none, subfield_str := str " $",
    endline_str := [10], leader_spec := none, nodes := [], subfield_pp := none }

/-- `yaz_marc_add_node` followed by the initialisation of the node: append at
the tail of the node list. -/
def yaz_marc_add_node (mt : yaz_marc_t) (n : yaz_marc_node) : yaz_marc_t :=
  { mt with nodes := mt.nodes ++ [n] }

/-- `yaz_marc_add_comment`: the comment is copied with `nmem_strdup`. -/
def yaz_marc_add_comment (mt : yaz_marc_t) (comment : Bytes) : yaz_marc_t :=
  yaz_marc_add_node mt (.comment (cstr comment))

/-- `yaz_marc_cprintf`: the formatted text goes through a 200-byte buffer
(`vsnprintf (buf, sizeof (buf), ...)`), so at most 199 bytes reach the comment. -/
def yaz_marc_cprintf (mt : yaz_marc_t) (text : Bytes) : yaz_marc_t :=
  yaz_marc_add_comment mt ((cstr text).take 199)

/-- Overwrite `leader[pos .. pos + val.length)` (a `memcpy` into the leader). -/
def poke (leader : Bytes) (pos : Nat) (val : Bytes) : Bytes :=
  leader.take pos ++ val ++ leader.drop (pos + val.length)

/-- The largest value of the type `long` (taken to be 64 bits wide). -/
def LONG_MAX : Int := 9223372036854775807

/-- The value `strtol` of the C library returns for a sign and the decimal
value `mag` of a digit string: a value outside the range of `long` is replaced
by `LONG_MIN` or `LONG_MAX`. -/
def strtol_value (neg : Bool) (mag : Nat) : Int :=
  if neg then (if (mag : Int) ≤ LONG_MAX + 1 then -(mag : Int) else -(LONG_MAX + 1))
  else (if (mag : Int) ≤ LONG_MAX then (mag : Int) else LONG_MAX)

/-- Conversion of a `long` to `int` (32 bits, two's complement): the value
reduced modulo `2^32` into the range `-2^31 .. 2^31 - 1`. -/
def int_of_long (z : Int) : Int := (z + 2147483648) % 4294967296 - 2147483648

/-- The `int` that the `%d` conversion of `sscanf` stores, and that `atoi`
returns, for a sign and the decimal value of a digit string: `(int)` of the
`long` that `strtol` yields. -/
def scan_int (neg : Bool) (mag : Nat) : Int := int_of_long (strtol_value neg mag)

/-- Conversion of an `int` to the `char` stored in the leader, as a byte: the
value reduced modulo 256. -/
def char_of_int (ch : Int) : Nat := (ch % 256).toNat

/-- Result of `sscanf (cp, "%d=%20[^,]%n", &pos, val, &no_read)`: the number
of conversions `no` (`-1` for EOF), `pos`, `val` and `no_read`.  `pos` is the
`int` that `%d` stores for the sign and digits read (`scan_int`). -/
def sscanf_entry (cp : Bytes) : Int × Int × Bytes × Nat :=
  let s := cstr cp
  let ws := s.takeWhile isspace
  let s1 := s.drop ws.length
  let sign : Bool × Bytes × Nat :=
    match s1 with
    | 45 :: t => (true, t, 1)
    | 43 :: t => (false, t, 1)
    | _ => (false, s1, 0)
  let ds := sign.2.1.takeWhile isdigit
  if ds = [] then (if s1 = [] then -1 else 0, 0, [], 0)
  else
    let pos : Int := scan_int sign.1 (atoi_n ds ds.length)
    match sign.2.1.drop ds.length with
    | 61 :: s4 =>
      let v := (s4.takeWhile (fun c => c != 44)).take 20
      if v = [] then (1, pos, [], 0)
      else (2, pos, v, ws.length + sign.2.2 + ds.length + 1 + v.length)
    | _ => (1, pos, [], 0)

/-- The loop of `marc_exec_leader` on a non-null specification; each round
consumes at least three bytes of it, `fuel` bounds the number of rounds.  A
value that starts with a digit is converted by `atoi`, whose `int` result is
stored as a `char`. -/
def marc_exec_leader_loop : Nat → Bytes → Bytes → Nat → Int × Bytes
  | 0, _, leader, _ => (0, leader)
  | fuel + 1, cp, leader, size =>
    match sscanf_entry cp with
    | (no, pos, val, no_read) =>
      if no < 2 ∨ no_read < 3 then (-1, leader)
      else if pos < 0 ∨ pos ≥ (size : Int) then (-1, leader)
      else
        let p := pos.toNat
        let step : Option Bytes :=
          if peek val 0 = 39 then
            let body := val.drop 1
            if 39 ∈ body then
              let len := (body.takeWhile (fun c => c != 39)).length
              if len + p > size then none
              else some (poke leader p (body.take len))
            else none
          else if 48 ≤ peek val 0 ∧ peek val 0 ≤ 57 then
            let ds := val.takeWhile isdigit
            some (poke leader p [char_of_int (scan_int false (atoi_n ds ds.length))])
          else none
        match step with
        | none => (-1, leader)
        | some leader1 =>
          let cp1 := cp.drop no_read
          if peek cp1 0 ≠ 44 then (0, leader1)
          else marc_exec_leader_loop fuel (cp1.drop 1) leader1 size

/-- `marc_exec_leader`: apply a leader-spec to a leader buffer of `size`
bytes; a null specification changes nothing and succeeds. -/
def marc_exec_leader (leader_spec : Option Bytes) (leader : Bytes) (size : Nat) :
    Int × Bytes :=
  match leader_spec with
  | none => (0, leader)
  | some cp => marc_exec_leader_loop (cp.length + 1) cp leader size

/-- `yaz_marc_add_leader`: the node holds `leader_len` bytes of `leader`, to
which the handle's leader-spec is applied (its result code is ignored). -/
def yaz_marc_add_leader (mt : yaz_marc_t) (leader : Bytes) (leader_len : Nat) :
    yaz_marc_t :=
  yaz_marc_add_node mt
    (.leader (marc_exec_leader mt.leader_spec (mem leader 0 leader_len) leader_len).2)

/-- The debug comment of `yaz_marc_add_controlfield` and
`yaz_marc_add_subfield`: up to 16 bytes in hexadecimal, then `" .."` if more
follow. -/
def hexdump (label : Bytes) (data : Bytes) (data_len : Nat) : Bytes :=
  label ++ ((mem data 0 (min 16 data_len)).map hex02).flatten
    ++ (if 16 < data_len then str " .." else [])

/-- `yaz_marc_add_controlfield`. -/
def yaz_marc_add_controlfield (mt : yaz_marc_t) (tag data : Bytes) (data_len : Nat) :
    yaz_marc_t :=
  let mt1 := yaz_marc_add_node mt (.controlfield (cstr tag) (mem data 0 data_len))
  if mt1.debug ≠ 0 then
    yaz_marc_add_comment mt1 (hexdump (str "controlfield:") data data_len)
  else mt1

/-- `yaz_marc_add_datafield`: the new node becomes the target of the subfield
cursor. -/
def yaz_marc_add_datafield (mt : yaz_marc_t) (tag indicator : Bytes)
    (indicator_len : Nat) : yaz_marc_t :=
  { yaz_marc_add_node mt (.datafield (cstr tag) (mem indicator 0 indicator_len) []) with
    subfield_pp := some mt.nodes.length }

/-- Append one subfield to the data field at index `idx` of a node list. -/
def appendSubfield : List yaz_marc_node → Nat → Bytes → List yaz_marc_node
  | [], _, _ => []
  | .datafield t i ss :: ns, 0, s => .datafield t i (ss ++ [s]) :: ns
  | n :: ns, 0, _ => n :: ns
  | n :: ns, idx + 1, s => n :: appendSubfield ns idx s

/-- `yaz_marc_add_subfield`: the debug comment is added first; the subfield is
attached only when the cursor is not null. -/
def yaz_marc_add_subfield (mt : yaz_marc_t) (code_data : Bytes) (code_data_len : Nat) :
    yaz_marc_t :=
  let mt1 :=
    if mt.debug ≠ 0 then
      yaz_marc_add_comment mt (hexdump (str "subfield:") code_data code_data_len)
    else mt
  match mt1.subfield_pp with
  | some idx =>
    { mt1 with nodes := appendSubfield mt1.nodes idx (mem code_data 0 code_data_len) }
  | none => mt1

/-! ## Leader codec -/

/-- The six numbers resolved by `yaz_marc_read_leader`. -/
structure LeaderFields where
  indicator_length : Nat
  identifier_length : Nat
  base_address : Nat
  length_data_entry : Nat
  length_starting : Nat
  length_implementation : Nat
deriving DecidableEq

/-- One field of `yaz_marc_read_leader` that patches the leader: check
`leader + off` with `atoi_n_check (.., 1, ..)`; on failure emit `msg`, store
the default digit and resolve to the default. -/
def leaderDigit (st : yaz_marc_t × Bytes) (off : Nat) (msg : Bytes) (dflt : Nat) :
    (yaz_marc_t × Bytes) × Nat :=
  match atoi_n_check (st.2.drop off) 1 with
  | some v => (st, v)
  | none => ((yaz_marc_cprintf st.1 msg, poke st.2 off [48 + dflt]), dflt)

/-- Comment emitted for a bad byte 10. -/
def msgIndicator : Bytes :=
  str "Indicator length at offset 10 should hold a digit. Assuming 2"
/-- Comment emitted for a bad byte 11. -/
def msgIdentifier : Bytes :=
  str "Identifier length at offset 11 should hold a digit. Assuming 2"
/-- Comment emitted for a bad base address. -/
def msgBase : Bytes :=
  str "Base address at offsets 12..16 should hold a number. Assuming 0"
/-- Comment emitted for a bad byte 20. -/
def msgDataEntry : Bytes :=
  str "Length data entry at offset 20 should hold a digit. Assuming 4"
/-- Comment emitted for a bad byte 21. -/
def msgStarting : Bytes :=
  str "Length starting at offset 21 should hold a digit. Assuming 5"
/-- Comment emitted for a bad byte 22. -/
def msgImplementation : Bytes :=
  str "Length implementation at offset 22 should hold a digit. Assuming 0"

/-- The six debug comments of `yaz_marc_read_leader`. -/
def leaderDebug (mt : yaz_marc_t) (f : LeaderFields) : yaz_marc_t :=
  let m1 := yaz_marc_cprintf mt (str "Indicator length      " ++ padSp 5 f.indicator_length)
  let m2 := yaz_marc_cprintf m1 (str "Identifier length     " ++ padSp 5 f.identifier_length)
  let m3 := yaz_marc_cprintf m2 (str "Base address          " ++ padSp 5 f.base_address)
  let m4 := yaz_marc_cprintf m3 (str "Length data entry     " ++ padSp 5 f.length_data_entry)
  let m5 := yaz_marc_cprintf m4 (str "Length starting       " ++ padSp 5 f.length_starting)
  yaz_marc_cprintf m5 (str "Length implementation " ++ padSp 5 f.length_implementation)

/-- The base-address field of `yaz_marc_read_leader`: check `leader + 12` with
`atoi_n_check (.., 5, ..)`; on failure emit the comment and resolve to 0.  The
leader copy is not patched here. -/
def leaderBase (st : yaz_marc_t × Bytes) : (yaz_marc_t × Bytes) × Nat :=
  match atoi_n_check (st.2.drop 12) 5 with
  | some v => (st, v)
  | none => ((yaz_marc_cprintf st.1 msgBase, st.2), 0)

/-- `yaz_marc_read_leader`: copy 24 bytes, resolve the six fields in source
order, emit the debug comments, and append the Leader node. -/
def yaz_marc_read_leader (mt : yaz_marc_t) (leader_c : Bytes) : yaz_marc_t × LeaderFields :=
  match leaderDigit (mt, mem leader_c 0 24) 10 msgIndicator 2 with
  | (s1, indicator_length) =>
  match leaderDigit s1 11 msgIdentifier 2 with
  | (s2, identifier_length) =>
  match leaderBase s2 with
  | (s3, base_address) =>
  match leaderDigit s3 20 msgDataEntry 4 with
  | (s4, length_data_entry) =>
  match leaderDigit s4 21 msgStarting 5 with
  | (s5, length_starting) =>
  match leaderDigit s5 22 msgImplementation 0 with
  | (s6, length_implementation) =>
    let f : LeaderFields :=
      { indicator_length := indicator_length, identifier_length := identifier_length,
        base_address := base_address, length_data_entry := length_data_entry,
        length_starting := length_starting, length_implementation := length_implementation }
    (yaz_marc_add_leader (if s6.1.debug ≠ 0 then leaderDebug s6.1 f else s6.1) s6.2 24, f)

/-! ## Output buffer -/

/-- Modelled from the spec: `wrbuf_puts` of `wrbuf.c` (not among the sources)
appends a C string to the output buffer. -/
def wrbuf_puts (wr : Bytes) (s : Bytes) : Bytes := wr ++ cstr s

/-- Modelled from the spec: `wrbuf_write` of `wrbuf.c` (not among the sources)
appends `size` bytes. -/
def wrbuf_write (wr : Bytes) (buf : Bytes) (size : Nat) : Bytes := wr ++ mem buf 0 size

/-- Modelled from the spec: `wrbuf_putc` of `wrbuf.c` (not among the sources)
appends one byte. -/
def wrbuf_putc (wr : Bytes) (c : Nat) : Bytes := wr ++ [c]

/-- Modelled from the spec: `wrbuf_iconv_write` of `wrbuf.c` (not among the
sources): "passing no handle disables transcoding (bytes pass through
verbatim)", otherwise the converted bytes are appended. -/
def wrbuf_iconv_write (wr : Bytes) (cd : Option Iconv) (buf : Bytes) (size : Nat) : Bytes :=
  match cd with
  | none => wrbuf_write wr buf size
  | some c => wr ++ c.convert (mem buf 0 size)

/-- Modelled from the spec: `wrbuf_iconv_puts`, the same for a C string. -/
def wrbuf_iconv_puts (wr : Bytes) (cd : Option Iconv) (s : Bytes) : Bytes :=
  wrbuf_iconv_write wr cd (cstr s) (cstr s).length

/-- Modelled from the spec: `wrbuf_iconv_putchar`, the same for one byte. -/
def wrbuf_iconv_putchar (wr : Bytes) (cd : Option Iconv) (ch : Nat) : Bytes :=
  wrbuf_iconv_write wr cd [ch] 1

/-- Modelled from the spec: XML escaping of `wrbuf.c` (not among the sources):
"Text content is escaped for XML special characters (ampersand, angle
brackets)". -/
def xmlEscape (s : Bytes) : Bytes :=
  (s.map (fun c =>
    if c = 38 then str "&amp;" else if c = 60 then str "&lt;"
    else if c = 62 then str "&gt;" else [c])).flatten

/-- Modelled from the spec: `wrbuf_iconv_write_cdata` of `wrbuf.c` (not among
the sources): transcode through the converter if present, then escape. -/
def wrbuf_iconv_write_cdata (wr : Bytes) (cd : Option Iconv) (buf : Bytes) (size : Nat) :
    Bytes :=
  match cd with
  | none => wr ++ xmlEscape (mem buf 0 size)
  | some c => wr ++ xmlEscape (c.convert (mem buf 0 size))

/-- The statement `wr->pos--`. -/
def wrbuf_unput (wr : Bytes) : Bytes := wr.dropLast

/-! ## Writers -/

/-- The first Leader node of a node list (the search loop of the line and XML
writers, which stops at the first hit). -/
def firstLeader : List yaz_marc_node → Option Bytes
  | [] => none
  | .leader l :: _ => some l
  | _ :: ns => firstLeader ns

/-- The last Leader node of a node list (the search loop of
`yaz_marc_write_iso2709`, which has no `break`). -/
def lastLeader : List yaz_marc_node → Option Bytes → Option Bytes
  | [], acc => acc
  | .leader l :: ns, _ => lastLeader ns (some l)
  | _ :: ns, acc => lastLeader ns acc

/-- `cdata_one_character`: with a converter, the first width in 1..4 whose
conversion does not return `(size_t) -1`, else 1; without a converter, 1. -/
def cdata_one_character (mt : yaz_marc_t) (buf : Bytes) : Nat :=
  match mt.iconv_cd with
  | some c =>
    if c.probe (mem buf 0 1) then 1 else if c.probe (mem buf 0 2) then 2
    else if c.probe (mem buf 0 3) then 3 else if c.probe (mem buf 0 4) then 4 else 1
  | none => 1

/-- The number of values of the type `size_t` (taken to be 64 bits wide). -/
def SIZE_T_RANGE : Nat := 2 ^ 64

/-- The expression `using_code_len` of the line and XML writers,
`(identifier_length != 2) ? identifier_length - 1 : cdata_one_character (..)`,
of type `size_t`: for an identifier length of 0 the `int` value -1 is converted
to the largest `size_t` value. -/
def using_code_len (mt : yaz_marc_t) (identifier_length : Nat) (code_data : Bytes) : Nat :=
  if identifier_length ≠ 2 then (identifier_length + SIZE_T_RANGE - 1) % SIZE_T_RANGE
  else cdata_one_character mt code_data

/-- The subfield loop of `yaz_marc_write_line`. -/
def lineSubfields (mt : yaz_marc_t) (identifier_length : Nat) : List Bytes → Bytes → Bytes
  | [], wr => wr
  | s :: ss, wr =>
    let n := using_code_len mt identifier_length s
    let w1 := wrbuf_puts wr mt.subfield_str
    let w2 := wrbuf_iconv_write w1 mt.iconv_cd s n
    let w3 := wrbuf_iconv_puts w2 mt.iconv_cd [32]
    let w4 := wrbuf_iconv_puts w3 mt.iconv_cd (s.drop n)
    let w5 := wrbuf_iconv_puts w4 mt.iconv_cd [32]
    lineSubfields mt identifier_length ss (wrbuf_unput w5)

/-- The node loop of `yaz_marc_write_line`. -/
def lineNodes (mt : yaz_marc_t) (identifier_length : Nat) : List yaz_marc_node → Bytes → Bytes
  | [], wr => wr
  | .datafield tag indicator subfields :: ns, wr =>
    let w1 := wr ++ cstr tag ++ [32] ++ cstr indicator
    let w2 := lineSubfields mt identifier_length subfields w1
    lineNodes mt identifier_length ns (wrbuf_puts w2 mt.endline_str)
  | .controlfield tag data :: ns, wr =>
    let w1 := wr ++ cstr tag
    let w2 := wrbuf_iconv_puts w1 mt.iconv_cd [32]
    let w3 := wrbuf_iconv_puts w2 mt.iconv_cd data
    let w4 := wrbuf_iconv_puts w3 mt.iconv_cd [32]
    lineNodes mt identifier_length ns (wrbuf_puts (wrbuf_unput w4) mt.endline_str)
  | .comment text :: ns, wr =>
    let w1 := wrbuf_puts wr (str "(")
    let w2 := wrbuf_iconv_write w1 mt.iconv_cd (cstr text) (cstr text).length
    lineNodes mt identifier_length ns (wrbuf_puts w2 (str ")\n"))
  | .leader l :: ns, wr =>
    lineNodes mt identifier_length ns (wr ++ cstr l ++ [10])

/-- `yaz_marc_write_line`: result code and output buffer. -/
def yaz_marc_write_line (mt : yaz_marc_t) (wr : Bytes) : Int × Bytes :=
  match firstLeader mt.nodes with
  | none => (-1, wr)
  | some leader =>
    match atoi_n_check (leader.drop 11) 1 with
    | none => (-1, wr)
    | some identifier_length => (0, lineNodes mt identifier_length mt.nodes wr)

/-- The indicator loop of the XML writer: one `indN` attribute per byte of the
indicator string. -/
def xmlIndicators (cd : Option Iconv) : List Nat → Nat → Bytes → Bytes
  | [], _, wr => wr
  | c :: cs, i, wr =>
    let w1 := wr ++ str " ind" ++ dec (i + 1) ++ str "=\""
    let w2 := wrbuf_iconv_write_cdata w1 cd [c] 1
    xmlIndicators cd cs (i + 1) (wrbuf_iconv_puts w2 cd (str "\""))

/-- The subfield loop of the XML writer. -/
def xmlSubfields (mt : yaz_marc_t) (identifier_length : Nat) : List Bytes → Bytes → Bytes
  | [], wr => wr
  | s :: ss, wr =>
    let n := using_code_len mt identifier_length s
    let w1 := wrbuf_iconv_puts wr mt.iconv_cd (str "    <subfield code=\"")
    let w2 := wrbuf_iconv_write_cdata w1 mt.iconv_cd s n
    let w3 := wrbuf_iconv_puts w2 mt.iconv_cd (str "\">")
    let w4 := wrbuf_iconv_write_cdata w3 mt.iconv_cd (cstr (s.drop n)) (cstr (s.drop n)).length
    let w5 := wrbuf_iconv_puts w4 mt.iconv_cd (str "</subfield>")
    xmlSubfields mt identifier_length ss (wrbuf_puts w5 [10])

/-- The node loop of `yaz_marc_write_marcxml_ns`. -/
def xmlNodes (mt : yaz_marc_t) (identifier_length : Nat) : List yaz_marc_node → Bytes → Bytes
  | [], wr => wr
  | .datafield tag indicator subfields :: ns, wr =>
    let w1 := wr ++ str "  <datafield tag=\""
    let w2 := wrbuf_iconv_write_cdata w1 mt.iconv_cd (cstr tag) (cstr tag).length
    let w3 := xmlIndicators mt.iconv_cd (cstr indicator) 0 (w2 ++ str "\"")
    let w4 := xmlSubfields mt identifier_length subfields (w3 ++ str ">\n")
    xmlNodes mt identifier_length ns (w4 ++ str "  </datafield>\n")
  | .controlfield tag data :: ns, wr =>
    let w1 := wr ++ str "  <controlfield tag=\""
    let w2 := wrbuf_iconv_write_cdata w1 mt.iconv_cd (cstr tag) (cstr tag).length
    let w3 := wrbuf_iconv_puts w2 mt.iconv_cd (str "\">")
    let w4 := wrbuf_iconv_puts w3 mt.iconv_cd data
    let w5 := wrbuf_iconv_puts w4 mt.iconv_cd (str "</controlfield>")
    xmlNodes mt identifier_length ns (wrbuf_puts w5 [10])
  | .comment text :: ns, wr =>
    xmlNodes mt identifier_length ns (wrbuf_puts (wr ++ str "<!-- ") text ++ str " -->\n")
  | .leader l :: ns, wr =>
    let w1 := wr ++ str "  <leader>"
    let w2 := wrbuf_iconv_write_cdata w1 none (cstr l) (cstr l).length
    xmlNodes mt identifier_length ns (w2 ++ str "</leader>\n")

/-- `yaz_marc_write_marcxml_ns`: the common MARCXML / MarcXchange writer;
`format` and `type` are optional (`%.80s`). -/
def yaz_marc_write_marcxml_ns (mt : yaz_marc_t) (wr : Bytes) (ns : Bytes)
    (format type : Option Bytes) : Int × Bytes :=
  match firstLeader mt.nodes with
  | none => (-1, wr)
  | some leader =>
    match atoi_n_check (leader.drop 11) 1 with
    | none => (-1, wr)
    | some identifier_length =>
      let w1 := wr ++ str "<record xmlns=\"" ++ cstr ns ++ str "\""
      let w2 := match format with
        | some f => w1 ++ str " format=\"" ++ (cstr f).take 80 ++ str "\""
        | none => w1
      let w3 := match type with
        | some t => w2 ++ str " type=\"" ++ (cstr t).take 80 ++ str "\""
        | none => w2
      let w4 := xmlNodes mt identifier_length mt.nodes (w3 ++ str ">\n")
      (0, wrbuf_puts w4 (str "</record>\n"))

/-- The loop of `yaz_marc_modify_leader` on the node list: overwrite the
first Leader node at `off` with the C string `s`. -/
def modifyFirstLeader (off : Nat) (s : Bytes) : List yaz_marc_node → List yaz_marc_node
  | [] => []
  | .leader l :: ns => .leader (poke l off (cstr s)) :: ns
  | n :: ns => n :: modifyFirstLeader off s ns

/-- `yaz_marc_modify_leader`. -/
def yaz_marc_modify_leader (mt : yaz_marc_t) (off : Nat) (s : Bytes) : yaz_marc_t :=
  { mt with nodes := modifyFirstLeader off s mt.nodes }

/-- `yaz_marc_write_marcxml`: result code, output buffer and the handle (whose
leader is patched when no leader-spec is set). -/
def yaz_marc_write_marcxml (mt : yaz_marc_t) (wr : Bytes) : Int × Bytes × yaz_marc_t :=
  let mt1 := if mt.leader_spec.isNone then yaz_marc_modify_leader mt 9 (str "a") else mt
  let r := yaz_marc_write_marcxml_ns mt1 wr (str "http://www.loc.gov/MARC21/slim") none none
  (r.1, r.2, mt1)

/-- `yaz_marc_write_marcxchange`: the arguments `format` and `type` are not
passed on (the call has `0, 0`). -/
def yaz_marc_write_marcxchange (mt : yaz_marc_t) (wr : Bytes) (_format _type : Option Bytes) :
    Int × Bytes :=
  yaz_marc_write_marcxml_ns mt wr (str "http://www.bs.dk/standards/MarcXchange") none none

/-- The bytes put into `wr_data_tmp` for a data field in pass 1: a dummy
separator and the content per subfield, then a dummy field separator. -/
def isoTmpSubfields (cd : Option Iconv) : List Bytes → Bytes → Bytes
  | [], tmp => tmp
  | s :: ss, tmp =>
    isoTmpSubfields cd ss (wrbuf_iconv_puts (wrbuf_iconv_putchar tmp cd 32) cd s)

/-- Pass 1 of `yaz_marc_write_iso2709`: the state is the directory buffer
`wr_dir` and the running `data_offset`. -/
def isoPass1 (cd : Option Iconv) (indicator_length length_data_entry length_starting : Nat) :
    List yaz_marc_node → Bytes × Nat → Bytes × Nat
  | [], st => st
  | n :: ns, (wr_dir, data_offset) =>
    let r : Bytes × Nat :=
      match n with
      | .datafield tag _ subfields =>
        let tmp := wrbuf_iconv_putchar (isoTmpSubfields cd subfields []) cd 32
        (wr_dir ++ (cstr tag).take 3, indicator_length + tmp.length)
      | .controlfield tag data =>
        let tmp := wrbuf_iconv_putchar (wrbuf_iconv_puts [] cd data) cd 32
        (wr_dir ++ (cstr tag).take 3, tmp.length)
      | .comment _ => (wr_dir, 0)
      | .leader _ => (wr_dir, 0)
    if r.2 ≠ 0 then
      isoPass1 cd indicator_length length_data_entry length_starting ns
        (r.1 ++ pad0 length_data_entry r.2 ++ pad0 length_starting data_offset,
          data_offset + r.2)
    else
      isoPass1 cd indicator_length length_data_entry length_starting ns (r.1, data_offset)

/-- The subfield loop of pass 2 of `yaz_marc_write_iso2709`. -/
def isoSubfields (cd : Option Iconv) : List Bytes → Bytes → Bytes
  | [], wr => wr
  | s :: ss, wr =>
    let w1 := wrbuf_putc wr ISO2709_IDFS
    let w2 := wrbuf_iconv_puts w1 cd s
    let w3 := wrbuf_iconv_putchar w2 cd 32
    isoSubfields cd ss (wrbuf_unput w3)

/-- Pass 2 of `yaz_marc_write_iso2709`: the field bodies. -/
def isoPass2 (cd : Option Iconv) (indicator_length : Nat) : List yaz_marc_node → Bytes → Bytes
  | [], wr => wr
  | .datafield _ indicator subfields :: ns, wr =>
    let w1 := wr ++ (cstr indicator).take indicator_length
    let w2 := isoSubfields cd subfields w1
    isoPass2 cd indicator_length ns (wrbuf_putc w2 ISO2709_FS)
  | .controlfield _ data :: ns, wr =>
    let w1 := wrbuf_iconv_puts wr cd data
    let w2 := wrbuf_iconv_putchar w1 cd 32
    isoPass2 cd indicator_length ns (wrbuf_putc (wrbuf_unput w2) ISO2709_FS)
  | .comment _ :: ns, wr => isoPass2 cd indicator_length ns wr
  | .leader _ :: ns, wr => isoPass2 cd indicator_length ns wr

/-- `yaz_marc_write_iso2709`: result code and output buffer. -/
def yaz_marc_write_iso2709 (mt : yaz_marc_t) (wr : Bytes) : Int × Bytes :=
  match lastLeader mt.nodes none with
  | none => (-1, wr)
  | some leader =>
    match atoi_n_check (leader.drop 10) 1 with
    | none => (-1, wr)
    | some indicator_length =>
    match atoi_n_check (leader.drop 11) 1 with
    | none => (-1, wr)
    | some _identifier_length =>
    match atoi_n_check (leader.drop 20) 1 with
    | none => (-1, wr)
    | some length_data_entry =>
    match atoi_n_check (leader.drop 21) 1 with
    | none => (-1, wr)
    | some length_starting =>
    match atoi_n_check (leader.drop 22) 1 with
    | none => (-1, wr)
    | some _length_implementation =>
      let p1 := isoPass1 mt.iconv_cd indicator_length length_data_entry length_starting
        mt.nodes ([], 0)
      let wr_dir := wrbuf_putc p1.1 ISO2709_FS
      let data_offset := p1.2
      let base_address := 24 + wr_dir.length
      let h1 : Bytes := pad0 5 (base_address + data_offset + 1)
      let h2 := wrbuf_write h1 (leader.drop 5) 7
      let h3 := h2 ++ pad0 5 base_address
      let wr_head := wrbuf_write h3 (leader.drop 17) 7
      let w1 := wrbuf_write wr wr_head 24
      let w2 := wrbuf_write w1 wr_dir wr_dir.length
      let w3 := isoPass2 mt.iconv_cd indicator_length mt.nodes w2
      (0, w3 ++ [ISO2709_RS])

/-- `yaz_marc_write_mode`: dispatch on the output mode; result code, output
buffer and handle. -/
def yaz_marc_write_mode (mt : yaz_marc_t) (wr : Bytes) : Int × Bytes × yaz_marc_t :=
  if mt.xml = YAZ_MARC_LINE then
    ((yaz_marc_write_line mt wr).1, (yaz_marc_write_line mt wr).2, mt)
  else if mt.xml = YAZ_MARC_MARCXML then yaz_marc_write_marcxml mt wr
  else if mt.xml = YAZ_MARC_XCHANGE then
    ((yaz_marc_write_marcxchange mt wr none none).1,
      (yaz_marc_write_marcxchange mt wr none none).2, mt)
  else if mt.xml = YAZ_MARC_ISO2709 then
    ((yaz_marc_write_iso2709 mt wr).1, (yaz_marc_write_iso2709 mt wr).2, mt)
  else (-1, wr, mt)

/-! ## ISO2709 reader -/

/-- Outcome of the directory scan (first pass) of `yaz_marc_read_iso2709`:
`fatal` is the `return -1` inside the loop, `stop` leaves the loop with the
final `entry_p`. -/
inductive DirScan where
  | fatal (mt : yaz_marc_t)
  | stop (mt : yaz_marc_t) (entry_p : Nat)

/-- The digit check of the directory scan, `while (--l >= 3) if (!isdigit
(buf[entry_p + l])) break;` followed by the test `l >= 3`: true when some byte
of the length/offset portion is not a digit. -/
def dirEntryBad (buf : Bytes) (entry_p l : Nat) : Bool :=
  !((mem buf (entry_p + 3) (l - 3)).all isdigit)

/-- The first pass of `yaz_marc_read_iso2709`, started with `entry_p`; `none`
when `fuel` rounds did not finish the loop. -/
def dirScan (buf : Bytes) (record_length length_data_entry length_starting : Nat) :
    Nat → yaz_marc_t → Nat → Option DirScan
  | 0, _, _ => none
  | fuel + 1, mt, entry_p =>
    if peek buf entry_p ≠ ISO2709_FS then
      let l := 3 + length_data_entry + length_starting
      if entry_p + l ≥ record_length then
        some (.fatal (yaz_marc_cprintf mt
          (str "Directory offset " ++ dec entry_p ++ str ": end of record. Missing FS char")))
      else
        let mt1 :=
          if mt.debug ≠ 0 then
            yaz_marc_cprintf mt (str "Directory offset " ++ dec entry_p ++ str ": Tag "
              ++ (cstr (mem buf entry_p 3)))
          else mt
        if dirEntryBad buf entry_p l then
          some (.stop (yaz_marc_cprintf mt1 (str "Directory offset " ++ dec entry_p
            ++ str ": Bad value for data length and/or length starting")) entry_p)
        else dirScan buf record_length length_data_entry length_starting fuel mt1
          (entry_p + 3 + length_data_entry + length_starting)
    else some (.stop mt entry_p)

/-- The loop `while (i < end_offset && !stop (buf[i])) i++`, run with
`end_offset - i` rounds available. -/
def scanWhile (buf : Bytes) (stop : Nat → Bool) : Nat → Nat → Nat
  | 0, i => i
  | n + 1, i => if stop (peek buf i) then i else scanWhile buf stop n (i + 1)

/-- Stop bytes of the outer subfield loop and of the control-field loop. -/
def isRsFs (c : Nat) : Bool := decide (c = ISO2709_RS) || decide (c = ISO2709_FS)

/-- Stop bytes of the inner subfield loop. -/
def isRsIdfsFs (c : Nat) : Bool :=
  decide (c = ISO2709_RS) || decide (c = ISO2709_IDFS) || decide (c = ISO2709_FS)

/-- The subfield loop of the reader: while `i < end_offset` and `buf[i]` is
neither RS nor FS, skip one byte, scan to the next separator and add the
bytes in between as a subfield.  Every round advances `i`, so `end_offset - i`
rounds suffice. -/
def readSubfields (buf : Bytes) (end_offset : Nat) : Nat → yaz_marc_t → Nat → yaz_marc_t × Nat
  | 0, mt, i => (mt, i)
  | fuel + 1, mt, i =>
    if i < end_offset ∧ peek buf i ≠ ISO2709_RS ∧ peek buf i ≠ ISO2709_FS then
      let code_offset := i + 1
      let i1 := scanWhile buf isRsIdfsFs (end_offset - (i + 1)) (i + 1)
      readSubfields buf end_offset fuel
        (yaz_marc_add_subfield mt (buf.drop code_offset) (i1 - code_offset)) i1
    else (mt, i)

/-- The classification `identifier_flag` of a field starting at `i`. -/
def identifierFlag (buf : Bytes) (tag : Bytes) (indicator_length i : Nat) : Nat :=
  if tag.take 2 ≠ [48, 48] then 1
  else if indicator_length < 4 ∧ indicator_length > 0 then
    if peek buf (i + indicator_length) = ISO2709_IDFS then 1
    else if peek buf (i + indicator_length + 1) = ISO2709_IDFS then 2
    else 0
  else 0

/-- The part of a round of the second pass after the bounds checks: classify
the field, add its node(s) and the two separator diagnostics. -/
def readField (buf : Bytes) (f : LeaderFields) (mt : yaz_marc_t) (tag : Bytes)
    (data_length i0 end_offset : Nat) : yaz_marc_t :=
  let identifier_flag := identifierFlag buf tag f.indicator_length i0
  let r : yaz_marc_t × Nat :=
    if identifier_flag ≠ 0 then
      let i := i0 + (identifier_flag - 1)
      let mt1 := yaz_marc_add_datafield mt tag (buf.drop i) f.indicator_length
      let i1 := i + f.indicator_length
      readSubfields buf end_offset (end_offset - i1) mt1 i1
    else
      let i := scanWhile buf isRsFs (end_offset - i0) i0
      (yaz_marc_add_controlfield mt tag (buf.drop i0) (i - i0), i)
  let mt2 :=
    if r.2 < end_offset then
      yaz_marc_cprintf r.1 (str "Separator but not at end of field length=" ++ dec data_length)
    else r.1
  if peek buf r.2 ≠ ISO2709_RS ∧ peek buf r.2 ≠ ISO2709_FS then
    yaz_marc_cprintf mt2 (str "No separator at end of field length=" ++ dec data_length)
  else mt2

/-- The second pass of `yaz_marc_read_iso2709`, started with `entry_p`; `none`
when `fuel` rounds did not finish the loop. -/
def fieldPass (buf : Bytes) (record_length : Nat) (f : LeaderFields) (end_of_directory : Nat) :
    Nat → yaz_marc_t → Nat → Option yaz_marc_t
  | 0, _, _ => none
  | fuel + 1, mt, entry_p =>
    if entry_p ≠ end_of_directory then
      let entry_p0 := entry_p
      let tag := mem buf entry_p 3
      let data_length := atoi_n (buf.drop (entry_p + 3)) f.length_data_entry
      let data_offset :=
        atoi_n (buf.drop (entry_p + 3 + f.length_data_entry)) f.length_starting
      let i := data_offset + f.base_address
      let end_offset := i + data_length - 1
      if data_length ≤ 0 ∨ data_offset < 0 then some mt
      else
        let mt1 :=
          if mt.debug ≠ 0 then
            yaz_marc_cprintf mt (str "Tag: " ++ cstr tag ++ str ". Directory offset "
              ++ dec entry_p0 ++ str ": data-length " ++ dec data_length
              ++ str ", data-offset " ++ dec data_offset)
          else mt
        if end_offset ≥ record_length then
          some (yaz_marc_cprintf mt1 (str "Directory offset " ++ dec entry_p0
            ++ str ": Data out of bounds " ++ dec end_offset ++ str " >= "
            ++ dec record_length))
        else
          fieldPass buf record_length f end_of_directory fuel
            (readField buf f mt1 tag data_length i end_offset)
            (entry_p + 3 + f.length_data_entry + f.length_starting)
    else some mt

/-- `%d` for an `int`. -/
def decInt (z : Int) : Bytes := if z < 0 then 45 :: dec z.natAbs else dec z.natAbs

/-- `yaz_marc_read_iso2709`: result code and handle; `none` only if one of the
two passes over the directory did not finish within `record_length` rounds
(`read_iso2709_total` shows that this does not happen). -/
def yaz_marc_read_iso2709 (mt : yaz_marc_t) (buf : Bytes) (bsize : Int) :
    Option (Int × yaz_marc_t) :=
  let mt0 := yaz_marc_reset mt
  let record_length := atoi_n buf 5
  if record_length < 25 then
    some (-1, yaz_marc_cprintf mt0 (str "Record length " ++ dec record_length ++ str " < 24"))
  else if bsize ≠ -1 ∧ (record_length : Int) > bsize then
    some (-1, yaz_marc_cprintf mt0 (str "Record appears to be larger than buffer "
      ++ dec record_length ++ str " < " ++ decInt bsize))
  else
    let mt1 :=
      if mt0.debug ≠ 0 then
        yaz_marc_cprintf mt0 (str "Record length         " ++ padSp 5 record_length)
      else mt0
    let r := yaz_marc_read_leader mt1 buf
    let f := r.2
    match dirScan buf record_length f.length_data_entry f.length_starting record_length r.1 24 with
    | none => none
    | some (.fatal mt2) => some (-1, mt2)
    | some (.stop mt2 entry_p) =>
      let end_of_directory := entry_p
      let mt3 :=
        if f.base_address ≠ entry_p + 1 then
          yaz_marc_cprintf mt2 (str "Base address not at end of directory, base "
            ++ dec f.base_address ++ str ", end " ++ dec (entry_p + 1))
        else mt2
      match fieldPass buf record_length f end_of_directory record_length mt3 24 with
      | none => none
      | some mt4 => some ((record_length : Int), mt4)



/-! ## Auxiliary definitions used in the statements and proofs -/

/-- The leader copy after one single-digit field has been resolved. -/
def stepLeader (l : Bytes) (off d : Nat) : Bytes :=
  if isdigit (peek l off) then l else poke l off [48 + d]

/-- The comment nodes emitted when the byte at `off` is checked. -/
def stepComment (l : Bytes) (off : Nat) (msg : Bytes) : List yaz_marc_node :=
  if isdigit (peek l off) then [] else [.comment msg]

/-- The leader bytes stored by `yaz_marc_read_leader` for a 24-byte input. -/
def patchedLeader (L : Bytes) : Bytes :=
  stepLeader (stepLeader (stepLeader (stepLeader (stepLeader L 10 2) 11 2) 20 4) 21 5) 22 0

/-- What the claim about the single-digit leader fields says of one field: the
input leader `L`, the bytes `L1` of the Leader node, the comment texts `cs`
emitted, the offset `o`, its default `d`, the comment text `msg` of the field
and the resolved value `v`. -/
def DigitField (L L1 : Bytes) (cs : List Bytes) (o d : Nat) (msg : Bytes) (v : Nat) : Prop :=
  (isdigit (peek L o) = true → v = peek L o - 48 ∧ peek L1 o = peek L o ∧ msg ∉ cs) ∧
  (isdigit (peek L o) = false → v = d ∧ peek L1 o = 48 + d ∧ cs.count msg = 1)

/-- The comment texts emitted by the leader codec for a 24-byte leader. -/
def leaderComments (L : Bytes) : List Bytes :=
  (if isdigit (peek L 10) then [] else [msgIndicator])
    ++ (if isdigit (peek L 11) then [] else [msgIdentifier])
    ++ (if isdigit (peek L 12) then [] else [msgBase])
    ++ (if isdigit (peek L 20) then [] else [msgDataEntry])
    ++ (if isdigit (peek L 21) then [] else [msgStarting])
    ++ (if isdigit (peek L 22) then [] else [msgImplementation])

/-- A leader with a non-digit at offsets 11 and 20. -/
def sampleLeader : Bytes := str "00000nam a2x00000 a x500"

/-- A record model without a Leader node. -/
def noLeaderModel : yaz_marc_t :=
  { yaz_marc_create with
    nodes := [.controlfield (str "001") (str "abc"),
      .datafield (str "245") (str "10") [str "aTitle"], .comment (str "note")] }

/-- The five leader offsets whose bytes `yaz_marc_write_iso2709` checks. -/
def isoLeaderOffsets : List Nat := [10, 11, 20, 21, 22]

/-- A record model with a Leader node whose byte 20 is not a digit. -/
def badDigitModel : yaz_marc_t :=
  { yaz_marc_create with
    nodes := [.leader sampleLeader, .controlfield (str "001") (str "abc")] }

/-- The `w` low-order decimal digits of `v`, most significant first. -/
def digitsW : Nat → Nat → Bytes
  | 0, _ => []
  | w + 1, v => digitsW w (v / 10) ++ [48 + v % 10]

/-- The step of the fold in `atoi_n`. -/
def atoiStep (val c : Nat) : Nat := if isdigit c then val * 10 + (c - 48) else val

/-- The six numbers the leader codec resolves, as a function of the leader
bytes alone. -/
def leaderFieldsOf (L : Bytes) : LeaderFields :=
  { indicator_length := if isdigit (peek L 10) then peek L 10 - 48 else 2,
    identifier_length := if isdigit (peek L 11) then peek L 11 - 48 else 2,
    base_address := if isdigit (peek L 12) then atoi_n (L.drop 12) 5 else 0,
    length_data_entry := if isdigit (peek L 20) then peek L 20 - 48 else 4,
    length_starting := if isdigit (peek L 21) then peek L 21 - 48 else 5,
    length_implementation := if isdigit (peek L 22) then peek L 22 - 48 else 0 }

/-- The directory scan passes over entry `k` (entries have width `l` and start
at offset 24): its first byte is not the field separator, it ends before the
end of the record, and its length/offset portion is all digits. -/
def EntryPassed (buf : Bytes) (n l k : Nat) : Prop :=
  peek buf (24 + k * l) ≠ ISO2709_FS ∧ 24 + k * l + l < n ∧
    dirEntryBad buf (24 + k * l) l = false

/-- Entry `k` is the first the scan does not pass, because it would run to or
past the end of the record. -/
def DirOverrun (buf : Bytes) (n l k : Nat) : Prop :=
  (∀ j, j < k → EntryPassed buf n l j) ∧ peek buf (24 + k * l) ≠ ISO2709_FS ∧
    24 + k * l + l ≥ n

/-- Entry `k` is the first the scan does not pass, because its length/offset
portion is not all digits. -/
def DirBadDigits (buf : Bytes) (n l k : Nat) : Prop :=
  (∀ j, j < k → EntryPassed buf n l j) ∧ peek buf (24 + k * l) ≠ ISO2709_FS ∧
    24 + k * l + l < n ∧ dirEntryBad buf (24 + k * l) l = true

/-- The scan passes `k` entries and then finds the field separator. -/
def DirTerminated (buf : Bytes) (n l k : Nat) : Prop :=
  (∀ j, j < k → EntryPassed buf n l j) ∧ peek buf (24 + k * l) = ISO2709_FS

/-- A 30-byte record whose only directory entry would end past the record. -/
def overrunRecord : Bytes := str "00030nam a2200025 a 4500001000"

/-- A 40-byte record whose first directory entry has a letter in its length. -/
def badDigitsRecord : Bytes := str "00040nam a2200037 a 4500001000x00000" ++ [30, 97, 30, 29]

/-- Control fields and data fields are the nodes that get a directory entry. -/
def isField : yaz_marc_node → Bool
  | .datafield _ _ _ => true
  | .controlfield _ _ => true
  | _ => false

/-- The tag bytes put into the directory for a node (`%.3s`). -/
def dirTag : yaz_marc_node → Bytes
  | .datafield tag _ _ => (cstr tag).take 3
  | .controlfield tag _ => (cstr tag).take 3
  | _ => []

/-- The bytes emitted for one node in pass 2 of the ISO2709 writer when no
converter is set. -/
def fieldBody (il : Nat) : yaz_marc_node → Bytes
  | .datafield _ ind ss =>
    (cstr ind).take il ++ (ss.map (fun s => ISO2709_IDFS :: cstr s)).flatten ++ [ISO2709_FS]
  | .controlfield _ d => cstr d ++ [ISO2709_FS]
  | _ => []

/-- The `data_length` computed for one node in pass 1 of the ISO2709 writer
when no converter is set. -/
def declaredLength (il : Nat) : yaz_marc_node → Nat
  | .datafield _ _ ss => il + ((ss.map (fun s => 1 + (cstr s).length)).sum + 1)
  | .controlfield _ d => (cstr d).length + 1
  | _ => 0

/-- The directory bytes built in pass 1 (no converter), the first field having
offset `off`. -/
def directory (il lde ls : Nat) : List yaz_marc_node → Nat → Bytes
  | [], _ => []
  | n :: ns, off =>
    (if isField n then dirTag n ++ pad0 lde (declaredLength il n) ++ pad0 ls off else [])
      ++ directory il lde ls ns (off + declaredLength il n)

/-- All field bodies of a node list in order. -/
def bodies (il : Nat) (ns : List yaz_marc_node) : Bytes := (ns.map (fieldBody il)).flatten

/-- The sum of the `data_length` values of a node list. -/
def declaredTotal (il : Nat) (ns : List yaz_marc_node) : Nat := (ns.map (declaredLength il)).sum

/-- The 24 header bytes as the specification describes them: 5-digit record
length, leader bytes 5-11, 5-digit base address, leader bytes 17-23. -/
def isoHeader (leader : Bytes) (total base : Nat) : Bytes :=
  pad0 5 total ++ (leader.drop 5).take 7 ++ pad0 5 base ++ (leader.drop 17).take 7

/-- Every data field of the node list has at least `il` indicator bytes. -/
def IndicatorsCover (il : Nat) (ns : List yaz_marc_node) : Prop :=
  ∀ tag ind ss, yaz_marc_node.datafield tag ind ss ∈ ns → il ≤ (cstr ind).length

/-- The indicator length a leader declares (byte 10). -/
def ilOf (leader : Bytes) : Nat := peek leader 10 - 48

/-- The length-of-field-length a leader declares (byte 20). -/
def ldeOf (leader : Bytes) : Nat := peek leader 20 - 48

/-- The length-of-starting-position a leader declares (byte 21). -/
def lsOf (leader : Bytes) : Nat := peek leader 21 - 48

/-- The directory the ISO2709 writer builds for a node list under a leader. -/
def isoDirectory (leader : Bytes) (ns : List yaz_marc_node) : Bytes :=
  directory (ilOf leader) (ldeOf leader) (lsOf leader) ns 0

/-- The field bodies the ISO2709 writer emits for a node list under a leader. -/
def isoBodies (leader : Bytes) (ns : List yaz_marc_node) : Bytes := bodies (ilOf leader) ns

/-- Base address: 24 + directory length + 1. -/
def isoBase (leader : Bytes) (ns : List yaz_marc_node) : Nat :=
  24 + (isoDirectory leader ns).length + 1

/-- Number of bytes of the record: header, directory, terminator, bodies,
record separator. -/
def isoTotal (leader : Bytes) (ns : List yaz_marc_node) : Nat :=
  isoBase leader ns + (isoBodies leader ns).length + 1

/-- The directory as the specification describes it, one entry per field node:
the tag, the body length in `lde` digits and the offset in `ls` digits, the
offset being the sum of the body lengths of the earlier entries. -/
def specDirectory (il lde ls : Nat) : List yaz_marc_node → Nat → List Bytes
  | [], _ => []
  | n :: ns, off =>
    if isField n then
      (dirTag n ++ digitsW lde (fieldBody il n).length ++ digitsW ls off)
        :: specDirectory il lde ls ns (off + (fieldBody il n).length)
    else specDirectory il lde ls ns off

/-- Every body length fits `lde` digits and every offset fits `ls` digits. -/
def DirFits (il lde ls : Nat) : List yaz_marc_node → Nat → Prop
  | [], _ => True
  | n :: ns, off =>
    (isField n = true → (fieldBody il n).length < 10 ^ lde ∧ off < 10 ^ ls)
      ∧ DirFits il lde ls ns (off + (fieldBody il n).length)

/-- Every field node has a tag of at least three bytes. -/
def TagsCover (ns : List yaz_marc_node) : Prop :=
  ∀ n ∈ ns, isField n = true → (dirTag n).length = 3

/-- A usual leader: indicator length 2, identifier length 2, directory widths
4 and 5. -/
def plainLeader : Bytes := str "00000nam a2200000 a 4500"

/-- A model whose data field has no indicator bytes although the leader
declares two. -/
def shortIndicatorModel : yaz_marc_t :=
  { yaz_marc_create with
    nodes := [.leader plainLeader, .datafield (str "245") [] [str "aT"]] }

/-- A leader with directory widths 5 and 5. -/
def wideLeader : Bytes := str "00000nam a2200000 a 5500"

/-- Control-field data of 99960 letters `A`. -/
def bigData : Bytes := List.replicate 99960 65

/-- A model with one control field holding `d`. -/
def oneControlModel (d : Bytes) : yaz_marc_t :=
  { yaz_marc_create with
    nodes := [.leader wideLeader, .controlfield (str "001") d] }

/-- A model whose record takes exactly 100000 bytes. -/
def bigModel : yaz_marc_t := oneControlModel bigData

/-- A small well-formed model: one control field and one data field. -/
def smallModel : yaz_marc_t :=
  { yaz_marc_create with
    nodes := [.leader plainLeader, .controlfield (str "001") (str "abc"),
      .comment (str "note"), .datafield (str "245") (str "10") [str "aTitle", str "bSub"]] }

/-- A leader with directory widths 1 and 1. -/
def narrowLeader : Bytes := str "00000nam a2200000 a 1100"

/-- A model whose control field body takes 10 bytes under directory widths 1
and 1. -/
def narrowModel : yaz_marc_t :=
  { yaz_marc_create with
    nodes := [.leader narrowLeader, .controlfield (str "001") (str "123456789")] }

/-- The texts of the six debug comments of the leader codec, as stored. -/
def leaderDebugComments (f : LeaderFields) : List Bytes :=
  [cstr ((cstr (str "Indicator length      " ++ padSp 5 f.indicator_length)).take 199),
   cstr ((cstr (str "Identifier length     " ++ padSp 5 f.identifier_length)).take 199),
   cstr ((cstr (str "Base address          " ++ padSp 5 f.base_address)).take 199),
   cstr ((cstr (str "Length data entry     " ++ padSp 5 f.length_data_entry)).take 199),
   cstr ((cstr (str "Length starting       " ++ padSp 5 f.length_starting)).take 199),
   cstr ((cstr (str "Length implementation " ++ padSp 5 f.length_implementation)).take 199)]

/-- The leader offsets that hold decimal digits in a valid leader: 10, 11, 12-16, 20, 21, 22. -/
def leaderDigitOffsets : List Nat := [10, 11, 12, 13, 14, 15, 16, 20, 21, 22]

/-! ## Line mode -/

/-- `yaz_marc_subfield_str`: `strncpy` of at most 7 bytes into the 8-byte
field, NUL-terminated. -/
def yaz_marc_subfield_str (mt : yaz_marc_t) (s : Bytes) : yaz_marc_t :=
  { mt with subfield_str := (cstr s).take 7 }

/-- `yaz_marc_endline_str`: `strncpy` of at most 7 bytes into the 8-byte
field, NUL-terminated. -/
def yaz_marc_endline_str (mt : yaz_marc_t) (s : Bytes) : yaz_marc_t :=
  { mt with endline_str := (cstr s).take 7 }

/-- What `yaz_marc_write_line` appends for one node when no converter is set
and the identifier length is `il`. -/
def lineOf (mt : yaz_marc_t) (il : Nat) : yaz_marc_node → Bytes
  | .datafield tag indicator subfields =>
    cstr tag ++ [32] ++ cstr indicator
      ++ (subfields.map (fun s => cstr mt.subfield_str ++ mem s 0 (using_code_len mt il s)
            ++ [32] ++ cstr (s.drop (using_code_len mt il s)))).flatten
      ++ cstr mt.endline_str
  | .controlfield tag data => cstr tag ++ [32] ++ cstr data ++ cstr mt.endline_str
  | .comment text => [40] ++ cstr text ++ [41, 10]
  | .leader l => cstr l ++ [10]

/-- The record of the line-mode example: a leader with identifier length 2, the
control field `001` with value `abc`, and the data field `245` with two spaces
as indicators and the subfield `a` + `Title`. -/
def lineModel : yaz_marc_t :=
  { yaz_marc_create with
    nodes := [.leader plainLeader, .controlfield (str "001") (str "abc"),
      .datafield (str "245") (str "  ") [str "aTitle"]] }

/-- A record with all four kinds of node, for a handle whose line terminator
has been set to `|`. -/
def barModel : yaz_marc_t :=
  { yaz_marc_endline_str yaz_marc_create (str "|") with
    nodes := [.leader plainLeader, .comment (str "note"),
      .controlfield (str "001") (str "abc"), .datafield (str "245") (str "10") [str "aTitle"]] }

/-! ## Comments and the ISO2709 writer -/

/-- Whether a node is a Comment node. -/
def isComment : yaz_marc_node → Bool
  | .comment _ => true
  | _ => false

/-- A node list with all Comment nodes deleted. -/
def dropComments (ns : List yaz_marc_node) : List yaz_marc_node :=
  ns.filter (fun n => !isComment n)

/-- A record model with comments between its nodes. -/
def commentedModel : yaz_marc_t :=
  { yaz_marc_create with
    nodes := [.comment (str "first"), .leader plainLeader, .comment (str "note"),
      .controlfield (str "001") (str "abc"), .comment (str "x"),
      .datafield (str "245") (str "10") [str "aTitle"], .comment (str "last")] }

/-- The same record without the comments. -/
def uncommentedModel : yaz_marc_t :=
  { yaz_marc_create with
    nodes := [.leader plainLeader, .controlfield (str "001") (str "abc"),
      .datafield (str "245") (str "10") [str "aTitle"]] }

/-! ## Leader-spec -/

/-- `yaz_marc_leader_spec`: clear the handle's leader-spec; a non-null
specification is tried on the scratch array `dummy_leader[24]` (whose content
is not initialised, hence a parameter here) and kept (`xstrdup`) only if
`marc_exec_leader` returns 0. -/
def yaz_marc_leader_spec (mt : yaz_marc_t) (leader_spec : Option Bytes)
    (dummy_leader : Bytes) : Int × yaz_marc_t :=
  match leader_spec with
  | none => (0, { mt with leader_spec := none })
  | some s =>
    if (marc_exec_leader (some s) dummy_leader 24).1 ≠ 0 then
      (-1, { mt with leader_spec := none })
    else (0, { mt with leader_spec := some (cstr s) })

/-- One round of the loop of `marc_exec_leader` at the cursor `cp`, leaving
the leader out: `none` when the round returns -1, otherwise the position and
the bytes the round writes. -/
def execEntry (cp : Bytes) (size : Nat) : Option (Nat × Bytes) :=
  match sscanf_entry cp with
  | (no, pos, val, no_read) =>
    if no < 2 ∨ no_read < 3 then none
    else if pos < 0 ∨ pos ≥ (size : Int) then none
    else if peek val 0 = 39 then
      if 39 ∈ val.drop 1 then
        if ((val.drop 1).takeWhile (fun c => c != 39)).length + pos.toNat > size then none
        else some (pos.toNat,
          (val.drop 1).take ((val.drop 1).takeWhile (fun c => c != 39)).length)
      else none
    else if 48 ≤ peek val 0 ∧ peek val 0 ≤ 57 then
      some (pos.toNat,
        [char_of_int (scan_int false
          (atoi_n (val.takeWhile isdigit) (val.takeWhile isdigit).length))])
    else none

/-- The entries of a leader-spec: the pieces between its commas. -/
def splitComma : Bytes → List Bytes
  | [] => [[]]
  | c :: cs =>
    if c = 44 then [] :: splitComma cs
    else
      match splitComma cs with
      | [] => [[c]]
      | e :: es => (c :: e) :: es

/-- The entries of the leader-spec string `S`. -/
def leaderSpecEntries (S : Bytes) : List Bytes := splitComma (cstr S)

/-- The text of the entry at the start of `s`: the bytes before the first
comma. -/
def entryText (s : Bytes) : Bytes := s.takeWhile (fun c => c != 44)

/-- The position text of an entry `pos=value`: the bytes before the first `=`. -/
def entryPosText (e : Bytes) : Bytes := e.takeWhile (fun c => c != 61)

/-- The value text of an entry `pos=value`: the bytes after the first `=`. -/
def entryValue (e : Bytes) : Bytes := (e.dropWhile (fun c => c != 61)).drop 1

/-- The digits of a decimal number text: what follows the leading white space
and an optional sign. -/
def unsignedPart (t : Bytes) : Bytes :=
  match t.dropWhile isspace with
  | 45 :: u => u
  | 43 :: u => u
  | u => u

/-- Whether a decimal number text carries a minus sign. -/
def isNegative (t : Bytes) : Bool :=
  match t.dropWhile isspace with
  | 45 :: _ => true
  | _ => false

/-- A decimal number text: optional white space, an optional sign, and one or
more decimal digits. -/
def isNumber (t : Bytes) : Bool := (unsignedPart t != []) && (unsignedPart t).all isdigit

/-- The `int` that a decimal number text becomes when it is read by `%d` or
`atoi`: its value, clamped to the range of `long` and reduced modulo `2^32`
to the range of `int`. -/
def storedInt (t : Bytes) : Int :=
  scan_int (isNegative t) (atoi_n (unsignedPart t) (unsignedPart t).length)

/-- The position an entry names, as the `int` variable `pos` holds it. -/
def entryPos (e : Bytes) : Nat := (storedInt (entryPosText e)).toNat

/-- The literal of a quoted value: the bytes between the opening quote and the
next quote. -/
def quotedLiteral (v : Bytes) : Bytes := (v.drop 1).takeWhile (fun c => c != 39)

/-- The bytes an entry stands for: the literal of a quoted value, or the one
byte that receives the `int` of the decimal value (`atoi`) reduced to a byte. -/
def entryBytes (e : Bytes) : Bytes :=
  if peek (entryValue e) 0 = 39 then quotedLiteral (entryValue e)
  else [char_of_int (scan_int false
    (atoi_n ((entryValue e).takeWhile isdigit) ((entryValue e).takeWhile isdigit).length))]

/-- The number of leader bytes an entry covers: the literal length for a
quoted value, one byte otherwise. -/
def entryLen (e : Bytes) : Nat :=
  if peek (entryValue e) 0 = 39 then (quotedLiteral (entryValue e)).length else 1

/-- Apply entries to a leader in order. -/
def applyEntries (es : List Bytes) (L : Bytes) : Bytes :=
  es.foldl (fun l e => poke l (entryPos e) (entryBytes e)) L

/-- Defect (a): the position is not a decimal number. -/
def PositionNotDecimal (e : Bytes) : Prop := isNumber (entryPosText e) = false

/-- Defect (b): the position, as the `int` variable `pos` holds it, is
negative or at least `size`. -/
def PositionOutOfRange (size : Nat) (e : Bytes) : Prop :=
  isNumber (entryPosText e) = true ∧
    (storedInt (entryPosText e) < 0 ∨ (size : Int) ≤ storedInt (entryPosText e))

/-- Defect (c): the value starts with a single quote and has no closing quote. -/
def UnterminatedQuote (e : Bytes) : Prop :=
  peek (entryValue e) 0 = 39 ∧ 39 ∉ (entryValue e).drop 1

/-- Defect (d): a quoted literal that would run past the end of the leader. -/
def LiteralOverflow (size : Nat) (e : Bytes) : Prop :=
  peek (entryValue e) 0 = 39 ∧ 39 ∈ (entryValue e).drop 1 ∧
    size < entryPos e + (quotedLiteral (entryValue e)).length

/-- A value that starts with neither a single quote nor a decimal digit (the
empty value included). -/
def ValueUnclassified (e : Bytes) : Prop :=
  peek (entryValue e) 0 ≠ 39 ∧ isdigit (peek (entryValue e) 0) = false

/-- Any of the defects of an entry for a leader of `size` bytes. -/
def EntryDefect (size : Nat) (e : Bytes) : Prop :=
  PositionNotDecimal e ∨ PositionOutOfRange size e ∨ UnterminatedQuote e ∨
    LiteralOverflow size e ∨ ValueUnclassified e

/-- The parser reaches entry `k` of `es` only if no earlier value is cut at 20
bytes. -/
def EntryReached (es : List Bytes) (k : Nat) : Prop :=
  ∀ e ∈ es.take k, (entryValue e).length ≤ 20

/-- The sign stage of the `%d` conversion: whether a minus sign was read, the
text after the sign, and the number of bytes the sign takes. -/
def signOf (s1 : Bytes) : Bool × Bytes × Nat :=
  match s1 with
  | 45 :: t => (true, t, 1)
  | 43 :: t => (false, t, 1)
  | _ => (false, s1, 0)

/-- A leader-spec whose value starts with a digit and goes on with a letter. -/
def digitJunkSpec : Bytes := str "5=1x"

/-- A leader-spec whose first value has 21 digits and whose second value is
neither quoted nor decimal. -/
def longValueSpec : Bytes := str "0=000000000000000000065,5=x"

/-- A leader-spec whose second value is neither quoted nor decimal. -/
def letterSpec : Bytes := str "0='a',22=x"

/-- A leader-spec with three well-formed entries. -/
def threeSpec : Bytes := str "5='x',6=65,17='zz'"

/-- A leader-spec whose second entry is rejected after the first has been
applied. -/
def lateFailSpec : Bytes := str "0='X',99=1"

/-- A leader-spec whose first value has 21 digits, followed by a well-formed
entry. -/
def truncSpec : Bytes := str "0=000000000000000000065,5='x'"


/-! ## XML reader -/

/-- The node types of libxml2 (`xmlElementType`) the reader tells apart. -/
inductive xmlElementType where
  | XML_ELEMENT_NODE
  | XML_TEXT_NODE
  | XML_OTHER_NODE
deriving DecidableEq

/-- An externally parsed XML node (`xmlNode` of libxml2): type, name, content,
the attribute list `properties` (each `xmlAttr` with its name and children) and
the children.  A sibling chain (`next`) is a list, a null pointer the empty
list. -/
inductive xmlNode where
  | mk (type : xmlElementType) (name content : Bytes)
      (properties : List (Bytes × List xmlNode)) (children : List xmlNode)

/-- Field `type` of an `xmlNode`. -/
def xmlNode.type : xmlNode → xmlElementType
  | .mk t _ _ _ _ => t

/-- Field `name` of an `xmlNode`. -/
def xmlNode.name : xmlNode → Bytes
  | .mk _ n _ _ _ => n

/-- Field `content` of an `xmlNode`. -/
def xmlNode.content : xmlNode → Bytes
  | .mk _ _ c _ _ => c

/-- Field `properties` of an `xmlNode`. -/
def xmlNode.properties : xmlNode → List (Bytes × List xmlNode)
  | .mk _ _ _ p _ => p

/-- Field `children` of an `xmlNode`. -/
def xmlNode.children : xmlNode → List xmlNode
  | .mk _ _ _ _ c => c

/-- Modelled from the spec: `nmem_text_node_cdata` of `nmem.c` (not among the
sources) gives the "text content" of a sibling chain: the contents of its text
nodes, concatenated. -/
def nmem_text_node_cdata (ptr : List xmlNode) : Bytes :=
  ((ptr.filter (fun p => p.type = .XML_TEXT_NODE)).map (fun p => cstr p.content)).flatten

/-- `yaz_marc_add_controlfield_xml`. -/
def yaz_marc_add_controlfield_xml (mt : yaz_marc_t) (ptr_tag ptr_data : List xmlNode) :
    yaz_marc_t :=
  yaz_marc_add_node mt (.controlfield (nmem_text_node_cdata ptr_tag)
    (nmem_text_node_cdata ptr_data))

/-- `yaz_marc_add_datafield_xml`: the new node becomes the target of the
subfield cursor. -/
def yaz_marc_add_datafield_xml (mt : yaz_marc_t) (ptr_tag : List xmlNode)
    (indicator : Bytes) (indicator_len : Nat) : yaz_marc_t :=
  { yaz_marc_add_node mt
      (.datafield (nmem_text_node_cdata ptr_tag) (mem indicator 0 indicator_len) []) with
    subfield_pp := some mt.nodes.length }

/-- The attribute loop of a `subfield` element: the children of the last
`code` attribute, or the name of the first other attribute. -/
def subfieldAttrs : List (Bytes × List xmlNode) → List xmlNode → Except Bytes (List xmlNode)
  | [], ptr_code => .ok ptr_code
  | (name, children) :: attrs, _ptr_code =>
    if cstr name = str "code" then subfieldAttrs attrs children
    else .error name

/-- `yaz_marc_read_xml_subfields`: result code and handle. -/
def yaz_marc_read_xml_subfields (mt : yaz_marc_t) : List xmlNode → Int × yaz_marc_t
  | [] => (0, mt)
  | ptr :: next =>
    if ptr.type = .XML_ELEMENT_NODE then
      if cstr ptr.name = str "subfield" then
        match subfieldAttrs ptr.properties [] with
        | .error name =>
          (-1, yaz_marc_cprintf mt
            (str "Bad attribute '" ++ (cstr name).take 80 ++ str "' for 'subfield'"))
        | .ok [] => (-1, yaz_marc_cprintf mt (str "Missing attribute 'code' for 'subfield'"))
        | .ok (ptr_code :: _) =>
          if ptr_code.type = .XML_TEXT_NODE then
            let ctrl_data_buf := cstr ptr_code.content ++ nmem_text_node_cdata ptr.children
            yaz_marc_read_xml_subfields
              (yaz_marc_add_subfield mt ctrl_data_buf ctrl_data_buf.length) next
          else (-1, yaz_marc_cprintf mt (str "Missing value for 'code' in 'subfield'"))
      else
        (-1, yaz_marc_cprintf mt
          (str "Expected element 'subfield', got '" ++ (cstr ptr.name).take 80 ++ str "'"))
    else yaz_marc_read_xml_subfields mt next

/-- The text of a `leader` element as `yaz_marc_read_xml_leader` takes it: the
content of its last text child. -/
def lastText : List xmlNode → Option Bytes → Option Bytes
  | [], acc => acc
  | p :: ps, acc => lastText ps (if p.type = .XML_TEXT_NODE then some p.content else acc)

/-- `yaz_marc_read_xml_leader`: result code, handle, and on success the
siblings that follow the `leader` element (`ptr->next` of the caller). -/
def yaz_marc_read_xml_leader (mt : yaz_marc_t) : List xmlNode → Int × yaz_marc_t × List xmlNode
  | [] => (-1, yaz_marc_cprintf mt (str "Missing element 'leader'"), [])
  | ptr :: next =>
    if ptr.type = .XML_ELEMENT_NODE then
      if cstr ptr.name = str "leader" then
        match lastText ptr.children none with
        | none => (-1, yaz_marc_cprintf mt (str "Missing element 'leader'"), [])
        | some leader =>
          if (cstr leader).length ≠ 24 then
            (-1, yaz_marc_cprintf mt (str "Bad length " ++ dec (cstr leader).length
              ++ str " of leader data. Must have length of 24 characters"), [])
          else (0, (yaz_marc_read_leader mt leader).1, next)
      else
        (-1, yaz_marc_cprintf mt
          (str "Expected element 'leader', got '" ++ (cstr ptr.name).take 80 ++ str "'"), [])
    else yaz_marc_read_xml_leader mt next

/-- The attribute loop of a `controlfield` element: the children of the last
`tag` attribute, or the name of the first other attribute. -/
def controlfieldAttrs : List (Bytes × List xmlNode) → List xmlNode →
    Except Bytes (List xmlNode)
  | [], ptr_tag => .ok ptr_tag
  | (name, children) :: attrs, _ptr_tag =>
    if cstr name = str "tag" then controlfieldAttrs attrs children
    else .error name

/-- Store `c` at index `no` of the array `indstr` (`indstr[no] = c`). -/
def setInd (indstr : Bytes) (no c : Nat) : Bytes := indstr.set no c

/-- The attribute loop of a `datafield` element on the array `indstr[11]`: the
children of the last `tag` attribute and the array, or the name of the first
attribute that is neither `tag` nor a four-byte name starting with `ind`. -/
def datafieldAttrs : List (Bytes × List xmlNode) → List xmlNode → Bytes →
    Except Bytes (List xmlNode × Bytes)
  | [], ptr_tag, indstr => .ok (ptr_tag, indstr)
  | (name, children) :: attrs, ptr_tag, indstr =>
    if cstr name = str "tag" then datafieldAttrs attrs children indstr
    else if (cstr name).length = 4 ∧ mem name 0 3 = str "ind" then
      let no := if isdigit (peek name 3) then peek name 3 - 48 else 0
      match children with
      | c :: _ =>
        if c.type = .XML_TEXT_NODE then
          datafieldAttrs attrs ptr_tag (setInd indstr no (peek c.content 0))
        else datafieldAttrs attrs ptr_tag indstr
      | [] => datafieldAttrs attrs ptr_tag indstr
    else .error name

/-- `yaz_marc_read_xml_fields`: result code and handle. -/
def yaz_marc_read_xml_fields (mt : yaz_marc_t) : List xmlNode → Int × yaz_marc_t
  | [] => (0, mt)
  | ptr :: next =>
    if ptr.type = .XML_ELEMENT_NODE then
      if cstr ptr.name = str "controlfield" then
        match controlfieldAttrs ptr.properties [] with
        | .error name =>
          (-1, yaz_marc_cprintf mt
            (str "Bad attribute '" ++ (cstr name).take 80 ++ str "' for 'controlfield'"))
        | .ok [] =>
          (-1, yaz_marc_cprintf mt (str "Missing attribute 'tag' for 'controlfield'"))
        | .ok (t :: ts) =>
          yaz_marc_read_xml_fields
            (yaz_marc_add_controlfield_xml mt (t :: ts) ptr.children) next
      else if cstr ptr.name = str "datafield" then
        match datafieldAttrs ptr.properties [] (List.replicate 11 0) with
        | .error name =>
          (-1, yaz_marc_cprintf mt
            (str "Bad attribute '" ++ (cstr name).take 80 ++ str "' for 'datafield'"))
        | .ok ([], _) =>
          (-1, yaz_marc_cprintf mt (str "Missing attribute 'tag' for 'datafield'"))
        | .ok (t :: ts, indstr) =>
          let mt1 := yaz_marc_add_datafield_xml mt (t :: ts) (indstr.drop 1)
            (cstr (indstr.drop 1)).length
          match yaz_marc_read_xml_subfields mt1 ptr.children with
          | (r, mt2) =>
            if r ≠ 0 then (-1, mt2) else yaz_marc_read_xml_fields mt2 next
      else
        (-1, yaz_marc_cprintf mt
          (str "Expected element controlfield or datafield, got "
            ++ (cstr ptr.name).take 80))
    else yaz_marc_read_xml_fields mt next

/-- `yaz_marc_read_xml`: result code and handle.  The handle is not reset. -/
def yaz_marc_read_xml (mt : yaz_marc_t) : List xmlNode → Int × yaz_marc_t
  | [] => (-1, yaz_marc_cprintf mt (str "Missing element 'record' in MARC XML record"))
  | ptr :: next =>
    if ptr.type = .XML_ELEMENT_NODE then
      if cstr ptr.name = str "record" then
        match yaz_marc_read_xml_leader mt ptr.children with
        | (r, mt1, fields) =>
          if r ≠ 0 then (-1, mt1) else yaz_marc_read_xml_fields mt1 fields
      else
        (-1, yaz_marc_cprintf mt
          (str "Unknown element '" ++ (cstr ptr.name).take 80 ++ str "' in MARC XML reader"))
    else yaz_marc_read_xml mt next


/-! ## XML writers -/

/-- A record model whose control field and subfield hold XML special
characters. -/
def markupModel : yaz_marc_t :=
  { yaz_marc_create with
    nodes := [.leader plainLeader, .controlfield (str "001") (str "a<b&c>d"),
      .datafield (str "245") (str "10") [str "aX<Y&Z>"]] }


/-! ## Identifier width -/

/-- A converter that accepts no prefix of one byte and every longer one. -/
def twoByteConverter : Iconv :=
  { convert := fun b => b, probe := fun b => decide (2 ≤ b.length) }


/-! ## Example inputs of the readers -/

/-- A 40-byte ISO2709 record with the single field `001` = `a`, followed in the
buffer by the bytes `tail`. -/
def tailBuffer (tail : Bytes) : Bytes :=
  str "00040nam a2200037 a 4500" ++ str "001000200000" ++ [30] ++ str "a" ++ [30, 29] ++ tail

/-- A handle that still holds the nodes of an earlier record. -/
def usedHandle : yaz_marc_t :=
  { yaz_marc_create with
    nodes := [.leader plainLeader, .controlfield (str "001") (str "old")] }

/-- An XML text node. -/
def xmlText (content : Bytes) : xmlNode := .mk .XML_TEXT_NODE (str "text") content [] []

/-- An XML element node. -/
def xmlElement (name : Bytes) (properties : List (Bytes × List xmlNode))
    (children : List xmlNode) : xmlNode :=
  .mk .XML_ELEMENT_NODE name [] properties children

/-- An XML tree: a `record` element with a `leader` element holding the text
`L`, followed by the nodes `fields`. -/
def xmlRecord (L : Bytes) (fields : List xmlNode) : List xmlNode :=
  [xmlElement (str "record") [] (xmlElement (str "leader") [] [xmlText L] :: fields)]

/-- The XML tree of a record with the control field `001` = `new`. -/
def newRecordXml : List xmlNode :=
  xmlRecord plainLeader
    [xmlElement (str "controlfield") [(str "tag", [xmlText (str "001")])] [xmlText (str "new")]]

/-! ## Node kinds -/

/-- A node without its subfield list: the tag and indicator of a data field,
any other node as it is. -/
def nodeCore : yaz_marc_node → yaz_marc_node
  | .datafield t i _ => .datafield t i []
  | n => n

/-- The node list `b` continues the node list `a`: the nodes of `a` are the
first nodes of `b`, up to subfields attached to data fields. -/
def CoreExtends (a b : List yaz_marc_node) : Prop :=
  ∃ ext, b.map nodeCore = a.map nodeCore ++ ext

/-! ## XML documents -/

/-- The XML tree `doc` has a `record` element (the first element among the
siblings) whose first child element is a `leader` with the text `L` of 24
characters, followed by the siblings `fields`. -/
def RecordDocument (doc : List xmlNode) (L : Bytes) (fields : List xmlNode) : Prop :=
  ∃ (pre : List xmlNode) (rec : xmlNode) (post lpre : List xmlNode) (lel : xmlNode),
    doc = pre ++ rec :: post ∧
    (∀ p ∈ pre, p.type ≠ .XML_ELEMENT_NODE) ∧
    rec.type = .XML_ELEMENT_NODE ∧ cstr rec.name = str "record" ∧
    rec.children = lpre ++ lel :: fields ∧
    (∀ p ∈ lpre, p.type ≠ .XML_ELEMENT_NODE) ∧
    lel.type = .XML_ELEMENT_NODE ∧ cstr lel.name = str "leader" ∧
    lastText lel.children none = some L ∧ (cstr L).length = 24

/-- The attribute name `indK` for a digit `k`. -/
def indName (k : Nat) : Bytes := str "ind" ++ [48 + k]

/-- An attribute name the `datafield` loop accepts besides `tag`: four bytes,
the first three `ind`. -/
def IndLike (name : Bytes) : Prop := (cstr name).length = 4 ∧ mem name 0 3 = str "ind"

/-- An XML tree in which a `datafield` element without `tag` attribute follows
a control field. -/
def missingTagXml : List xmlNode :=
  xmlRecord plainLeader
    [xmlElement (str "controlfield") [(str "tag", [xmlText (str "001")])] [xmlText (str "new")],
     xmlElement (str "datafield") [(str "ind1", [xmlText (str "1")])]
       [xmlElement (str "subfield") [(str "code", [xmlText (str "a")])] [xmlText (str "T")]]]

/-- An XML tree with one `datafield` element with the attributes `attrs` and
the subfield `a` = `T`. -/
def datafieldXml (attrs : List (Bytes × List xmlNode)) : List xmlNode :=
  xmlRecord plainLeader
    [xmlElement (str "datafield") attrs
       [xmlElement (str "subfield") [(str "code", [xmlText (str "a")])] [xmlText (str "T")]]]

/-! ## Call sequences on the record model -/

/-- One call of `yaz_marc_add_leader`, `yaz_marc_add_controlfield`,
`yaz_marc_add_datafield`, `yaz_marc_add_comment` or `yaz_marc_add_subfield`,
with its arguments. -/
inductive AddCall where
  | leader (leader : Bytes) (leader_len : Nat)
  | controlfield (tag data : Bytes) (data_len : Nat)
  | datafield (tag indicator : Bytes) (indicator_len : Nat)
  | comment (comment : Bytes)
  | subfield (code_data : Bytes) (code_data_len : Nat)
deriving DecidableEq

/-- Perform one call on the handle. -/
def applyCall (mt : yaz_marc_t) : AddCall → yaz_marc_t
  | .leader leader leader_len => yaz_marc_add_leader mt leader leader_len
  | .controlfield tag data data_len => yaz_marc_add_controlfield mt tag data data_len
  | .datafield tag indicator indicator_len =>
    yaz_marc_add_datafield mt tag indicator indicator_len
  | .comment comment => yaz_marc_add_comment mt comment
  | .subfield code_data code_data_len => yaz_marc_add_subfield mt code_data code_data_len

/-- Perform a sequence of calls, first call first. -/
def runCalls (mt : yaz_marc_t) (cs : List AddCall) : yaz_marc_t := cs.foldl applyCall mt

/-- Whether a node is a data field. -/
def isDatafield : yaz_marc_node → Bool
  | .datafield _ _ _ => true
  | _ => false

/-- The node a non-subfield addition stands for: a leader (after the
leader-spec of the handle), a control field, a data field without subfields or
a comment; `none` for `yaz_marc_add_subfield`. -/
def callNode (leader_spec : Option Bytes) : AddCall → Option yaz_marc_node
  | .leader leader leader_len =>
    some (.leader (marc_exec_leader leader_spec (mem leader 0 leader_len) leader_len).2)
  | .controlfield tag data data_len => some (.controlfield (cstr tag) (mem data 0 data_len))
  | .datafield tag indicator indicator_len =>
    some (.datafield (cstr tag) (mem indicator 0 indicator_len) [])
  | .comment comment => some (.comment (cstr comment))
  | .subfield _ _ => none

/-- Append `s` to the subfield list of a data field; any other node is
unchanged. -/
def attachHere : yaz_marc_node → Bytes → yaz_marc_node
  | .datafield t i ss, s => .datafield t i (ss ++ [s])
  | n, _ => n

/-- The record model as the specification describes it: `s` is appended at the
end of the subfield list of the last data field of the node list; every other
node and subfield is unchanged, and a list without data field is unchanged. -/
def attachLast : List yaz_marc_node → Bytes → List yaz_marc_node
  | [], _ => []
  | n :: ns, s =>
    if ns.any isDatafield then n :: attachLast ns s else attachHere n s :: ns

/-- The record model as the specification describes it: the effect of one call
on the node list.  A non-subfield addition appends its node, a subfield
addition attaches its bytes to the most recently added data field. -/
def specStep (leader_spec : Option Bytes) (nodes : List yaz_marc_node) (c : AddCall) :
    List yaz_marc_node :=
  match c with
  | .subfield code_data code_data_len => attachLast nodes (mem code_data 0 code_data_len)
  | c =>
    match callNode leader_spec c with
    | some n => nodes ++ [n]
    | none => nodes

/-- The record model as the specification describes it: the node list after a
sequence of calls that follows a reset. -/
def specNodes (leader_spec : Option Bytes) (cs : List AddCall) : List yaz_marc_node :=
  cs.foldl (specStep leader_spec) []

/-- Index of the last data field of a node list. -/
def lastDatafield : List yaz_marc_node → Option Nat
  | [] => none
  | n :: ns =>
    match lastDatafield ns with
    | some i => some (i + 1)
    | none => if isDatafield n then some 0 else none

/-- A handle in debug mode (`yaz_marc_debug (mt, 1)`). -/
def debugHandle : yaz_marc_t := { yaz_marc_create with debug := 1 }

/-! ## A record with two adjacent subfield separators -/

/-- A 45-byte ISO2709 record with the single data field `245`, indicators `10`,
whose data are two adjacent identifier separators followed by `aT`. -/
def adjacentBuffer : Bytes :=
  str "00045nam a2200037 a 4500" ++ str "245000700000" ++ [30]
    ++ str "10" ++ [31, 31] ++ str "aT" ++ [30, 29]

theorem peek_drop (buf : Bytes) (k i : Nat) : peek (buf.drop k) i = peek buf (k + i) := by
  simp [peek, List.getD_eq_getElem?_getD, List.getElem?_drop]

theorem mem_drop (buf : Bytes) (k i n : Nat) : mem (buf.drop k) i n = mem buf (k + i) n := by
  simp [mem, peek_drop, Nat.add_assoc]

theorem mem_length (buf : Bytes) (i n : Nat) : (mem buf i n).length = n := by
  simp [mem]

theorem mem_eq_take_drop (buf : Bytes) (i n : Nat) (h : i + n ≤ buf.length) :
    mem buf i n = (buf.drop i).take n := by
  apply List.ext_getElem
  · simp [mem]; omega
  · intro k h1 h2
    simp [mem, peek, List.getD_eq_getElem?_getD, List.getElem_take, List.getElem_drop] at h1 h2 ⊢
    rw [List.getElem?_eq_getElem (by omega)]
    simp

theorem mem_self (buf : Bytes) : mem buf 0 buf.length = buf := by
  rw [mem_eq_take_drop buf 0 buf.length (by omega)]
  simp

theorem poke_one_eq_set (l : Bytes) (off v : Nat) (hoff : off < l.length) :
    poke l off [v] = l.set off v := by
  rw [List.set_eq_take_append_cons_drop, if_pos hoff]
  simp [poke]

theorem peek_poke_one (l : Bytes) (off v o : Nat) (hoff : off < l.length) :
    peek (poke l off [v]) o = if o = off then v else peek l o := by
  rw [poke_one_eq_set l off v hoff]
  simp only [peek, List.getD_eq_getElem?_getD, List.getElem?_set]
  by_cases h : off = o
  · subst h; simp [hoff]
  · have h2 : ¬ o = off := fun e => h e.symm
    simp [h, h2]

theorem poke_one_length (l : Bytes) (off v : Nat) (hoff : off < l.length) :
    (poke l off [v]).length = l.length := by
  rw [poke_one_eq_set l off v hoff]; simp

theorem atoi_n_one (buf : Bytes) :
    atoi_n buf 1 = if isdigit (peek buf 0) then peek buf 0 - 48 else 0 := by
  simp [atoi_n, mem, List.range_succ]

theorem atoi_n_check_one (buf : Bytes) (off : Nat) :
    atoi_n_check (buf.drop off) 1
      = if isdigit (peek buf off) then some (peek buf off - 48) else none := by
  simp only [atoi_n_check, atoi_n_one, peek_drop, Nat.add_zero]
  cases h : isdigit (peek buf off) <;> simp

/-! ## Leader codec: closed form -/

theorem cprintf_eq (mt : yaz_marc_t) (text : Bytes) :
    yaz_marc_cprintf mt text
      = { mt with nodes := mt.nodes ++ [.comment (cstr ((cstr text).take 199))] } := rfl

theorem leaderDigit_eq (m : yaz_marc_t) (l : Bytes) (off : Nat) (msg : Bytes) (d : Nat)
    (hmsg : cstr ((cstr msg).take 199) = msg) :
    leaderDigit (m, l) off msg d
      = (({ m with nodes := m.nodes ++ stepComment l off msg }, stepLeader l off d),
          if isdigit (peek l off) then peek l off - 48 else d) := by
  simp only [leaderDigit, atoi_n_check_one, stepComment, stepLeader, cprintf_eq, hmsg]
  cases h : isdigit (peek l off) <;> simp

theorem leaderBase_eq (m : yaz_marc_t) (l : Bytes) :
    leaderBase (m, l)
      = (({ m with nodes := m.nodes ++ stepComment l 12 msgBase }, l),
          if isdigit (peek l 12) then atoi_n (l.drop 12) 5 else 0) := by
  have hmsg : cstr ((cstr msgBase).take 199) = msgBase := by decide
  simp only [leaderBase, atoi_n_check, stepComment, cprintf_eq, hmsg, peek_drop, Nat.add_zero]
  cases h : isdigit (peek l 12) <;> simp

theorem stepLeader_length (l : Bytes) (off d : Nat) (hoff : off < l.length) :
    (stepLeader l off d).length = l.length := by
  unfold stepLeader
  split
  · rfl
  · exact poke_one_length l off _ hoff

theorem peek_stepLeader (l : Bytes) (off d o : Nat) (hoff : off < l.length) :
    peek (stepLeader l off d) o
      = if o = off then (if isdigit (peek l off) then peek l off else 48 + d) else peek l o := by
  unfold stepLeader
  cases h : isdigit (peek l off)
  · simp only [Bool.false_eq_true, if_false]
    exact peek_poke_one l off _ o hoff
  · simp only [if_true]
    by_cases ho : o = off
    · simp [ho]
    · simp [ho]

theorem stepLeader_length24 (l : Bytes) (off d : Nat) (h : l.length = 24) (hoff : off < 24) :
    (stepLeader l off d).length = 24 := by
  rw [stepLeader_length l off d (by omega), h]

theorem patchedLeader_length (L : Bytes) (h : L.length = 24) : (patchedLeader L).length = 24 := by
  unfold patchedLeader
  exact stepLeader_length24 _ _ _ (stepLeader_length24 _ _ _ (stepLeader_length24 _ _ _
    (stepLeader_length24 _ _ _ (stepLeader_length24 _ _ _ h (by omega)) (by omega)) (by omega))
    (by omega)) (by omega)

theorem peek_patchedLeader (L : Bytes) (h : L.length = 24) (o : Nat) :
    peek (patchedLeader L) o
      = if o = 22 then (if isdigit (peek L 22) then peek L 22 else 48)
        else if o = 21 then (if isdigit (peek L 21) then peek L 21 else 53)
        else if o = 20 then (if isdigit (peek L 20) then peek L 20 else 52)
        else if o = 11 then (if isdigit (peek L 11) then peek L 11 else 50)
        else if o = 10 then (if isdigit (peek L 10) then peek L 10 else 50)
        else peek L o := by
  have h1 : (stepLeader L 10 2).length = 24 := stepLeader_length24 _ _ _ h (by omega)
  have h2 : (stepLeader (stepLeader L 10 2) 11 2).length = 24 :=
    stepLeader_length24 _ _ _ h1 (by omega)
  have h3 : (stepLeader (stepLeader (stepLeader L 10 2) 11 2) 20 4).length = 24 :=
    stepLeader_length24 _ _ _ h2 (by omega)
  have h4 : (stepLeader (stepLeader (stepLeader (stepLeader L 10 2) 11 2) 20 4) 21 5).length
      = 24 := stepLeader_length24 _ _ _ h3 (by omega)
  have e10 : ∀ d o, peek (stepLeader L 10 d) o
      = if o = 10 then (if isdigit (peek L 10) then peek L 10 else 48 + d) else peek L o :=
    fun d o => peek_stepLeader L 10 d o (by omega)
  have e11 : ∀ d o, peek (stepLeader (stepLeader L 10 2) 11 d) o
      = if o = 11 then (if isdigit (peek (stepLeader L 10 2) 11) then peek (stepLeader L 10 2) 11
          else 48 + d) else peek (stepLeader L 10 2) o :=
    fun d o => peek_stepLeader _ 11 d o (by omega)
  have e20 := fun d o => peek_stepLeader (stepLeader (stepLeader L 10 2) 11 2) 20 d o (by omega)
  have e21 := fun d o =>
    peek_stepLeader (stepLeader (stepLeader (stepLeader L 10 2) 11 2) 20 4) 21 d o (by omega)
  have e22 := fun d o =>
    peek_stepLeader (stepLeader (stepLeader (stepLeader (stepLeader L 10 2) 11 2) 20 4) 21 5)
      22 d o (by omega)
  unfold patchedLeader
  simp only [e22, e21, e20, e11, e10]
  simp

theorem msgs_stored :
    cstr ((cstr msgIndicator).take 199) = msgIndicator ∧
    cstr ((cstr msgIdentifier).take 199) = msgIdentifier ∧
    cstr ((cstr msgDataEntry).take 199) = msgDataEntry ∧
    cstr ((cstr msgStarting).take 199) = msgStarting ∧
    cstr ((cstr msgImplementation).take 199) = msgImplementation := by decide

/-- Closed form of `yaz_marc_read_leader` on a 24-byte leader with no
leader-spec and debug off. -/
theorem read_leader_eq (mt : yaz_marc_t) (L : Bytes)
    (hspec : mt.leader_spec = none) (hdbg : mt.debug = 0) (hlen : L.length = 24) :
    yaz_marc_read_leader mt L
      = ({ mt with nodes := mt.nodes ++ stepComment L 10 msgIndicator
              ++ stepComment L 11 msgIdentifier ++ stepComment L 12 msgBase
              ++ stepComment L 20 msgDataEntry ++ stepComment L 21 msgStarting
              ++ stepComment L 22 msgImplementation ++ [.leader (patchedLeader L)] },
          { indicator_length := if isdigit (peek L 10) then peek L 10 - 48 else 2,
            identifier_length := if isdigit (peek L 11) then peek L 11 - 48 else 2,
            base_address := if isdigit (peek L 12) then atoi_n (L.drop 12) 5 else 0,
            length_data_entry := if isdigit (peek L 20) then peek L 20 - 48 else 4,
            length_starting := if isdigit (peek L 21) then peek L 21 - 48 else 5,
            length_implementation := if isdigit (peek L 22) then peek L 22 - 48 else 0 }) := by
  obtain ⟨m1, m2, m3, m4, m5⟩ := msgs_stored
  have hm : mem L 0 24 = L := by rw [← hlen]; exact mem_self L
  have h1 : (stepLeader L 10 2).length = 24 := stepLeader_length24 _ _ _ hlen (by omega)
  have h2 : (stepLeader (stepLeader L 10 2) 11 2).length = 24 :=
    stepLeader_length24 _ _ _ h1 (by omega)
  have h3 : (stepLeader (stepLeader (stepLeader L 10 2) 11 2) 20 4).length = 24 :=
    stepLeader_length24 _ _ _ h2 (by omega)
  have h4 : (stepLeader (stepLeader (stepLeader (stepLeader L 10 2) 11 2) 20 4) 21 5).length
      = 24 := stepLeader_length24 _ _ _ h3 (by omega)
  have e10 := fun d o => peek_stepLeader L 10 d o (by omega)
  have e11 := fun d o => peek_stepLeader (stepLeader L 10 2) 11 d o (by omega)
  have e20 := fun d o => peek_stepLeader (stepLeader (stepLeader L 10 2) 11 2) 20 d o (by omega)
  have e21 := fun d o =>
    peek_stepLeader (stepLeader (stepLeader (stepLeader L 10 2) 11 2) 20 4) 21 d o (by omega)
  have hm6 : mem (patchedLeader L) 0 24 = patchedLeader L := by
    rw [← patchedLeader_length L hlen]; exact mem_self _
  unfold yaz_marc_read_leader
  rw [hm, leaderDigit_eq _ _ _ _ _ m1]
  dsimp only
  rw [leaderDigit_eq _ _ _ _ _ m2]
  dsimp only
  rw [leaderBase_eq]
  dsimp only
  rw [leaderDigit_eq _ _ _ _ _ m3]
  dsimp only
  rw [leaderDigit_eq _ _ _ _ _ m4]
  dsimp only
  rw [leaderDigit_eq _ _ _ _ _ m5]
  dsimp only
  have hb : atoi_n ((stepLeader (stepLeader L 10 2) 11 2).drop 12) 5 = atoi_n (L.drop 12) 5 := by
    simp only [atoi_n, mem_drop]
    simp [mem, List.range_succ, e11, e10]
  simp only [stepComment, e21, e20, e11, e10, hb]
  simp [hdbg, hspec, yaz_marc_add_leader, yaz_marc_add_node, marc_exec_leader, patchedLeader]
  exact hm6

theorem read_leader_nodes (mt : yaz_marc_t) (L : Bytes)
    (hspec : mt.leader_spec = none) (hdbg : mt.debug = 0) (hlen : L.length = 24) :
    (yaz_marc_read_leader mt L).1.nodes
      = mt.nodes ++ (leaderComments L).map yaz_marc_node.comment
          ++ [yaz_marc_node.leader (patchedLeader L)] := by
  rw [read_leader_eq mt L hspec hdbg hlen]
  simp only [stepComment, leaderComments, List.map_append]
  cases isdigit (peek L 10) <;> cases isdigit (peek L 11) <;> cases isdigit (peek L 12) <;>
  cases isdigit (peek L 20) <;> cases isdigit (peek L 21) <;> cases isdigit (peek L 22) <;>
  simp

theorem msgs_distinct :
    [msgIndicator, msgIdentifier, msgBase, msgDataEntry, msgStarting, msgImplementation].Nodup := by
  decide

theorem count_opt (c : Bool) (x m : Bytes) :
    List.count m (if c = true then [] else [x]) = if c = false ∧ x = m then 1 else 0 := by
  cases c <;> by_cases h : x = m <;> simp [List.count_cons, h]

theorem mem_opt (c : Bool) (x m : Bytes) :
    m ∈ (if c = true then [] else [x]) ↔ c = false ∧ x = m := by
  cases c <;> simp [eq_comm]

/-- C9.  Leader codec, single-digit fields (no leader-spec, debug off): for a
24-byte leader the codec appends the comments and then exactly one Leader
node; for each offset 10, 11, 20, 21, 22 a digit is resolved to its value,
kept in the node and gets no comment, and a non-digit is resolved to the
default 2, 2, 4, 5, 0, replaced by the default digit in the node and gets
exactly one comment. -/
theorem read_leader_single_digit_fields (mt : yaz_marc_t) (L : Bytes)
    (hspec : mt.leader_spec = none) (hdbg : mt.debug = 0) (hlen : L.length = 24) :
    ∃ (cs : List Bytes) (L1 : Bytes),
      (yaz_marc_read_leader mt L).1.nodes
        = mt.nodes ++ cs.map yaz_marc_node.comment ++ [yaz_marc_node.leader L1] ∧
      L1.length = 24 ∧
      DigitField L L1 cs 10 2 msgIndicator (yaz_marc_read_leader mt L).2.indicator_length ∧
      DigitField L L1 cs 11 2 msgIdentifier (yaz_marc_read_leader mt L).2.identifier_length ∧
      DigitField L L1 cs 20 4 msgDataEntry (yaz_marc_read_leader mt L).2.length_data_entry ∧
      DigitField L L1 cs 21 5 msgStarting (yaz_marc_read_leader mt L).2.length_starting ∧
      DigitField L L1 cs 22 0 msgImplementation
        (yaz_marc_read_leader mt L).2.length_implementation := by
  have hd := msgs_distinct
  simp only [List.nodup_cons, List.mem_cons, List.mem_singleton, not_or, List.not_mem_nil,
    not_false_eq_true, List.nodup_nil, and_true] at hd
  obtain ⟨⟨d12, d13, d14, d15, d16⟩, ⟨d23, d24, d25, d26⟩, ⟨d34, d35, d36⟩, ⟨d45, d46⟩, d56⟩ := hd
  refine ⟨leaderComments L, patchedLeader L, read_leader_nodes mt L hspec hdbg hlen,
    patchedLeader_length L hlen, ?_, ?_, ?_, ?_, ?_⟩ <;>
  · rw [read_leader_eq mt L hspec hdbg hlen]
    refine ⟨fun h => ⟨by simp [h], by simp [peek_patchedLeader L hlen, h], ?_⟩,
      fun h => ⟨by simp [h], by simp [peek_patchedLeader L hlen, h], ?_⟩⟩
    · simp [leaderComments, List.mem_append, mem_opt, h,
        d12, d13, d14, d15, d16, d23, d24, d25, d26, d34, d35, d36, d45, d46, d56,
        Ne.symm d12, Ne.symm d13, Ne.symm d14, Ne.symm d15, Ne.symm d16, Ne.symm d23,
        Ne.symm d24, Ne.symm d25, Ne.symm d26, Ne.symm d34, Ne.symm d35, Ne.symm d36,
        Ne.symm d45, Ne.symm d46, Ne.symm d56]
    · simp [leaderComments, List.count_append, count_opt, h,
        d12, d13, d14, d15, d16, d23, d24, d25, d26, d34, d35, d36, d45, d46, d56,
        Ne.symm d12, Ne.symm d13, Ne.symm d14, Ne.symm d15, Ne.symm d16, Ne.symm d23,
        Ne.symm d24, Ne.symm d25, Ne.symm d26, Ne.symm d34, Ne.symm d35, Ne.symm d36,
        Ne.symm d45, Ne.symm d46, Ne.symm d56]

theorem read_leader_single_digit_fields_witness :
    (yaz_marc_create.leader_spec = none ∧ yaz_marc_create.debug = 0 ∧ sampleLeader.length = 24) ∧
    ∃ (cs : List Bytes) (L1 : Bytes),
      (yaz_marc_read_leader yaz_marc_create sampleLeader).1.nodes
        = yaz_marc_create.nodes ++ cs.map yaz_marc_node.comment ++ [yaz_marc_node.leader L1] ∧
      L1.length = 24 ∧
      DigitField sampleLeader L1 cs 10 2 msgIndicator
        (yaz_marc_read_leader yaz_marc_create sampleLeader).2.indicator_length ∧
      DigitField sampleLeader L1 cs 11 2 msgIdentifier
        (yaz_marc_read_leader yaz_marc_create sampleLeader).2.identifier_length ∧
      DigitField sampleLeader L1 cs 20 4 msgDataEntry
        (yaz_marc_read_leader yaz_marc_create sampleLeader).2.length_data_entry ∧
      DigitField sampleLeader L1 cs 21 5 msgStarting
        (yaz_marc_read_leader yaz_marc_create sampleLeader).2.length_starting ∧
      DigitField sampleLeader L1 cs 22 0 msgImplementation
        (yaz_marc_read_leader yaz_marc_create sampleLeader).2.length_implementation :=
  ⟨⟨rfl, rfl, by decide⟩,
    read_leader_single_digit_fields yaz_marc_create sampleLeader rfl rfl (by decide)⟩

theorem firstLeader_none (ns : List yaz_marc_node)
    (h : ∀ l, yaz_marc_node.leader l ∉ ns) : firstLeader ns = none := by
  induction ns with
  | nil => rfl
  | cons n ns ih =>
    have h2 : ∀ l, yaz_marc_node.leader l ∉ ns := fun l hl => h l (List.mem_cons_of_mem _ hl)
    cases n with
    | leader l => exact absurd (List.mem_cons_self _ _) (h l)
    | datafield t i s => simpa [firstLeader] using ih h2
    | controlfield t d => simpa [firstLeader] using ih h2
    | comment c => simpa [firstLeader] using ih h2

theorem lastLeader_none (ns : List yaz_marc_node) (acc : Option Bytes)
    (h : ∀ l, yaz_marc_node.leader l ∉ ns) : lastLeader ns acc = acc := by
  induction ns generalizing acc with
  | nil => rfl
  | cons n ns ih =>
    have h2 : ∀ l, yaz_marc_node.leader l ∉ ns := fun l hl => h l (List.mem_cons_of_mem _ hl)
    cases n with
    | leader l => exact absurd (List.mem_cons_self _ _) (h l)
    | datafield t i s => simpa [lastLeader] using ih acc h2
    | controlfield t d => simpa [lastLeader] using ih acc h2
    | comment c => simpa [lastLeader] using ih acc h2

theorem modifyFirstLeader_none (off : Nat) (s : Bytes) (ns : List yaz_marc_node)
    (h : ∀ l, yaz_marc_node.leader l ∉ ns) : modifyFirstLeader off s ns = ns := by
  induction ns with
  | nil => rfl
  | cons n ns ih =>
    have h2 : ∀ l, yaz_marc_node.leader l ∉ ns := fun l hl => h l (List.mem_cons_of_mem _ hl)
    cases n with
    | leader l => exact absurd (List.mem_cons_self _ _) (h l)
    | datafield t i s => simp [modifyFirstLeader, ih h2]
    | controlfield t d => simp [modifyFirstLeader, ih h2]
    | comment c => simp [modifyFirstLeader, ih h2]

theorem write_line_no_leader (mt : yaz_marc_t) (wr : Bytes)
    (h : ∀ l, yaz_marc_node.leader l ∉ mt.nodes) : yaz_marc_write_line mt wr = (-1, wr) := by
  simp [yaz_marc_write_line, firstLeader_none mt.nodes h]

theorem write_marcxml_ns_no_leader (mt : yaz_marc_t) (wr ns : Bytes) (format type : Option Bytes)
    (h : ∀ l, yaz_marc_node.leader l ∉ mt.nodes) :
    yaz_marc_write_marcxml_ns mt wr ns format type = (-1, wr) := by
  simp [yaz_marc_write_marcxml_ns, firstLeader_none mt.nodes h]

theorem write_marcxml_no_leader (mt : yaz_marc_t) (wr : Bytes)
    (h : ∀ l, yaz_marc_node.leader l ∉ mt.nodes) :
    (yaz_marc_write_marcxml mt wr).1 = -1 ∧ (yaz_marc_write_marcxml mt wr).2.1 = wr := by
  have h2 : ∀ l, yaz_marc_node.leader l ∉ (yaz_marc_modify_leader mt 9 (str "a")).nodes := by
    intro l
    simpa [yaz_marc_modify_leader, modifyFirstLeader_none 9 (str "a") mt.nodes h] using h l
  unfold yaz_marc_write_marcxml
  split
  · simp [write_marcxml_ns_no_leader _ wr _ none none h2]
  · simp [write_marcxml_ns_no_leader _ wr _ none none h]

theorem write_iso2709_no_leader (mt : yaz_marc_t) (wr : Bytes)
    (h : ∀ l, yaz_marc_node.leader l ∉ mt.nodes) : yaz_marc_write_iso2709 mt wr = (-1, wr) := by
  simp [yaz_marc_write_iso2709, lastLeader_none mt.nodes none h]

/-- C5.  All four writers fail without a Leader: for a record model with no
Leader node, `yaz_marc_write_line`, `yaz_marc_write_marcxml`,
`yaz_marc_write_marcxchange` and `yaz_marc_write_iso2709`, and
`yaz_marc_write_mode` in every mode, return -1 and leave the output buffer as
it was. -/
theorem writers_fail_without_leader (mt : yaz_marc_t) (wr : Bytes) (format type : Option Bytes)
    (h : ∀ l, yaz_marc_node.leader l ∉ mt.nodes) :
    yaz_marc_write_line mt wr = (-1, wr) ∧
    ((yaz_marc_write_marcxml mt wr).1 = -1 ∧ (yaz_marc_write_marcxml mt wr).2.1 = wr) ∧
    yaz_marc_write_marcxchange mt wr format type = (-1, wr) ∧
    yaz_marc_write_iso2709 mt wr = (-1, wr) ∧
    ((yaz_marc_write_mode mt wr).1 = -1 ∧ (yaz_marc_write_mode mt wr).2.1 = wr) := by
  have hx := write_marcxml_no_leader mt wr h
  refine ⟨write_line_no_leader mt wr h, hx,
    write_marcxml_ns_no_leader mt wr _ none none h, write_iso2709_no_leader mt wr h, ?_⟩
  unfold yaz_marc_write_mode
  split
  · simp [write_line_no_leader mt wr h]
  · split
    · exact hx
    · split
      · simp [yaz_marc_write_marcxchange, write_marcxml_ns_no_leader mt wr _ none none h]
      · split
        · simp [write_iso2709_no_leader mt wr h]
        · simp

theorem writers_fail_without_leader_witness :
    (∀ l, yaz_marc_node.leader l ∉ noLeaderModel.nodes) ∧
    (yaz_marc_write_line noLeaderModel (str "x") = (-1, str "x") ∧
    ((yaz_marc_write_marcxml noLeaderModel (str "x")).1 = -1 ∧
      (yaz_marc_write_marcxml noLeaderModel (str "x")).2.1 = str "x") ∧
    yaz_marc_write_marcxchange noLeaderModel (str "x") (some (str "MARC21")) none
      = (-1, str "x") ∧
    yaz_marc_write_iso2709 noLeaderModel (str "x") = (-1, str "x") ∧
    ((yaz_marc_write_mode noLeaderModel (str "x")).1 = -1 ∧
      (yaz_marc_write_mode noLeaderModel (str "x")).2.1 = str "x")) :=
  ⟨by simp [noLeaderModel],
    writers_fail_without_leader noLeaderModel (str "x") (some (str "MARC21")) none
      (by simp [noLeaderModel])⟩

/-! ## ISO2709 writer: leader digits -/

theorem lastLeader_some (ns : List yaz_marc_node) (acc : Option Bytes) (l : Bytes)
    (hmem : yaz_marc_node.leader l ∈ ns)
    (huniq : ∀ l1, yaz_marc_node.leader l1 ∈ ns → l1 = l) : lastLeader ns acc = some l := by
  induction ns generalizing acc with
  | nil => exact absurd hmem (List.not_mem_nil _)
  | cons n ns ih =>
    have hu2 : ∀ l1, yaz_marc_node.leader l1 ∈ ns → l1 = l :=
      fun l1 h1 => huniq l1 (List.mem_cons_of_mem _ h1)
    have hrest : ∀ acc1, (acc1 = some l ∨ yaz_marc_node.leader l ∈ ns) →
        lastLeader ns acc1 = some l := by
      intro acc1 h1
      by_cases hm : yaz_marc_node.leader l ∈ ns
      · exact ih acc1 hm hu2
      · have hnone : ∀ l1, yaz_marc_node.leader l1 ∉ ns := by
          intro l1 h2
          exact hm (hu2 l1 h2 ▸ h2)
        rw [lastLeader_none ns acc1 hnone]
        rcases h1 with h1 | h1
        · exact h1
        · exact absurd h1 hm
    cases n with
    | leader l0 =>
      have : l0 = l := huniq l0 (List.mem_cons_self _ _)
      subst this
      exact hrest _ (Or.inl rfl)
    | datafield t i s =>
      have hm : yaz_marc_node.leader l ∈ ns := by simpa using hmem
      exact hrest _ (Or.inr hm)
    | controlfield t d =>
      have hm : yaz_marc_node.leader l ∈ ns := by simpa using hmem
      exact hrest _ (Or.inr hm)
    | comment c =>
      have hm : yaz_marc_node.leader l ∈ ns := by simpa using hmem
      exact hrest _ (Or.inr hm)

/-- C6.  The ISO2709 writer validates the leader digits without defaulting:
for a record model whose Leader node holds `leader`, the writer returns -1 and
leaves the output buffer as it was exactly when one of the bytes at offsets
10, 11, 20, 21, 22 is not a digit, and returns 0 otherwise. -/
theorem write_iso2709_leader_digits (mt : yaz_marc_t) (wr leader : Bytes)
    (hmem : yaz_marc_node.leader leader ∈ mt.nodes)
    (huniq : ∀ l1, yaz_marc_node.leader l1 ∈ mt.nodes → l1 = leader) :
    (yaz_marc_write_iso2709 mt wr = (-1, wr)
      ↔ ∃ o ∈ isoLeaderOffsets, isdigit (peek leader o) = false) ∧
    ((∀ o ∈ isoLeaderOffsets, isdigit (peek leader o) = true) →
      (yaz_marc_write_iso2709 mt wr).1 = 0) := by
  have hl := lastLeader_some mt.nodes none leader hmem huniq
  simp only [yaz_marc_write_iso2709, hl, atoi_n_check_one, isoLeaderOffsets, List.mem_cons,
    List.mem_singleton, List.not_mem_nil, or_false, exists_eq_or_imp, exists_eq_left,
    forall_eq_or_imp, forall_eq]
  cases h10 : isdigit (peek leader 10) <;> cases h11 : isdigit (peek leader 11) <;>
  cases h20 : isdigit (peek leader 20) <;> cases h21 : isdigit (peek leader 21) <;>
  cases h22 : isdigit (peek leader 22) <;> simp

theorem write_iso2709_leader_digits_witness :
    (yaz_marc_node.leader sampleLeader ∈ badDigitModel.nodes ∧
      ∀ l1, yaz_marc_node.leader l1 ∈ badDigitModel.nodes → l1 = sampleLeader) ∧
    ((yaz_marc_write_iso2709 badDigitModel [] = (-1, [])
      ↔ ∃ o ∈ isoLeaderOffsets, isdigit (peek sampleLeader o) = false) ∧
    ((∀ o ∈ isoLeaderOffsets, isdigit (peek sampleLeader o) = true) →
      (yaz_marc_write_iso2709 badDigitModel []).1 = 0)) :=
  ⟨⟨by simp [badDigitModel], by simp [badDigitModel]⟩,
    write_iso2709_leader_digits badDigitModel [] sampleLeader (by simp [badDigitModel])
      (by simp [badDigitModel])⟩

/-! ## Decimal numbers -/

theorem decAux_eq (fuel : Nat) : ∀ n acc, n < fuel → decAux fuel n acc = dec n ++ acc := by
  induction fuel using Nat.strong_induction_on with
  | _ fuel ih =>
    intro n acc hn
    cases fuel with
    | zero => omega
    | succ f =>
      by_cases h10 : n < 10
      · simp [dec, decAux, h10]
      · have hdiv : n / 10 < n := Nat.div_lt_self (by omega) (by omega)
        have e1 : decAux (f + 1) n acc = decAux f (n / 10) ((48 + n % 10) :: acc) := by
          simp [decAux, h10]
        have e2 : dec n = decAux n (n / 10) [48 + n % 10] := by
          simp [dec, decAux, h10]
        rw [e1, e2, ih f (by omega) (n / 10) _ (by omega)]
        by_cases hnf : n < f + 1 ∧ n ≠ f + 1
        · rw [ih n (by omega) (n / 10) _ hdiv]
          simp
        · omega

theorem dec_lt10 (n : Nat) (h : n < 10) : dec n = [48 + n] := by
  simp [dec, decAux, h]

theorem dec_ge10 (n : Nat) (h : 10 ≤ n) : dec n = dec (n / 10) ++ [48 + n % 10] := by
  have h10 : ¬ n < 10 := by omega
  have hdiv : n / 10 < n := Nat.div_lt_self (by omega) (by omega)
  have e2 : dec n = decAux n (n / 10) [48 + n % 10] := by
    simp [dec, decAux, h10]
  rw [e2, decAux_eq n (n / 10) _ hdiv]

theorem digitsW_length (w v : Nat) : (digitsW w v).length = w := by
  induction w generalizing v with
  | zero => rfl
  | succ w ih => simp [digitsW, ih]

theorem digitsW_zero (w : Nat) : digitsW w 0 = List.replicate w 48 := by
  induction w with
  | zero => rfl
  | succ w ih =>
    simp only [digitsW, Nat.zero_div, ih, Nat.zero_mod, Nat.add_zero]
    exact (List.replicate_succ' w 48).symm

theorem dec_length_le (w : Nat) : ∀ v, v < 10 ^ w → 1 ≤ w → (dec v).length ≤ w := by
  induction w with
  | zero => intro v _ h; omega
  | succ w ih =>
    intro v hv _
    by_cases h10 : v < 10
    · simp [dec_lt10 v h10]
    · have hw : 1 ≤ w := by
        rcases Nat.eq_zero_or_pos w with h0 | h0
        · subst h0; simp at hv; omega
        · exact h0
      have hv2 : v / 10 < 10 ^ w := by
        rw [Nat.div_lt_iff_lt_mul (by omega)]
        rw [Nat.pow_succ] at hv
        exact hv
      rw [dec_ge10 v (by omega)]
      have := ih (v / 10) hv2 hw
      simp; omega

theorem pad0_eq_digitsW (w : Nat) : ∀ v, 1 ≤ w → v < 10 ^ w → pad0 w v = digitsW w v := by
  induction w with
  | zero => intro v h; omega
  | succ w ih =>
    intro v _ hv
    by_cases h10 : v < 10
    · have e : v / 10 = 0 := Nat.div_eq_of_lt h10
      have e2 : v % 10 = v := Nat.mod_eq_of_lt h10
      simp [pad0, dec_lt10 v h10, digitsW, e, e2, digitsW_zero]
    · have hw : 1 ≤ w := by
        rcases Nat.eq_zero_or_pos w with h0 | h0
        · subst h0; simp at hv; omega
        · exact h0
      have hv2 : v / 10 < 10 ^ w := by
        rw [Nat.div_lt_iff_lt_mul (by omega)]
        rw [Nat.pow_succ] at hv
        exact hv
      have hlen := dec_length_le w (v / 10) hv2 hw
      have := ih (v / 10) hw hv2
      simp only [digitsW, ← this, pad0, dec_ge10 v (by omega), List.length_append,
        List.length_singleton, List.append_assoc]
      congr 2
      omega

theorem pad0_length (w v : Nat) (hw : 1 ≤ w) (hv : v < 10 ^ w) : (pad0 w v).length = w := by
  rw [pad0_eq_digitsW w v hw hv, digitsW_length]

theorem foldl_atoiStep_digitsW (w : Nat) : ∀ v a,
    (digitsW w v).foldl atoiStep a = a * 10 ^ w + v % 10 ^ w := by
  induction w with
  | zero => intro v a; simp [digitsW, Nat.mod_one]
  | succ w ih =>
    intro v a
    have hd : isdigit (48 + v % 10) = true := by
      have : v % 10 < 10 := Nat.mod_lt _ (by omega)
      simp [isdigit]; omega
    simp only [digitsW, List.foldl_append, List.foldl_cons, List.foldl_nil, ih, atoiStep, hd,
      if_true]
    have e : v % 10 ^ (w + 1) = v % 10 + 10 * (v / 10 % 10 ^ w) := by
      rw [Nat.pow_succ, Nat.mul_comm, Nat.mod_mul]
    rw [e, Nat.pow_succ]
    have : 48 + v % 10 - 48 = v % 10 := by omega
    rw [this]
    ring

theorem atoi_n_eq_foldl (buf : Bytes) (len : Nat) :
    atoi_n buf len = (mem buf 0 len).foldl atoiStep 0 := rfl

theorem mem_append_left (a b : Bytes) (n : Nat) (h : n ≤ a.length) :
    mem (a ++ b) 0 n = a.take n := by
  rw [mem_eq_take_drop _ 0 n (by simp; omega)]
  simp [List.take_append_of_le_length h]

theorem mem_prefix (a b : Bytes) : mem (a ++ b) 0 a.length = a := by
  rw [mem_append_left a b a.length (Nat.le_refl _)]
  simp

theorem mem_eq_of_take (buf : Bytes) (n : Nat) (x : Bytes) (hx : x.length = n)
    (h : buf.take n = x) : mem buf 0 n = x := by
  have hlen : n ≤ buf.length := by
    have := congrArg List.length h
    simp at this
    omega
  rw [mem_eq_take_drop buf 0 n (by omega)]
  simpa using h

theorem atoi_n_of_take (buf : Bytes) (w v : Nat) (hw : 1 ≤ w) (hv : v < 10 ^ w)
    (h : buf.take w = pad0 w v) : atoi_n buf w = v := by
  have e := mem_eq_of_take buf w (pad0 w v) (pad0_length w v hw hv) h
  rw [atoi_n_eq_foldl, e, pad0_eq_digitsW w v hw hv, foldl_atoiStep_digitsW]
  simp [Nat.mod_eq_of_lt hv]

theorem peek_mem (buf : Bytes) (i n k : Nat) :
    peek (mem buf i n) k = if k < n then peek buf (i + k) else 0 := by
  unfold mem
  by_cases h : k < n
  · simp [peek, List.getD_eq_getElem?_getD, h, List.getElem?_map, List.getElem?_range]
  · simp [peek, List.getD_eq_getElem?_getD, h, List.getElem?_map]
    rw [List.getElem?_eq_none (by simp; omega)]
    simp

theorem mem_congr (a b : Bytes) (i n : Nat) (h : ∀ k, k < n → peek a (i + k) = peek b (i + k)) :
    mem a i n = mem b i n := by
  unfold mem
  apply List.map_congr_left
  intro k hk
  exact h k (List.mem_range.mp hk)

theorem read_leader_fields (mt : yaz_marc_t) (L : Bytes) :
    (yaz_marc_read_leader mt L).2 = leaderFieldsOf L := by
  obtain ⟨m1, m2, m3, m4, m5⟩ := msgs_stored
  have hlen : (mem L 0 24).length = 24 := mem_length L 0 24
  have h1 : (stepLeader (mem L 0 24) 10 2).length = 24 := stepLeader_length24 _ _ _ hlen (by omega)
  have h2 : (stepLeader (stepLeader (mem L 0 24) 10 2) 11 2).length = 24 :=
    stepLeader_length24 _ _ _ h1 (by omega)
  have h3 : (stepLeader (stepLeader (stepLeader (mem L 0 24) 10 2) 11 2) 20 4).length = 24 :=
    stepLeader_length24 _ _ _ h2 (by omega)
  have h4 : (stepLeader (stepLeader (stepLeader (stepLeader (mem L 0 24) 10 2) 11 2) 20 4)
      21 5).length = 24 := stepLeader_length24 _ _ _ h3 (by omega)
  have e10 := fun d o => peek_stepLeader (mem L 0 24) 10 d o (by omega)
  have e11 := fun d o => peek_stepLeader (stepLeader (mem L 0 24) 10 2) 11 d o (by omega)
  have e20 := fun d o =>
    peek_stepLeader (stepLeader (stepLeader (mem L 0 24) 10 2) 11 2) 20 d o (by omega)
  have e21 := fun d o =>
    peek_stepLeader (stepLeader (stepLeader (stepLeader (mem L 0 24) 10 2) 11 2) 20 4) 21 d o
      (by omega)
  unfold yaz_marc_read_leader
  rw [leaderDigit_eq _ _ _ _ _ m1]
  dsimp only
  rw [leaderDigit_eq _ _ _ _ _ m2]
  dsimp only
  rw [leaderBase_eq]
  dsimp only
  rw [leaderDigit_eq _ _ _ _ _ m3]
  dsimp only
  rw [leaderDigit_eq _ _ _ _ _ m4]
  dsimp only
  rw [leaderDigit_eq _ _ _ _ _ m5]
  dsimp only
  have hb : atoi_n ((stepLeader (stepLeader (mem L 0 24) 10 2) 11 2).drop 12) 5
      = atoi_n (L.drop 12) 5 := by
    simp only [atoi_n, mem_drop]
    rw [mem_congr _ L (12 + 0) 5]
    intro k hk
    have hk1 : ¬ (12 + 0 + k = 11) := by omega
    have hk2 : ¬ (12 + 0 + k = 10) := by omega
    have hk3 : 12 + 0 + k < 24 := by omega
    simp only [e11, e10, peek_mem, hk1, hk2, hk3, if_false, if_true, Nat.zero_add]
  simp only [e21, e20, e11, e10, hb, leaderFieldsOf, peek_mem]
  simp

theorem leaderFieldsOf_width (L : Bytes) :
    (leaderFieldsOf L).length_data_entry ≤ 9 ∧ (leaderFieldsOf L).length_starting ≤ 9 := by
  simp only [leaderFieldsOf]
  constructor <;> split <;> rename_i h
  · simp [isdigit] at h; omega
  · omega
  · simp [isdigit] at h; omega
  · omega

theorem dirScan_spec (buf : Bytes) (n lde ls : Nat) : ∀ fuel k mt,
    (∀ j, j < k → EntryPassed buf n (3 + lde + ls) j) →
    24 + k * (3 + lde + ls) < n → n ≤ 24 + k * (3 + lde + ls) + fuel →
    (∃ k1 mt1, k ≤ k1 ∧ DirOverrun buf n (3 + lde + ls) k1 ∧
        dirScan buf n lde ls fuel mt (24 + k * (3 + lde + ls)) = some (.fatal mt1)) ∨
    (∃ k1 mt1, k ≤ k1 ∧
        (DirBadDigits buf n (3 + lde + ls) k1 ∨ DirTerminated buf n (3 + lde + ls) k1) ∧
        24 + k1 * (3 + lde + ls) < n ∧
        dirScan buf n lde ls fuel mt (24 + k * (3 + lde + ls))
          = some (.stop mt1 (24 + k1 * (3 + lde + ls)))) := by
  intro fuel
  induction fuel with
  | zero => intro k mt _ h1 h2; omega
  | succ fuel ih =>
    intro k mt hp h1 h2
    by_cases hfs : peek buf (24 + k * (3 + lde + ls)) = ISO2709_FS
    · right
      refine ⟨k, mt, Nat.le_refl _, Or.inr ⟨hp, hfs⟩, h1, ?_⟩
      simp [dirScan, hfs]
    · by_cases hov : 24 + k * (3 + lde + ls) + (3 + lde + ls) ≥ n
      · left
        refine ⟨k, yaz_marc_cprintf mt (str "Directory offset "
          ++ dec (24 + k * (3 + lde + ls)) ++ str ": end of record. Missing FS char"),
          Nat.le_refl _, ⟨hp, hfs, hov⟩, ?_⟩
        simp only [dirScan, hfs, ne_eq, not_false_eq_true, if_true, hov, ge_iff_le]
      · by_cases hbad : dirEntryBad buf (24 + k * (3 + lde + ls)) (3 + lde + ls) = true
        · right
          refine ⟨k, yaz_marc_cprintf (if mt.debug ≠ 0 then
              yaz_marc_cprintf mt (str "Directory offset "
                ++ dec (24 + k * (3 + lde + ls)) ++ str ": Tag "
                ++ (cstr (mem buf (24 + k * (3 + lde + ls)) 3)))
            else mt) (str "Directory offset " ++ dec (24 + k * (3 + lde + ls))
              ++ str ": Bad value for data length and/or length starting"),
            Nat.le_refl _, Or.inl ⟨hp, hfs, by omega, hbad⟩, h1, ?_⟩
          simp only [dirScan, hfs, ne_eq, not_false_eq_true, if_true, hov, ge_iff_le, hbad,
            if_false]
        · have hpass : EntryPassed buf n (3 + lde + ls) k :=
            ⟨hfs, by omega, by simpa using hbad⟩
          have hp2 : ∀ j, j < k + 1 → EntryPassed buf n (3 + lde + ls) j := by
            intro j hj
            rcases Nat.lt_succ_iff_lt_or_eq.mp hj with h | h
            · exact hp j h
            · exact h ▸ hpass
          have e : 24 + (k + 1) * (3 + lde + ls)
              = 24 + k * (3 + lde + ls) + 3 + lde + ls := by
            rw [Nat.succ_mul]; omega
          have hstep : dirScan buf n lde ls (fuel + 1) mt (24 + k * (3 + lde + ls))
              = dirScan buf n lde ls fuel
                  (if mt.debug ≠ 0 then
                    yaz_marc_cprintf mt (str "Directory offset "
                      ++ dec (24 + k * (3 + lde + ls)) ++ str ": Tag "
                      ++ (cstr (mem buf (24 + k * (3 + lde + ls)) 3)))
                  else mt) (24 + (k + 1) * (3 + lde + ls)) := by
            rw [e]
            simp only [dirScan, hfs, ne_eq, not_false_eq_true, if_true, hov, ge_iff_le, hbad,
              if_false, Bool.false_eq_true]
          rw [hstep]
          rcases ih (k + 1) _ hp2 (by omega) (by omega) with ⟨k1, mt1, hk, h3, h4⟩ |
              ⟨k1, mt1, hk, h3, h4, h5⟩
          · left; exact ⟨k1, mt1, by omega, h3, h4⟩
          · right; exact ⟨k1, mt1, by omega, h3, h4, h5⟩

theorem fieldPass_isSome (buf : Bytes) (n : Nat) (f : LeaderFields) (e : Nat) :
    ∀ fuel entry_p mt,
      (∃ j, entry_p + j * (3 + f.length_data_entry + f.length_starting) = e ∧ j < fuel) →
      (fieldPass buf n f e fuel mt entry_p).isSome = true := by
  intro fuel
  induction fuel with
  | zero => intro entry_p mt ⟨j, _, hj⟩; omega
  | succ fuel ih =>
    intro entry_p mt ⟨j, hj, hjf⟩
    by_cases he : entry_p = e
    · simp [fieldPass, he]
    · have hj1 : 1 ≤ j := by
        rcases Nat.eq_zero_or_pos j with h0 | h0
        · subst h0; simp at hj; exact absurd hj he
        · exact h0
      have hrec : ∀ mt1, (fieldPass buf n f e fuel mt1
          (entry_p + 3 + f.length_data_entry + f.length_starting)).isSome = true := by
        intro mt1
        apply ih
        refine ⟨j - 1, ?_, by omega⟩
        have : j = (j - 1) + 1 := by omega
        rw [this, Nat.succ_mul] at hj
        omega
      simp only [fieldPass, he, ne_eq, not_false_eq_true, if_true]
      split
      · rfl
      · split
        · rfl
        · exact hrec _

theorem overrun_exclusive (buf : Bytes) (n l k k1 : Nat) (h : DirOverrun buf n l k)
    (h1 : DirBadDigits buf n l k1 ∨ DirTerminated buf n l k1) : False := by
  obtain ⟨hp, hfs, hov⟩ := h
  rcases Nat.lt_trichotomy k k1 with hlt | heq | hgt
  · have hpk : EntryPassed buf n l k := by
      rcases h1 with h1 | h1
      · exact h1.1 k hlt
      · exact h1.1 k hlt
    have := hpk.2.1
    omega
  · subst heq
    rcases h1 with h1 | h1
    · have := h1.2.2.1; omega
    · exact hfs h1.2
  · have hpk := hp k1 hgt
    rcases h1 with h1 | h1
    · have := hpk.2.2
      rw [h1.2.2.2] at this
      exact Bool.noConfusion this
    · exact hpk.1 h1.2

/-- The reader past the two length checks: either the directory scan overruns
and the result is -1, or it stops (terminator or bad digits) and the result is
the declared length. -/
theorem read_iso2709_cases (mt : yaz_marc_t) (buf : Bytes) (bsize : Int)
    (h25 : 25 ≤ atoi_n buf 5) (hb : bsize = -1 ∨ (atoi_n buf 5 : Int) ≤ bsize) :
    (∃ k mt1, DirOverrun buf (atoi_n buf 5)
          (3 + (leaderFieldsOf buf).length_data_entry + (leaderFieldsOf buf).length_starting) k ∧
        yaz_marc_read_iso2709 mt buf bsize = some (-1, mt1)) ∨
    (∃ k mt1, (DirBadDigits buf (atoi_n buf 5)
            (3 + (leaderFieldsOf buf).length_data_entry + (leaderFieldsOf buf).length_starting) k ∨
          DirTerminated buf (atoi_n buf 5)
            (3 + (leaderFieldsOf buf).length_data_entry + (leaderFieldsOf buf).length_starting) k) ∧
        yaz_marc_read_iso2709 mt buf bsize = some (((atoi_n buf 5 : Nat) : Int), mt1)) := by
  have hlt : ¬ atoi_n buf 5 < 25 := by omega
  have hbs : ¬ (bsize ≠ -1 ∧ (atoi_n buf 5 : Int) > bsize) := by
    rintro ⟨h1, h2⟩
    rcases hb with h | h
    · exact h1 h
    · omega
  unfold yaz_marc_read_iso2709
  simp only [hlt, hbs, if_false, read_leader_fields]
  generalize hm : (yaz_marc_read_leader
    (if (yaz_marc_reset mt).debug ≠ 0 then
      yaz_marc_cprintf (yaz_marc_reset mt) (str "Record length         " ++ padSp 5 (atoi_n buf 5))
    else yaz_marc_reset mt) buf).1 = m
  have hs := dirScan_spec buf (atoi_n buf 5) (leaderFieldsOf buf).length_data_entry
    (leaderFieldsOf buf).length_starting (atoi_n buf 5) 0 m (fun j hj => absurd hj (by omega))
    (by omega) (by omega)
  simp only [Nat.zero_mul, Nat.add_zero] at hs
  rcases hs with ⟨k1, mt1, _, hov, hscan⟩ | ⟨k1, mt1, _, hstop, hlt1, hscan⟩
  · left
    exact ⟨k1, mt1, hov, by rw [hscan]⟩
  · right
    rw [hscan]
    dsimp only
    have hk : k1 ≤ k1 * (3 + (leaderFieldsOf buf).length_data_entry
        + (leaderFieldsOf buf).length_starting) := Nat.le_mul_of_pos_right _ (by omega)
    have hsome := fieldPass_isSome buf (atoi_n buf 5) (leaderFieldsOf buf)
      (24 + k1 * (3 + (leaderFieldsOf buf).length_data_entry
        + (leaderFieldsOf buf).length_starting)) (atoi_n buf 5) 24
      (if (leaderFieldsOf buf).base_address ≠ 24 + k1 * (3 + (leaderFieldsOf buf).length_data_entry
          + (leaderFieldsOf buf).length_starting) + 1 then
        yaz_marc_cprintf mt1 (str "Base address not at end of directory, base "
          ++ dec (leaderFieldsOf buf).base_address ++ str ", end "
          ++ dec (24 + k1 * (3 + (leaderFieldsOf buf).length_data_entry
            + (leaderFieldsOf buf).length_starting) + 1))
      else mt1) ⟨k1, rfl, by omega⟩
    obtain ⟨mt4, h4⟩ := Option.isSome_iff_exists.mp hsome
    exact ⟨k1, mt4, hstop, by rw [h4]⟩

/-- The ISO2709 reader returns on every input: neither pass over the directory
runs out of its `record_length` rounds. -/
theorem read_iso2709_total (mt : yaz_marc_t) (buf : Bytes) (bsize : Int) :
    (yaz_marc_read_iso2709 mt buf bsize).isSome = true := by
  by_cases h25 : atoi_n buf 5 < 25
  · simp only [yaz_marc_read_iso2709, if_pos h25, Option.isSome_some]
  · by_cases hbs : bsize ≠ -1 ∧ (atoi_n buf 5 : Int) > bsize
    · simp only [yaz_marc_read_iso2709, if_neg h25, if_pos hbs, Option.isSome_some]
    · have hb : bsize = -1 ∨ (atoi_n buf 5 : Int) ≤ bsize := by
        by_cases h1 : bsize = -1
        · exact Or.inl h1
        · right
          by_contra h2
          exact hbs ⟨h1, by omega⟩
      rcases read_iso2709_cases mt buf bsize (by omega) hb with ⟨_, _, _, h⟩ | ⟨_, _, _, h⟩ <;>
        rw [h] <;> rfl

/-- C3.  Fatal length errors of the ISO2709 reader: when the first five bytes
are the decimal digits of `n` and `n < 25`, or the buffer size is known and
`n` exceeds it, the reader returns -1 and the model it leaves consists of one
Comment node. -/
theorem read_iso2709_length_fatal (mt : yaz_marc_t) (buf : Bytes) (bsize : Int) (n : Nat)
    (hn : n < 100000) (hbuf : buf.take 5 = pad0 5 n)
    (h : n < 25 ∨ (bsize ≠ -1 ∧ (n : Int) > bsize)) :
    ∃ text, yaz_marc_read_iso2709 mt buf bsize
      = some (-1, { yaz_marc_reset mt with nodes := [yaz_marc_node.comment text] }) := by
  have hrec : atoi_n buf 5 = n := atoi_n_of_take buf 5 n (by omega) (by omega) hbuf
  by_cases h25 : n < 25
  · refine ⟨cstr ((cstr (str "Record length " ++ dec n ++ str " < 24")).take 199), ?_⟩
    simp only [yaz_marc_read_iso2709, hrec, if_pos h25]
    rfl
  · have hbs : bsize ≠ -1 ∧ (n : Int) > bsize := by
      rcases h with h | h
      · exact absurd h h25
      · exact h
    refine ⟨cstr ((cstr (str "Record appears to be larger than buffer "
      ++ dec n ++ str " < " ++ decInt bsize)).take 199), ?_⟩
    simp only [yaz_marc_read_iso2709, hrec, if_neg h25, if_pos hbs]
    rfl

theorem read_iso2709_length_fatal_witness :
    ((24 : Nat) < 100000 ∧ (str "00024").take 5 = pad0 5 24 ∧
      ((24 : Nat) < 25 ∨ ((-1 : Int) ≠ -1 ∧ ((24 : Nat) : Int) > -1))) ∧
    ∃ text, yaz_marc_read_iso2709 yaz_marc_create (str "00024") (-1)
      = some (-1, { yaz_marc_reset yaz_marc_create with
          nodes := [yaz_marc_node.comment text] }) :=
  ⟨⟨by decide, by decide, Or.inl (by decide)⟩,
    read_iso2709_length_fatal yaz_marc_create (str "00024") (-1) 24 (by decide) (by decide)
      (Or.inl (by decide))⟩

/-- C4 as stated fails: a 30-byte record declaring length 30 whose directory
entry at offset 24 would end at offset 36 makes the reader return -1, not 30. -/
theorem read_iso2709_return_counterexample :
    overrunRecord.length = 30 ∧ overrunRecord.take 5 = pad0 5 30 ∧
    (yaz_marc_read_iso2709 yaz_marc_create overrunRecord (-1)).map Prod.fst = some (-1) ∧
    (yaz_marc_read_iso2709 yaz_marc_create overrunRecord 30).map Prod.fst = some (-1) := by
  decide

/-- C4, amended.  When the first five bytes are the decimal digits of `n`,
`n >= 25` and the buffer size is unknown or at least `n`: the reader returns
-1 if the directory scan meets an entry (not starting with the field
separator) that would run to or past the end of the record, and returns `n`
otherwise; an entry whose length/offset portion is not all digits stops the
scan at that entry, its offset is the end of the directory, and the reader
returns `n`. -/
theorem read_iso2709_return (mt : yaz_marc_t) (buf : Bytes) (bsize : Int) (n : Nat)
    (hn : n < 100000) (hbuf : buf.take 5 = pad0 5 n) (h25 : 25 ≤ n)
    (hb : bsize = -1 ∨ (n : Int) ≤ bsize) :
    ((∃ k, DirOverrun buf n
        (3 + (leaderFieldsOf buf).length_data_entry + (leaderFieldsOf buf).length_starting) k) →
      (yaz_marc_read_iso2709 mt buf bsize).map Prod.fst = some (-1)) ∧
    ((¬ ∃ k, DirOverrun buf n
        (3 + (leaderFieldsOf buf).length_data_entry + (leaderFieldsOf buf).length_starting) k) →
      (yaz_marc_read_iso2709 mt buf bsize).map Prod.fst = some (n : Int)) ∧
    (∀ k, DirBadDigits buf n
        (3 + (leaderFieldsOf buf).length_data_entry + (leaderFieldsOf buf).length_starting) k →
      (yaz_marc_read_iso2709 mt buf bsize).map Prod.fst = some (n : Int) ∧
      ∀ mt1, ∃ mt2, dirScan buf n (leaderFieldsOf buf).length_data_entry
          (leaderFieldsOf buf).length_starting n mt1 24
        = some (.stop mt2 (24 + k * (3 + (leaderFieldsOf buf).length_data_entry
            + (leaderFieldsOf buf).length_starting)))) := by
  have hrec : atoi_n buf 5 = n := atoi_n_of_take buf 5 n (by omega) (by omega) hbuf
  have hc := read_iso2709_cases mt buf bsize (by omega) (by rw [hrec]; exact hb)
  rw [hrec] at hc
  refine ⟨?_, ?_, ?_⟩
  · rintro ⟨k, hk⟩
    rcases hc with ⟨_, _, _, h⟩ | ⟨k1, _, h1, _⟩
    · rw [h]; rfl
    · exact absurd (overrun_exclusive buf n _ k k1 hk h1) id
  · intro hno
    rcases hc with ⟨k1, _, h1, _⟩ | ⟨_, _, _, h⟩
    · exact absurd ⟨k1, h1⟩ hno
    · rw [h]; rfl
  · intro k hk
    constructor
    · rcases hc with ⟨k1, _, h1, _⟩ | ⟨_, _, _, h⟩
      · exact absurd (overrun_exclusive buf n _ k1 k h1 (Or.inl hk)) id
      · rw [h]; rfl
    · intro mt1
      have hs := dirScan_spec buf n (leaderFieldsOf buf).length_data_entry
        (leaderFieldsOf buf).length_starting n 0 mt1 (fun j hj => absurd hj (by omega))
        (by omega) (by omega)
      simp only [Nat.zero_mul, Nat.add_zero] at hs
      rcases hs with ⟨k1, _, _, hov, _⟩ | ⟨k1, mt2, _, hstop, _, hscan⟩
      · exact absurd (overrun_exclusive buf n _ k1 k hov (Or.inl hk)) id
      · have hkk : k1 = k := by
          obtain ⟨hp, hfs, hfit, hbad⟩ := hk
          rcases Nat.lt_trichotomy k1 k with hlt | heq | hgt
          · have hpk := hp k1 hlt
            rcases hstop with h1 | h1
            · have := hpk.2.2
              rw [h1.2.2.2] at this
              exact Bool.noConfusion this
            · exact absurd h1.2 hpk.1
          · exact heq
          · have hpk := (show EntryPassed buf n (3 + (leaderFieldsOf buf).length_data_entry
                + (leaderFieldsOf buf).length_starting) k from by
              rcases hstop with h1 | h1
              · exact h1.1 k hgt
              · exact h1.1 k hgt)
            have := hpk.2.2
            rw [hbad] at this
            exact Bool.noConfusion this
        subst hkk
        exact ⟨mt2, hscan⟩

theorem read_iso2709_return_witness :
    ((40 : Nat) < 100000 ∧ badDigitsRecord.take 5 = pad0 5 40 ∧ 25 ≤ (40 : Nat) ∧
      ((-1 : Int) = -1 ∨ ((40 : Nat) : Int) ≤ -1)) ∧
    (((∃ k, DirOverrun badDigitsRecord 40
        (3 + (leaderFieldsOf badDigitsRecord).length_data_entry
          + (leaderFieldsOf badDigitsRecord).length_starting) k) →
      (yaz_marc_read_iso2709 yaz_marc_create badDigitsRecord (-1)).map Prod.fst = some (-1)) ∧
    ((¬ ∃ k, DirOverrun badDigitsRecord 40
        (3 + (leaderFieldsOf badDigitsRecord).length_data_entry
          + (leaderFieldsOf badDigitsRecord).length_starting) k) →
      (yaz_marc_read_iso2709 yaz_marc_create badDigitsRecord (-1)).map Prod.fst
        = some ((40 : Nat) : Int)) ∧
    (∀ k, DirBadDigits badDigitsRecord 40
        (3 + (leaderFieldsOf badDigitsRecord).length_data_entry
          + (leaderFieldsOf badDigitsRecord).length_starting) k →
      (yaz_marc_read_iso2709 yaz_marc_create badDigitsRecord (-1)).map Prod.fst
        = some ((40 : Nat) : Int) ∧
      ∀ mt1, ∃ mt2, dirScan badDigitsRecord 40
          (leaderFieldsOf badDigitsRecord).length_data_entry
          (leaderFieldsOf badDigitsRecord).length_starting 40 mt1 24
        = some (.stop mt2 (24 + k * (3 + (leaderFieldsOf badDigitsRecord).length_data_entry
            + (leaderFieldsOf badDigitsRecord).length_starting))))) :=
  ⟨⟨by decide, by decide, by decide, Or.inl rfl⟩,
    read_iso2709_return yaz_marc_create badDigitsRecord (-1) 40 (by decide) (by decide)
      (by decide) (Or.inl rfl)⟩

/-! ## ISO2709 writer without a converter: closed form -/

theorem iconv_puts_none (wr s : Bytes) : wrbuf_iconv_puts wr none s = wr ++ cstr s := by
  simp [wrbuf_iconv_puts, wrbuf_iconv_write, wrbuf_write, mem_self]

theorem iconv_putchar_none (wr : Bytes) (c : Nat) : wrbuf_iconv_putchar wr none c = wr ++ [c] := by
  simp [wrbuf_iconv_putchar, wrbuf_iconv_write, wrbuf_write, mem, peek, List.range_succ]

theorem unput_putchar_none (wr : Bytes) (c : Nat) :
    wrbuf_unput (wrbuf_iconv_putchar wr none c) = wr := by
  simp [iconv_putchar_none, wrbuf_unput]

theorem isoTmpSubfields_length (ss : List Bytes) (tmp : Bytes) :
    (isoTmpSubfields none ss tmp).length
      = tmp.length + (ss.map (fun s => 1 + (cstr s).length)).sum := by
  induction ss generalizing tmp with
  | nil => simp [isoTmpSubfields]
  | cons s ss ih =>
    simp only [isoTmpSubfields, ih, iconv_puts_none, iconv_putchar_none, List.length_append,
      List.length_singleton, List.map_cons, List.sum_cons]
    omega

theorem isoSubfields_none (ss : List Bytes) (wr : Bytes) :
    isoSubfields none ss wr = wr ++ (ss.map (fun s => ISO2709_IDFS :: cstr s)).flatten := by
  induction ss generalizing wr with
  | nil => simp [isoSubfields]
  | cons s ss ih =>
    simp only [isoSubfields, ih, unput_putchar_none, iconv_puts_none, wrbuf_putc,
      List.map_cons, List.flatten_cons, List.append_assoc, List.singleton_append,
      List.cons_append, List.nil_append]

theorem isoPass2_none (il : Nat) (ns : List yaz_marc_node) (wr : Bytes) :
    isoPass2 none il ns wr = wr ++ bodies il ns := by
  induction ns generalizing wr with
  | nil => simp [isoPass2, bodies]
  | cons n ns ih =>
    cases n with
    | datafield t i ss =>
      simp only [isoPass2, ih, isoSubfields_none, wrbuf_putc, bodies, fieldBody, List.map_cons,
        List.flatten_cons, List.append_assoc]
    | controlfield t d =>
      simp only [isoPass2, ih, unput_putchar_none, iconv_puts_none, wrbuf_putc,
        bodies, fieldBody, List.map_cons, List.flatten_cons, List.append_assoc]
    | comment c => simp [isoPass2, ih, bodies, fieldBody]
    | leader l => simp [isoPass2, ih, bodies, fieldBody]

theorem isoPass1_none (il lde ls : Nat) (ns : List yaz_marc_node) (dir : Bytes) (off : Nat) :
    isoPass1 none il lde ls ns (dir, off)
      = (dir ++ directory il lde ls ns off, off + declaredTotal il ns) := by
  induction ns generalizing dir off with
  | nil => simp [isoPass1, directory, declaredTotal]
  | cons n ns ih =>
    cases n with
    | datafield t i ss =>
      simp only [isoPass1, iconv_putchar_none, List.length_append, List.length_singleton,
        ne_eq, if_true, ih, directory, isField, dirTag, declaredLength,
        declaredTotal, List.map_cons, List.sum_cons, isoTmpSubfields_length, List.length_nil,
        Nat.zero_add, List.append_assoc, Nat.add_assoc]
      rw [if_pos (by omega)]
    | controlfield t d =>
      simp only [isoPass1, iconv_putchar_none, iconv_puts_none, List.length_append,
        List.length_singleton, List.nil_append, ne_eq, if_true, ih,
        directory, isField, dirTag, declaredLength, declaredTotal, List.map_cons, List.sum_cons,
        List.append_assoc, Nat.add_assoc]
      rw [if_pos (by omega)]
    | comment c =>
      simp [isoPass1, ih, directory, isField, declaredLength, declaredTotal]
    | leader l =>
      simp [isoPass1, ih, directory, isField, declaredLength, declaredTotal]

/-- Closed form of `yaz_marc_write_iso2709` without a converter, for a model
whose Leader node content is `leader` with digits at the five checked
offsets. -/
theorem write_iso2709_eq (mt : yaz_marc_t) (wr leader : Bytes)
    (hcd : mt.iconv_cd = none)
    (hmem : yaz_marc_node.leader leader ∈ mt.nodes)
    (huniq : ∀ l1, yaz_marc_node.leader l1 ∈ mt.nodes → l1 = leader)
    (hdig : ∀ o ∈ isoLeaderOffsets, isdigit (peek leader o) = true) :
    yaz_marc_write_iso2709 mt wr
      = (0, wr ++ mem (pad0 5 (24 + ((directory (peek leader 10 - 48) (peek leader 20 - 48)
                (peek leader 21 - 48) mt.nodes 0).length + 1)
              + declaredTotal (peek leader 10 - 48) mt.nodes + 1)
            ++ mem leader 5 7
            ++ pad0 5 (24 + ((directory (peek leader 10 - 48) (peek leader 20 - 48)
                (peek leader 21 - 48) mt.nodes 0).length + 1))
            ++ mem leader 17 7) 0 24
          ++ directory (peek leader 10 - 48) (peek leader 20 - 48) (peek leader 21 - 48)
              mt.nodes 0
          ++ [ISO2709_FS] ++ bodies (peek leader 10 - 48) mt.nodes ++ [ISO2709_RS]) := by
  have hl := lastLeader_some mt.nodes none leader hmem huniq
  simp only [isoLeaderOffsets, List.mem_cons, List.mem_singleton, List.not_mem_nil, or_false,
    forall_eq_or_imp, forall_eq] at hdig
  obtain ⟨h10, h11, h20, h21, h22⟩ := hdig
  have hself : ∀ d : Bytes, mem (d ++ [ISO2709_FS]) 0 (d.length + 1) = d ++ [ISO2709_FS] := by
    intro d
    have := mem_self (d ++ [ISO2709_FS])
    simpa using this
  simp only [yaz_marc_write_iso2709, hl, atoi_n_check_one, h10, h11, h20, h21, h22, if_true,
    hcd, isoPass1_none, isoPass2_none, wrbuf_putc, wrbuf_write, mem_drop,
    List.nil_append, Nat.zero_add, List.length_append, List.length_singleton, Nat.add_zero,
    List.append_assoc, hself]

/-! ## ISO2709 writer: header and directory -/

theorem fieldBody_length (il : Nat) (n : yaz_marc_node)
    (h : ∀ tag ind ss, n = yaz_marc_node.datafield tag ind ss → il ≤ (cstr ind).length) :
    (fieldBody il n).length = declaredLength il n := by
  cases n with
  | datafield t i ss =>
    have hi := h t i ss rfl
    have hsum : ∀ l : List Bytes, ((l.map (fun s => ISO2709_IDFS :: cstr s)).flatten).length
        = (l.map (fun s => 1 + (cstr s).length)).sum := by
      intro l
      induction l with
      | nil => rfl
      | cons a l ih => simp [ih]; omega
    simp only [fieldBody, declaredLength, List.length_append, List.length_take,
      List.length_singleton, hsum]
    omega
  | controlfield t d => simp [fieldBody, declaredLength]
  | comment c => rfl
  | leader l => rfl

theorem bodies_cons (il : Nat) (n : yaz_marc_node) (ns : List yaz_marc_node) :
    bodies il (n :: ns) = fieldBody il n ++ bodies il ns := by
  simp [bodies]

theorem bodies_length (il : Nat) (ns : List yaz_marc_node) (h : IndicatorsCover il ns) :
    (bodies il ns).length = declaredTotal il ns := by
  induction ns with
  | nil => rfl
  | cons n ns ih =>
    have h1 : IndicatorsCover il ns := fun t i ss hm => h t i ss (List.mem_cons_of_mem _ hm)
    have h2 := fieldBody_length il n (fun t i ss e => h t i ss (e ▸ List.mem_cons_self _ _))
    simp only [bodies_cons, List.length_append, ih h1, h2, declaredTotal, List.map_cons,
      List.sum_cons]

theorem mem_leader_take (leader : Bytes) (i n : Nat) (h : i + n ≤ leader.length) :
    mem leader i n = (leader.drop i).take n := mem_eq_take_drop leader i n h

theorem isoHeader_length (leader : Bytes) (total base : Nat) (hlen : leader.length = 24)
    (ht : total < 100000) (hb : base < 100000) : (isoHeader leader total base).length = 24 := by
  simp only [isoHeader, List.length_append, pad0_length 5 total (by omega) (by omega),
    pad0_length 5 base (by omega) (by omega), List.length_take, List.length_drop, hlen]
  omega

theorem cstr_replicate (n : Nat) : cstr (List.replicate n 65) = List.replicate n 65 := by
  unfold cstr
  rw [List.takeWhile_eq_self_iff.mpr]
  intro c hc
  rw [List.eq_of_mem_replicate hc]
  rfl

/-- Closed form of the writer in terms of the header, directory and bodies,
when the declared total stays below 100000. -/
theorem write_iso2709_layout (mt : yaz_marc_t) (wr leader : Bytes)
    (hcd : mt.iconv_cd = none)
    (hmem : yaz_marc_node.leader leader ∈ mt.nodes)
    (huniq : ∀ l1, yaz_marc_node.leader l1 ∈ mt.nodes → l1 = leader)
    (hlen : leader.length = 24)
    (hdig : ∀ o ∈ isoLeaderOffsets, isdigit (peek leader o) = true)
    (hind : IndicatorsCover (ilOf leader) mt.nodes)
    (htot : isoTotal leader mt.nodes < 100000) :
    yaz_marc_write_iso2709 mt wr
      = (0, wr ++ (isoHeader leader (isoTotal leader mt.nodes) (isoBase leader mt.nodes)
          ++ isoDirectory leader mt.nodes ++ [ISO2709_FS] ++ isoBodies leader mt.nodes
          ++ [ISO2709_RS])) := by
  rw [write_iso2709_eq mt wr leader hcd hmem huniq hdig]
  have hb := bodies_length (ilOf leader) mt.nodes hind
  have hbase : isoBase leader mt.nodes < 100000 := by
    unfold isoTotal at htot; omega
  have hh := isoHeader_length leader _ _ hlen htot hbase
  have e1 : 24 + ((directory (peek leader 10 - 48) (peek leader 20 - 48)
      (peek leader 21 - 48) mt.nodes 0).length + 1) = isoBase leader mt.nodes := by
    simp only [isoBase, isoDirectory, ilOf, ldeOf, lsOf]; omega
  have e2 : isoBase leader mt.nodes + declaredTotal (peek leader 10 - 48) mt.nodes + 1
      = isoTotal leader mt.nodes := by
    have hb1 : (bodies (peek leader 10 - 48) mt.nodes).length
        = declaredTotal (peek leader 10 - 48) mt.nodes := hb
    simp only [isoTotal, isoBodies, ilOf, hb1]
  have e3 : mem leader 5 7 = (leader.drop 5).take 7 := mem_leader_take leader 5 7 (by omega)
  have e4 : mem leader 17 7 = (leader.drop 17).take 7 := mem_leader_take leader 17 7 (by omega)
  have e5 : mem (isoHeader leader (isoTotal leader mt.nodes) (isoBase leader mt.nodes)) 0 24
      = isoHeader leader (isoTotal leader mt.nodes) (isoBase leader mt.nodes) := by
    rw [← hh]; exact mem_self _
  rw [e1, e2, e3, e4]
  have e6 : pad0 5 (isoTotal leader mt.nodes) ++ List.take 7 (List.drop 5 leader)
      ++ pad0 5 (isoBase leader mt.nodes) ++ List.take 7 (List.drop 17 leader)
      = isoHeader leader (isoTotal leader mt.nodes) (isoBase leader mt.nodes) := rfl
  rw [e6, e5]
  simp only [isoDirectory, isoBodies, ilOf, ldeOf, lsOf, List.append_assoc]

theorem write_oneControlModel (d : Bytes) (hc : cstr d = d) (hlen : d.length = 99960) :
    (yaz_marc_write_iso2709 (oneControlModel d) []).1 = 0 ∧
    (yaz_marc_write_iso2709 (oneControlModel d) []).2.length = 100000 ∧
    (yaz_marc_write_iso2709 (oneControlModel d) []).2.take 6 = str "100000" := by
  have hm : yaz_marc_node.leader wideLeader ∈ (oneControlModel d).nodes :=
    List.mem_cons_self _ _
  have hu : ∀ l1, yaz_marc_node.leader l1 ∈ (oneControlModel d).nodes → l1 = wideLeader := by
    intro l1 h1
    simp only [oneControlModel, List.mem_cons, yaz_marc_node.leader.injEq, List.mem_singleton,
      reduceCtorEq, List.not_mem_nil, or_false] at h1
    exact h1
  have h := write_iso2709_eq (oneControlModel d) [] wideLeader rfl hm hu (by decide)
  have e10 : peek wideLeader 10 - 48 = 2 := by decide
  have e20 : peek wideLeader 20 - 48 = 5 := by decide
  have e21 : peek wideLeader 21 - 48 = 5 := by decide
  have e3 : (cstr (str "001")).take 3 = str "001" := by decide
  have e4 : pad0 5 99961 = str "99961" := by decide
  have e5 : pad0 5 0 = str "00000" := by decide
  have edir : directory 2 5 5 (oneControlModel d).nodes 0 = str "0019996100000" := by
    simp only [oneControlModel, directory, isField, dirTag, declaredLength, hc, hlen, if_true,
      Bool.false_eq_true, if_false, e3, e4, e5, Nat.zero_add, List.nil_append, List.append_nil]
    decide
  have etot : declaredTotal 2 (oneControlModel d).nodes = 99961 := by
    simp only [oneControlModel, declaredTotal, declaredLength, hc, hlen, List.map_cons,
      List.map_nil, List.sum_cons, List.sum_nil]
    decide
  have ebod : bodies 2 (oneControlModel d).nodes = d ++ [ISO2709_FS] := by
    simp only [oneControlModel, bodies, fieldBody, hc, List.map_cons, List.map_nil,
      List.flatten_cons, List.flatten_nil, List.nil_append, List.append_nil]
  rw [e10, e20, e21, edir, etot, ebod] at h
  have ehead : mem (pad0 5 (24 + ((str "0019996100000").length + 1) + 99961 + 1)
      ++ mem wideLeader 5 7 ++ pad0 5 (24 + ((str "0019996100000").length + 1))
      ++ mem wideLeader 17 7) 0 24 = str "100000nam a2200038 a 550" := by decide
  rw [ehead] at h
  rw [h]
  refine ⟨rfl, ?_, ?_⟩
  · simp only [List.nil_append, List.length_append, hlen, List.length_singleton]
    decide
  · simp only [List.nil_append, List.append_assoc]
    rw [List.take_append_of_le_length (by decide)]
    decide

/-- C7 as stated fails.  (a) A data field with no indicator bytes under a
leader declaring two: the header announces 44 bytes, 42 are written.  (b) A
record of exactly 100000 bytes: its length takes six digits, so the header
starts with `100000` and leader byte 5 is not at offset 5. -/
theorem write_iso2709_header_counterexample :
    ((yaz_marc_write_iso2709 shortIndicatorModel []).1 = 0 ∧
      (yaz_marc_write_iso2709 shortIndicatorModel []).2.take 5 = str "00044" ∧
      (yaz_marc_write_iso2709 shortIndicatorModel []).2.length = 42) ∧
    ((yaz_marc_write_iso2709 bigModel []).1 = 0 ∧
      (yaz_marc_write_iso2709 bigModel []).2.length = 100000 ∧
      (yaz_marc_write_iso2709 bigModel []).2.take 6 = str "100000") :=
  ⟨by decide, write_oneControlModel bigData (cstr_replicate 99960) (List.length_replicate _ _)⟩

/-- C7, amended.  For a record model whose Leader holds digits at offsets 10,
11, 20, 21, 22 (no converter), in which every data field has at least
`indicator_length` indicator bytes and whose record stays below 100000 bytes,
the writer appends a 24-byte header followed by the directory, 0x1E, the
bodies and 0x1D; the header is the 5-digit decimal of the number of bytes
appended, leader bytes 5-11, the 5-digit decimal of the base address
24 + directory length + 1, and leader bytes 17-23. -/
theorem write_iso2709_header (mt : yaz_marc_t) (wr leader : Bytes)
    (hcd : mt.iconv_cd = none)
    (hmem : yaz_marc_node.leader leader ∈ mt.nodes)
    (huniq : ∀ l1, yaz_marc_node.leader l1 ∈ mt.nodes → l1 = leader)
    (hlen : leader.length = 24)
    (hdig : ∀ o ∈ isoLeaderOffsets, isdigit (peek leader o) = true)
    (hind : IndicatorsCover (ilOf leader) mt.nodes)
    (htot : isoTotal leader mt.nodes < 100000) :
    yaz_marc_write_iso2709 mt wr
      = (0, wr ++ (isoHeader leader (isoTotal leader mt.nodes) (isoBase leader mt.nodes)
          ++ isoDirectory leader mt.nodes ++ [ISO2709_FS] ++ isoBodies leader mt.nodes
          ++ [ISO2709_RS])) ∧
    (isoHeader leader (isoTotal leader mt.nodes) (isoBase leader mt.nodes)).length = 24 ∧
    (pad0 5 (isoTotal leader mt.nodes)).length = 5 ∧
    (pad0 5 (isoBase leader mt.nodes)).length = 5 ∧
    (isoHeader leader (isoTotal leader mt.nodes) (isoBase leader mt.nodes)
      ++ isoDirectory leader mt.nodes ++ [ISO2709_FS] ++ isoBodies leader mt.nodes
      ++ [ISO2709_RS]).length = isoTotal leader mt.nodes := by
  have hbase : isoBase leader mt.nodes < 100000 := by
    unfold isoTotal at htot; omega
  have hh := isoHeader_length leader _ _ hlen htot hbase
  refine ⟨write_iso2709_layout mt wr leader hcd hmem huniq hlen hdig hind htot, hh,
    pad0_length 5 _ (by omega) (by omega), pad0_length 5 _ (by omega) (by omega), ?_⟩
  simp only [List.length_append, hh, List.length_singleton]
  simp only [isoTotal, isoBase]

theorem smallModel_ok :
    smallModel.iconv_cd = none ∧
    yaz_marc_node.leader plainLeader ∈ smallModel.nodes ∧
    (∀ l1, yaz_marc_node.leader l1 ∈ smallModel.nodes → l1 = plainLeader) ∧
    plainLeader.length = 24 ∧
    (∀ o ∈ isoLeaderOffsets, isdigit (peek plainLeader o) = true) ∧
    IndicatorsCover (ilOf plainLeader) smallModel.nodes ∧
    isoTotal plainLeader smallModel.nodes < 100000 := by
  refine ⟨rfl, by simp [smallModel], by simp [smallModel], by decide, by decide, ?_, by decide⟩
  intro tag ind ss h
  simp only [smallModel, List.mem_cons, reduceCtorEq, yaz_marc_node.datafield.injEq,
    List.mem_singleton, List.not_mem_nil, or_false, false_or] at h
  obtain ⟨_, h2, _⟩ := h
  subst h2
  decide

theorem write_iso2709_header_witness :
    (smallModel.iconv_cd = none ∧
      yaz_marc_node.leader plainLeader ∈ smallModel.nodes ∧
      (∀ l1, yaz_marc_node.leader l1 ∈ smallModel.nodes → l1 = plainLeader) ∧
      plainLeader.length = 24 ∧
      (∀ o ∈ isoLeaderOffsets, isdigit (peek plainLeader o) = true) ∧
      IndicatorsCover (ilOf plainLeader) smallModel.nodes ∧
      isoTotal plainLeader smallModel.nodes < 100000) ∧
    (yaz_marc_write_iso2709 smallModel []
      = (0, [] ++ (isoHeader plainLeader (isoTotal plainLeader smallModel.nodes)
            (isoBase plainLeader smallModel.nodes)
          ++ isoDirectory plainLeader smallModel.nodes ++ [ISO2709_FS]
          ++ isoBodies plainLeader smallModel.nodes ++ [ISO2709_RS])) ∧
    (isoHeader plainLeader (isoTotal plainLeader smallModel.nodes)
      (isoBase plainLeader smallModel.nodes)).length = 24 ∧
    (pad0 5 (isoTotal plainLeader smallModel.nodes)).length = 5 ∧
    (pad0 5 (isoBase plainLeader smallModel.nodes)).length = 5 ∧
    (isoHeader plainLeader (isoTotal plainLeader smallModel.nodes)
        (isoBase plainLeader smallModel.nodes)
      ++ isoDirectory plainLeader smallModel.nodes ++ [ISO2709_FS]
      ++ isoBodies plainLeader smallModel.nodes ++ [ISO2709_RS]).length
        = isoTotal plainLeader smallModel.nodes) :=
  ⟨smallModel_ok,
    write_iso2709_header smallModel [] plainLeader smallModel_ok.1 smallModel_ok.2.1
      smallModel_ok.2.2.1 smallModel_ok.2.2.2.1 smallModel_ok.2.2.2.2.1
      smallModel_ok.2.2.2.2.2.1 smallModel_ok.2.2.2.2.2.2⟩

theorem directory_eq_spec (il lde ls : Nat) (hlde : 1 ≤ lde) (hls : 1 ≤ ls) :
    ∀ (ns : List yaz_marc_node) (off : Nat), IndicatorsCover il ns → DirFits il lde ls ns off →
      directory il lde ls ns off = (specDirectory il lde ls ns off).flatten := by
  intro ns
  induction ns with
  | nil => intro off _ _; rfl
  | cons n ns ih =>
    intro off hind hfit
    have h1 : IndicatorsCover il ns := fun t i ss hm => hind t i ss (List.mem_cons_of_mem _ hm)
    have h2 := fieldBody_length il n (fun t i ss e => hind t i ss (e ▸ List.mem_cons_self _ _))
    obtain ⟨hf1, hf2⟩ := hfit
    by_cases hfield : isField n = true
    · obtain ⟨hl, ho⟩ := hf1 hfield
      simp only [directory, specDirectory, hfield, if_true, List.flatten_cons, ← h2,
        pad0_eq_digitsW lde _ hlde hl, pad0_eq_digitsW ls _ hls ho, ih _ h1 hf2,
        List.append_assoc]
    · have hz : (fieldBody il n).length = 0 := by
        cases n with
        | datafield t i ss => simp [isField] at hfield
        | controlfield t d => simp [isField] at hfield
        | comment c => rfl
        | leader l => rfl
      rw [hz, Nat.add_zero] at hf2
      simp only [directory, specDirectory, hfield, if_false, List.nil_append, ← h2, hz,
        Nat.add_zero, ih _ h1 hf2, Bool.false_eq_true]

theorem specDirectory_length (il lde ls : Nat) (ns : List yaz_marc_node) (off : Nat) :
    (specDirectory il lde ls ns off).length = (ns.filter isField).length := by
  induction ns generalizing off with
  | nil => rfl
  | cons n ns ih =>
    by_cases hfield : isField n = true
    · simp [specDirectory, hfield, ih]
    · simp [specDirectory, hfield, ih]

theorem specDirectory_entry_length (il lde ls : Nat) (ns : List yaz_marc_node) (off : Nat)
    (htag : TagsCover ns) :
    ∀ e ∈ specDirectory il lde ls ns off, e.length = 3 + lde + ls := by
  induction ns generalizing off with
  | nil => intro e he; simp [specDirectory] at he
  | cons n ns ih =>
    have ht : TagsCover ns := fun m hm hf => htag m (List.mem_cons_of_mem _ hm) hf
    intro e he
    by_cases hfield : isField n = true
    · simp only [specDirectory, hfield, if_true, List.mem_cons] at he
      rcases he with he | he
      · subst he
        simp only [List.length_append, htag n (List.mem_cons_self _ _) hfield, digitsW_length]
      · exact ih _ ht e he
    · simp only [specDirectory, hfield, if_false, Bool.false_eq_true] at he
      exact ih _ ht e he

/-- C8 as stated fails: under a leader with directory widths 1 and 1 a control
field of nine bytes has body length 10, its directory entry `001100` takes six
bytes instead of 3 + 1 + 1, and the byte after the first five directory bytes
is not the terminator. -/
theorem write_iso2709_directory_counterexample :
    yaz_marc_write_iso2709 narrowModel []
      = (0, str "00042nam a2200031 a 1100" ++ str "001100" ++ [ISO2709_FS]
          ++ str "123456789" ++ [ISO2709_FS, ISO2709_RS]) ∧
    ldeOf narrowLeader = 1 ∧ lsOf narrowLeader = 1 ∧
    peek (yaz_marc_write_iso2709 narrowModel []).2 (24 + (3 + 1 + 1)) ≠ ISO2709_FS := by
  decide

/-- C8, amended.  For a record model whose Leader holds digits at offsets 10,
11, 20, 21, 22 with both directory widths at least 1 (no converter), in which
every data field has at least `indicator_length` indicator bytes, every field
tag has at least three bytes, and every body length and offset fits its
width: after the 24 header bytes the writer appends one directory entry per
ControlField/DataField node in node order and none for other nodes, each of
exactly 3 + lde + ls bytes (tag, body length in `lde` digits, offset in `ls`
digits, the offset being the sum of the earlier body lengths and the body
length the number of bytes emitted for the field in pass 2), then 0x1E, the
bodies and 0x1D. -/
theorem write_iso2709_directory (mt : yaz_marc_t) (wr leader : Bytes)
    (hcd : mt.iconv_cd = none)
    (hmem : yaz_marc_node.leader leader ∈ mt.nodes)
    (huniq : ∀ l1, yaz_marc_node.leader l1 ∈ mt.nodes → l1 = leader)
    (hdig : ∀ o ∈ isoLeaderOffsets, isdigit (peek leader o) = true)
    (hlde : 1 ≤ ldeOf leader) (hls : 1 ≤ lsOf leader)
    (hind : IndicatorsCover (ilOf leader) mt.nodes)
    (htag : TagsCover mt.nodes)
    (hfit : DirFits (ilOf leader) (ldeOf leader) (lsOf leader) mt.nodes 0) :
    ∃ hdr : Bytes, hdr.length = 24 ∧
      yaz_marc_write_iso2709 mt wr
        = (0, wr ++ (hdr
            ++ (specDirectory (ilOf leader) (ldeOf leader) (lsOf leader) mt.nodes 0).flatten
            ++ [ISO2709_FS] ++ isoBodies leader mt.nodes ++ [ISO2709_RS])) ∧
      (specDirectory (ilOf leader) (ldeOf leader) (lsOf leader) mt.nodes 0).length
        = (mt.nodes.filter isField).length ∧
      ∀ e ∈ specDirectory (ilOf leader) (ldeOf leader) (lsOf leader) mt.nodes 0,
        e.length = 3 + ldeOf leader + lsOf leader := by
  refine ⟨mem (pad0 5 (24 + ((directory (peek leader 10 - 48) (peek leader 20 - 48)
                (peek leader 21 - 48) mt.nodes 0).length + 1)
              + declaredTotal (peek leader 10 - 48) mt.nodes + 1)
            ++ mem leader 5 7
            ++ pad0 5 (24 + ((directory (peek leader 10 - 48) (peek leader 20 - 48)
                (peek leader 21 - 48) mt.nodes 0).length + 1))
            ++ mem leader 17 7) 0 24, mem_length _ 0 24, ?_, specDirectory_length _ _ _ _ _,
    specDirectory_entry_length _ _ _ _ _ htag⟩
  rw [write_iso2709_eq mt wr leader hcd hmem huniq hdig]
  have hd := directory_eq_spec (ilOf leader) (ldeOf leader) (lsOf leader) hlde hls mt.nodes 0
    hind hfit
  simp only [ilOf, ldeOf, lsOf] at hd
  simp only [hd, isoBodies, ilOf, ldeOf, lsOf, List.append_assoc]

theorem smallModel_dir_ok :
    1 ≤ ldeOf plainLeader ∧ 1 ≤ lsOf plainLeader ∧ TagsCover smallModel.nodes ∧
    DirFits (ilOf plainLeader) (ldeOf plainLeader) (lsOf plainLeader) smallModel.nodes 0 := by
  refine ⟨by decide, by decide, ?_, ?_⟩
  · intro n hn hf
    simp only [smallModel, List.mem_cons, List.mem_singleton, List.not_mem_nil, or_false] at hn
    rcases hn with h | h | h | h <;> subst h
    · exact absurd hf (by decide)
    · decide
    · exact absurd hf (by decide)
    · decide
  · simp only [smallModel, DirFits]
    decide

theorem write_iso2709_directory_witness :
    (smallModel.iconv_cd = none ∧
      yaz_marc_node.leader plainLeader ∈ smallModel.nodes ∧
      (∀ l1, yaz_marc_node.leader l1 ∈ smallModel.nodes → l1 = plainLeader) ∧
      (∀ o ∈ isoLeaderOffsets, isdigit (peek plainLeader o) = true) ∧
      1 ≤ ldeOf plainLeader ∧ 1 ≤ lsOf plainLeader ∧
      IndicatorsCover (ilOf plainLeader) smallModel.nodes ∧ TagsCover smallModel.nodes ∧
      DirFits (ilOf plainLeader) (ldeOf plainLeader) (lsOf plainLeader) smallModel.nodes 0) ∧
    ∃ hdr : Bytes, hdr.length = 24 ∧
      yaz_marc_write_iso2709 smallModel []
        = (0, [] ++ (hdr
            ++ (specDirectory (ilOf plainLeader) (ldeOf plainLeader) (lsOf plainLeader)
                smallModel.nodes 0).flatten
            ++ [ISO2709_FS] ++ isoBodies plainLeader smallModel.nodes ++ [ISO2709_RS])) ∧
      (specDirectory (ilOf plainLeader) (ldeOf plainLeader) (lsOf plainLeader)
          smallModel.nodes 0).length = (smallModel.nodes.filter isField).length ∧
      ∀ e ∈ specDirectory (ilOf plainLeader) (ldeOf plainLeader) (lsOf plainLeader)
          smallModel.nodes 0,
        e.length = 3 + ldeOf plainLeader + lsOf plainLeader :=
  ⟨⟨smallModel_ok.1, smallModel_ok.2.1, smallModel_ok.2.2.1, smallModel_ok.2.2.2.2.1,
      smallModel_dir_ok.1, smallModel_dir_ok.2.1, smallModel_ok.2.2.2.2.2.1,
      smallModel_dir_ok.2.2.1, smallModel_dir_ok.2.2.2⟩,
    write_iso2709_directory smallModel [] plainLeader smallModel_ok.1 smallModel_ok.2.1
      smallModel_ok.2.2.1 smallModel_ok.2.2.2.2.1 smallModel_dir_ok.1 smallModel_dir_ok.2.1
      smallModel_ok.2.2.2.2.2.1 smallModel_dir_ok.2.2.1 smallModel_dir_ok.2.2.2⟩

/-! ## Reading what the writer wrote: position lemmas -/

theorem peek_append_left (a b : Bytes) (k : Nat) (h : k < a.length) :
    peek (a ++ b) k = peek a k := by
  simp [peek, List.getD_eq_getElem?_getD, List.getElem?_append_left h]

theorem peek_append_right (a b : Bytes) (k : Nat) :
    peek (a ++ b) (a.length + k) = peek b k := by
  simp [peek, List.getD_eq_getElem?_getD, List.getElem?_append_right]

theorem flatten_sub_length (ss : List Bytes) :
    ((ss.map (fun s => ISO2709_IDFS :: cstr s)).flatten).length
      = (ss.map (fun s => 1 + (cstr s).length)).sum := by
  induction ss with
  | nil => rfl
  | cons a l ih => simp [ih]; omega

theorem stepLeader_digit (l : Bytes) (off d : Nat) (h : isdigit (peek l off) = true) :
    stepLeader l off d = l := by
  simp [stepLeader, h]

theorem leaderDebug_eq (m : yaz_marc_t) (f : LeaderFields) :
    leaderDebug m f
      = { m with nodes := m.nodes ++ (leaderDebugComments f).map yaz_marc_node.comment } := by
  simp [leaderDebug, cprintf_eq, leaderDebugComments]

theorem stepComment_eq (l : Bytes) (off : Nat) (msg : Bytes) :
    stepComment l off msg
      = (if isdigit (peek l off) then [] else [msg]).map yaz_marc_node.comment := by
  unfold stepComment
  split <;> rfl

/-- Closed form of `yaz_marc_read_leader` on a 24-byte leader, whatever the
debug flag and the leader-spec: some comments, then the Leader node holding
the patched leader with the leader-spec applied; the resolved values depend on
the leader alone. -/
theorem read_leader_gen (mt : yaz_marc_t) (L : Bytes) (hlen : L.length = 24) :
    ∃ cs : List Bytes, yaz_marc_read_leader mt L
      = ({ mt with nodes := mt.nodes ++ cs.map yaz_marc_node.comment
            ++ [.leader (marc_exec_leader mt.leader_spec (patchedLeader L) 24).2] },
          leaderFieldsOf L) := by
  obtain ⟨m1, m2, m3, m4, m5⟩ := msgs_stored
  have hf := read_leader_fields mt L
  have hm : mem L 0 24 = L := by rw [← hlen]; exact mem_self L
  have hm6 : mem (patchedLeader L) 0 24 = patchedLeader L := by
    rw [← patchedLeader_length L hlen]; exact mem_self _
  unfold yaz_marc_read_leader at hf ⊢
  rw [hm, leaderDigit_eq _ _ _ _ _ m1] at hf ⊢
  dsimp only at hf ⊢
  rw [leaderDigit_eq _ _ _ _ _ m2] at hf ⊢
  dsimp only at hf ⊢
  rw [leaderBase_eq] at hf ⊢
  dsimp only at hf ⊢
  rw [leaderDigit_eq _ _ _ _ _ m3] at hf ⊢
  dsimp only at hf ⊢
  rw [leaderDigit_eq _ _ _ _ _ m4] at hf ⊢
  dsimp only at hf ⊢
  rw [leaderDigit_eq _ _ _ _ _ m5] at hf ⊢
  dsimp only at hf ⊢
  rw [hf]
  by_cases hdbg : mt.debug = 0
  · refine ⟨(if isdigit (peek L 10) then [] else [msgIndicator])
      ++ (if isdigit (peek (stepLeader L 10 2) 11) then [] else [msgIdentifier])
      ++ (if isdigit (peek (stepLeader (stepLeader L 10 2) 11 2) 12) then [] else [msgBase])
      ++ (if isdigit (peek (stepLeader (stepLeader L 10 2) 11 2) 20) then [] else [msgDataEntry])
      ++ (if isdigit (peek (stepLeader (stepLeader (stepLeader L 10 2) 11 2) 20 4) 21) then []
          else [msgStarting])
      ++ (if isdigit (peek (stepLeader (stepLeader (stepLeader (stepLeader L 10 2) 11 2) 20 4)
            21 5) 22) then [] else [msgImplementation]), ?_⟩
    simp only [hdbg, ne_eq, not_true_eq_false, if_false, yaz_marc_add_leader, yaz_marc_add_node,
      stepComment_eq, List.map_append, List.append_assoc]
    rw [show stepLeader (stepLeader (stepLeader (stepLeader (stepLeader L 10 2) 11 2) 20 4) 21 5)
      22 0 = patchedLeader L from rfl, hm6]
  · refine ⟨(if isdigit (peek L 10) then [] else [msgIndicator])
      ++ (if isdigit (peek (stepLeader L 10 2) 11) then [] else [msgIdentifier])
      ++ (if isdigit (peek (stepLeader (stepLeader L 10 2) 11 2) 12) then [] else [msgBase])
      ++ (if isdigit (peek (stepLeader (stepLeader L 10 2) 11 2) 20) then [] else [msgDataEntry])
      ++ (if isdigit (peek (stepLeader (stepLeader (stepLeader L 10 2) 11 2) 20 4) 21) then []
          else [msgStarting])
      ++ (if isdigit (peek (stepLeader (stepLeader (stepLeader (stepLeader L 10 2) 11 2) 20 4)
            21 5) 22) then [] else [msgImplementation]) ++ leaderDebugComments (leaderFieldsOf L), ?_⟩
    simp only [hdbg, ne_eq, not_false_eq_true, if_true, leaderDebug_eq]
    simp only [yaz_marc_add_leader, yaz_marc_add_node,
      stepComment_eq, List.map_append, List.append_assoc]
    rw [show stepLeader (stepLeader (stepLeader (stepLeader (stepLeader L 10 2) 11 2) 20 4) 21 5)
      22 0 = patchedLeader L from rfl, hm6]

theorem patchedLeader_of_digits (L : Bytes)
    (h : ∀ o ∈ isoLeaderOffsets, isdigit (peek L o) = true) : patchedLeader L = L := by
  have h10 := h 10 (by decide)
  have h11 := h 11 (by decide)
  have h20 := h 20 (by decide)
  have h21 := h 21 (by decide)
  have h22 := h 22 (by decide)
  unfold patchedLeader
  rw [stepLeader_digit L 10 2 h10, stepLeader_digit L 11 2 h11, stepLeader_digit L 20 4 h20,
    stepLeader_digit L 21 5 h21, stepLeader_digit L 22 0 h22]

theorem patchedLeader_digits (L : Bytes) (hlen : L.length = 24) :
    ∀ o ∈ isoLeaderOffsets, isdigit (peek (patchedLeader L) o) = true := by
  intro o ho
  simp only [isoLeaderOffsets, List.mem_cons, List.mem_singleton, List.not_mem_nil,
    or_false] at ho
  rcases ho with rfl | rfl | rfl | rfl | rfl <;>
  · rw [peek_patchedLeader L hlen]
    simp only [Nat.reduceEqDiff, if_true, if_false]
    split
    · assumption
    · decide

theorem patchedLeader_idem (L : Bytes) (hlen : L.length = 24) :
    patchedLeader (patchedLeader L) = patchedLeader L :=
  patchedLeader_of_digits _ (patchedLeader_digits L hlen)

theorem leaderFieldsOf_patched (L : Bytes) (hlen : L.length = 24) :
    leaderFieldsOf (patchedLeader L) = leaderFieldsOf L := by
  have hb : atoi_n ((patchedLeader L).drop 12) 5 = atoi_n (L.drop 12) 5 := by
    unfold atoi_n
    rw [mem_drop, mem_drop]
    rw [mem_congr (patchedLeader L) L (12 + 0) 5 (fun k hk => by
      rw [peek_patchedLeader L hlen]
      simp only [Nat.add_zero]
      rw [if_neg (by omega), if_neg (by omega), if_neg (by omega), if_neg (by omega),
        if_neg (by omega)])]
  have fix : ∀ c d : Nat, isdigit (48 + d) = true → (48 + d) - 48 = d →
      (if isdigit (if isdigit c = true then c else 48 + d) = true
        then (if isdigit c = true then c else 48 + d) - 48 else d)
      = if isdigit c = true then c - 48 else d := by
    intro c d h1 h2
    cases h : isdigit c
    · simp only [Bool.false_eq_true, if_false, h1, if_true, h2]
    · simp only [if_true, h]
  simp only [leaderFieldsOf, hb, peek_patchedLeader L hlen, Nat.reduceEqDiff, if_true, if_false]
  rw [fix (peek L 10) 2 (by decide) (by decide), fix (peek L 11) 2 (by decide) (by decide),
    fix (peek L 20) 4 (by decide) (by decide), fix (peek L 21) 5 (by decide) (by decide),
    fix (peek L 22) 0 (by decide) (by decide)]

/-- C11.  Leader codec with no leader-spec, on a 24-byte leader `L`: the codec
appends comments and then one Leader node of 24 bytes; when the bytes of `L`
at offsets 10, 11, 12-16, 20, 21, 22 are all digits, that node is
byte-identical to `L`; and the codec run again (on any handle without a
leader-spec) on the leader it produced stores the same 24 bytes and resolves
the same six values as the first run. -/
theorem read_leader_idempotent (mt mt2 : yaz_marc_t) (L : Bytes)
    (hspec : mt.leader_spec = none) (hspec2 : mt2.leader_spec = none) (hlen : L.length = 24) :
    ∃ (cs cs2 : List Bytes) (L1 : Bytes),
      (yaz_marc_read_leader mt L).1.nodes
        = mt.nodes ++ cs.map yaz_marc_node.comment ++ [yaz_marc_node.leader L1] ∧
      L1.length = 24 ∧
      ((∀ o ∈ leaderDigitOffsets, isdigit (peek L o) = true) → L1 = L) ∧
      (yaz_marc_read_leader mt2 L1).1.nodes
        = mt2.nodes ++ cs2.map yaz_marc_node.comment ++ [yaz_marc_node.leader L1] ∧
      (yaz_marc_read_leader mt2 L1).2 = (yaz_marc_read_leader mt L).2 := by
  have hpl := patchedLeader_length L hlen
  obtain ⟨cs, h1⟩ := read_leader_gen mt L hlen
  obtain ⟨cs2, h2⟩ := read_leader_gen mt2 (patchedLeader L) hpl
  rw [hspec] at h1
  rw [hspec2, patchedLeader_idem L hlen] at h2
  refine ⟨cs, cs2, patchedLeader L, by rw [h1]; rfl, hpl, ?_, by rw [h2]; rfl, ?_⟩
  · intro hd
    exact patchedLeader_of_digits L (fun o ho => hd o (by
      simp only [isoLeaderOffsets, List.mem_cons, List.mem_singleton, List.not_mem_nil,
        or_false] at ho
      rcases ho with rfl | rfl | rfl | rfl | rfl <;> decide))
  · rw [h2, h1]
    exact leaderFieldsOf_patched L hlen

theorem read_leader_idempotent_witness :
    ∃ (cs cs2 : List Bytes) (L1 : Bytes),
      (yaz_marc_read_leader yaz_marc_create sampleLeader).1.nodes
        = yaz_marc_create.nodes ++ cs.map yaz_marc_node.comment ++ [yaz_marc_node.leader L1] ∧
      L1.length = 24 ∧
      ((∀ o ∈ leaderDigitOffsets, isdigit (peek sampleLeader o) = true) → L1 = sampleLeader) ∧
      (yaz_marc_read_leader yaz_marc_create L1).1.nodes
        = yaz_marc_create.nodes ++ cs2.map yaz_marc_node.comment ++ [yaz_marc_node.leader L1] ∧
      (yaz_marc_read_leader yaz_marc_create L1).2
        = (yaz_marc_read_leader yaz_marc_create sampleLeader).2 :=
  read_leader_idempotent yaz_marc_create yaz_marc_create sampleLeader rfl rfl (by decide)

/-! ## Line mode -/

theorem lineSubfields_none (mt : yaz_marc_t) (il : Nat) (ss : List Bytes) (wr : Bytes)
    (hcd : mt.iconv_cd = none) :
    lineSubfields mt il ss wr
      = wr ++ (ss.map (fun s => cstr mt.subfield_str ++ mem s 0 (using_code_len mt il s)
            ++ [32] ++ cstr (s.drop (using_code_len mt il s)))).flatten := by
  induction ss generalizing wr with
  | nil => simp [lineSubfields]
  | cons s ss ih =>
    have h32 : cstr [32] = [32] := by decide
    simp only [lineSubfields, hcd, iconv_puts_none, wrbuf_puts, wrbuf_iconv_write, wrbuf_write,
      wrbuf_unput, h32, List.dropLast_concat]
    simp only [ih, List.map_cons, List.flatten_cons, List.append_assoc]

theorem lineNodes_none (mt : yaz_marc_t) (il : Nat) (ns : List yaz_marc_node) (wr : Bytes)
    (hcd : mt.iconv_cd = none) :
    lineNodes mt il ns wr = wr ++ (ns.map (lineOf mt il)).flatten := by
  induction ns generalizing wr with
  | nil => simp [lineNodes]
  | cons n ns ih =>
    have h32 : cstr [32] = [32] := by decide
    have h40 : cstr (str "(") = [40] := by decide
    have h41 : cstr (str ")\n") = [41, 10] := by decide
    cases n with
    | datafield tag ind ss =>
      simp only [lineNodes, lineSubfields_none mt il ss _ hcd, wrbuf_puts, ih, lineOf,
        List.map_cons, List.flatten_cons, List.append_assoc]
    | controlfield tag data =>
      simp only [lineNodes, hcd, iconv_puts_none, wrbuf_puts, wrbuf_unput, h32,
        List.dropLast_concat]
      simp only [ih, lineOf, List.map_cons, List.flatten_cons, List.append_assoc]
    | comment text =>
      simp only [lineNodes, hcd, wrbuf_puts, wrbuf_iconv_write, wrbuf_write, mem_self, h40, h41,
        ih, lineOf, List.map_cons, List.flatten_cons, List.append_assoc]
    | leader l =>
      simp only [lineNodes, ih, lineOf, List.map_cons, List.flatten_cons, List.append_assoc]

/-- Closed form of `yaz_marc_write_line` without a converter, for a first
Leader node whose byte 11 is a digit. -/
theorem write_line_eq (mt : yaz_marc_t) (wr l : Bytes) (hl : firstLeader mt.nodes = some l)
    (hd : isdigit (peek l 11) = true) (hcd : mt.iconv_cd = none) :
    yaz_marc_write_line mt wr
      = (0, wr ++ (mt.nodes.map (lineOf mt (peek l 11 - 48))).flatten) := by
  unfold yaz_marc_write_line
  rw [hl]
  simp only [atoi_n_check_one, peek_drop, Nat.add_zero, hd, if_true]
  rw [lineNodes_none mt _ _ _ hcd]

/-- C17 as stated fails on its own example: for the data field `245` with two
spaces as indicators and the subfield `a` + `Title`, `yaz_marc_write_line`
writes a space between the subfield code and the value, so the line is
`245    $a Title` and not `245    $aTitle`. -/
theorem write_line_datafield_counterexample :
    firstLeader lineModel.nodes = some plainLeader ∧ peek plainLeader 11 = 50 ∧
    lineModel.iconv_cd = none ∧
    yaz_marc_write_line lineModel []
      = (0, plainLeader ++ [10] ++ str "001 abc\n" ++ str "245    $a Title\n") ∧
    yaz_marc_write_line lineModel []
      ≠ (0, plainLeader ++ [10] ++ str "001 abc\n" ++ str "245    $aTitle\n") :=
  ⟨by decide, by decide, rfl, by decide, by decide⟩

/-- C17, amended.  For a record model whose first Leader node has the
identifier-length digit 2, with no converter, `yaz_marc_write_line` returns 0
and appends the renderings of the nodes in order, and the rendering of a data
field with tag `T`, indicators `I` and non-empty subfields is: `T`, one space,
`I`, then for each subfield the subfield-separator string, the one-byte code,
one space and the value, then the line terminator; no space follows the last
value. -/
theorem write_line_datafield (mt : yaz_marc_t) (wr l : Bytes)
    (hl : firstLeader mt.nodes = some l) (hid : peek l 11 = 50) (hcd : mt.iconv_cd = none) :
    ∃ render : yaz_marc_node → Bytes,
      yaz_marc_write_line mt wr = (0, wr ++ (mt.nodes.map render).flatten) ∧
      ∀ (T I : Bytes) (ss : List Bytes), (∀ s ∈ ss, s ≠ []) →
        render (.datafield T I ss)
          = cstr T ++ [32] ++ cstr I
            ++ (ss.map (fun s => cstr mt.subfield_str ++ [peek s 0] ++ [32]
                  ++ cstr (s.drop 1))).flatten
            ++ cstr mt.endline_str := by
  have hd : isdigit (peek l 11) = true := by rw [hid]; decide
  refine ⟨lineOf mt (peek l 11 - 48), write_line_eq mt wr l hl hd hcd, ?_⟩
  intro T I ss _
  have hu : ∀ s, using_code_len mt (peek l 11 - 48) s = 1 := by
    intro s
    simp [using_code_len, hid, cdata_one_character, hcd]
  have hm : ∀ s : Bytes, mem s 0 1 = [peek s 0] := by
    intro s
    simp [mem, List.range_succ]
  simp only [lineOf, hu, hm]

theorem write_line_datafield_witness :
    ∃ render : yaz_marc_node → Bytes,
      yaz_marc_write_line lineModel [] = (0, [] ++ (lineModel.nodes.map render).flatten) ∧
      ∀ (T I : Bytes) (ss : List Bytes), (∀ s ∈ ss, s ≠ []) →
        render (.datafield T I ss)
          = cstr T ++ [32] ++ cstr I
            ++ (ss.map (fun s => cstr lineModel.subfield_str ++ [peek s 0] ++ [32]
                  ++ cstr (s.drop 1))).flatten
            ++ cstr lineModel.endline_str :=
  write_line_datafield lineModel [] plainLeader (by decide) (by decide) rfl

/-- C18.  For a record model whose first Leader node has a digit at byte 11,
with no converter, `yaz_marc_write_line` returns 0 and appends the renderings
of the nodes in order, and the rendering of a control field with tag `T` and
data `D` is exactly `T`, one space, `D`, then the line terminator. -/
theorem write_line_controlfield (mt : yaz_marc_t) (wr l : Bytes)
    (hl : firstLeader mt.nodes = some l) (hd : isdigit (peek l 11) = true)
    (hcd : mt.iconv_cd = none) :
    ∃ render : yaz_marc_node → Bytes,
      yaz_marc_write_line mt wr = (0, wr ++ (mt.nodes.map render).flatten) ∧
      ∀ T D : Bytes,
        render (.controlfield T D) = cstr T ++ [32] ++ cstr D ++ cstr mt.endline_str :=
  ⟨lineOf mt (peek l 11 - 48), write_line_eq mt wr l hl hd hcd, fun _ _ => rfl⟩

theorem write_line_controlfield_witness :
    ∃ render : yaz_marc_node → Bytes,
      yaz_marc_write_line lineModel [] = (0, [] ++ (lineModel.nodes.map render).flatten) ∧
      ∀ T D : Bytes,
        render (.controlfield T D) = cstr T ++ [32] ++ cstr D ++ cstr lineModel.endline_str :=
  write_line_controlfield lineModel [] plainLeader (by decide) (by decide) rfl

/-- C19 fails on the code.  With the line terminator set to `|` through
`yaz_marc_endline_str`, `yaz_marc_write_line` ends the control-field and
data-field lines with `|`, but the Leader line and the Comment line with the
newline that is written literally in their branches. -/
theorem write_line_endline_failing :
    barModel.endline_str = str "|" ∧
    yaz_marc_write_line barModel []
      = (0, plainLeader ++ [10] ++ str "(note)" ++ [10] ++ str "001 abc|"
          ++ str "245 10 $a Title|") := by
  decide

/-! ## Comments and the ISO2709 writer -/

theorem lastLeader_dropComments (ns : List yaz_marc_node) (acc : Option Bytes) :
    lastLeader (dropComments ns) acc = lastLeader ns acc := by
  induction ns generalizing acc with
  | nil => rfl
  | cons n ns ih =>
    cases n <;> simp only [dropComments, List.filter, isComment, Bool.not_true, Bool.not_false,
      lastLeader] <;> exact ih _

theorem isoPass1_dropComments (cd : Option Iconv) (il lde ls : Nat) (ns : List yaz_marc_node)
    (st : Bytes × Nat) :
    isoPass1 cd il lde ls (dropComments ns) st = isoPass1 cd il lde ls ns st := by
  induction ns generalizing st with
  | nil => rfl
  | cons n ns ih =>
    obtain ⟨wr_dir, data_offset⟩ := st
    cases n with
    | comment c =>
      simp only [dropComments, List.filter, isComment, Bool.not_true, isoPass1, ne_eq,
        not_true_eq_false, if_false]
      exact ih _
    | datafield tag ind ss =>
      simp only [dropComments, List.filter, isComment, Bool.not_false, isoPass1]
      split <;> exact ih _
    | controlfield tag data =>
      simp only [dropComments, List.filter, isComment, Bool.not_false, isoPass1]
      split <;> exact ih _
    | leader l =>
      simp only [dropComments, List.filter, isComment, Bool.not_false, isoPass1]
      split <;> exact ih _

theorem isoPass2_dropComments (cd : Option Iconv) (il : Nat) (ns : List yaz_marc_node)
    (wr : Bytes) : isoPass2 cd il (dropComments ns) wr = isoPass2 cd il ns wr := by
  induction ns generalizing wr with
  | nil => rfl
  | cons n ns ih =>
    cases n <;> simp only [dropComments, List.filter, isComment, Bool.not_true, Bool.not_false,
      isoPass2] <;> exact ih _

/-- The ISO2709 writer reads the handle only through its converter and its
nodes with the comments deleted. -/
theorem write_iso2709_congr (mt1 mt2 : yaz_marc_t) (wr : Bytes)
    (hcd : mt1.iconv_cd = mt2.iconv_cd) (hn : dropComments mt1.nodes = dropComments mt2.nodes) :
    yaz_marc_write_iso2709 mt1 wr = yaz_marc_write_iso2709 mt2 wr := by
  unfold yaz_marc_write_iso2709
  rw [← lastLeader_dropComments mt1.nodes, ← lastLeader_dropComments mt2.nodes,
    ← hcd, ← hn]
  simp only [← isoPass1_dropComments mt1.iconv_cd _ _ _ mt2.nodes,
    ← isoPass2_dropComments mt1.iconv_cd _ mt2.nodes,
    ← isoPass1_dropComments mt1.iconv_cd _ _ _ mt1.nodes,
    ← isoPass2_dropComments mt1.iconv_cd _ mt1.nodes, hn]

/-- C20.  For two record models on handles with the same converter whose node
lists are equal once all Comment nodes are deleted, `yaz_marc_write_iso2709`
returns the same result code and appends the same bytes. -/
theorem write_iso2709_ignores_comments (mt1 mt2 : yaz_marc_t) (wr : Bytes)
    (hcd : mt1.iconv_cd = mt2.iconv_cd)
    (hn : dropComments mt1.nodes = dropComments mt2.nodes) :
    (yaz_marc_write_iso2709 mt1 wr).1 = (yaz_marc_write_iso2709 mt2 wr).1 ∧
    (yaz_marc_write_iso2709 mt1 wr).2 = (yaz_marc_write_iso2709 mt2 wr).2 := by
  rw [write_iso2709_congr mt1 mt2 wr hcd hn]
  exact ⟨rfl, rfl⟩

theorem write_iso2709_ignores_comments_witness :
    (yaz_marc_write_iso2709 commentedModel []).1
      = (yaz_marc_write_iso2709 uncommentedModel []).1 ∧
    (yaz_marc_write_iso2709 commentedModel []).2
      = (yaz_marc_write_iso2709 uncommentedModel []).2 :=
  write_iso2709_ignores_comments commentedModel uncommentedModel [] rfl (by decide)

/-! ## Leader-spec: one round of the loop -/

theorem exec_loop_step (fuel : Nat) (cp leader : Bytes) (size : Nat) :
    marc_exec_leader_loop (fuel + 1) cp leader size
      = match execEntry cp size with
        | none => (-1, leader)
        | some w =>
          if peek (cp.drop (sscanf_entry cp).2.2.2) 0 ≠ 44 then (0, poke leader w.1 w.2)
          else marc_exec_leader_loop fuel ((cp.drop (sscanf_entry cp).2.2.2).drop 1)
            (poke leader w.1 w.2) size := by
  rw [marc_exec_leader_loop]
  unfold execEntry
  generalize sscanf_entry cp = r
  obtain ⟨no, pos, val, no_read⟩ := r
  dsimp only
  by_cases h1 : no < 2 ∨ no_read < 3
  · rw [if_pos h1, if_pos h1]
  rw [if_neg h1, if_neg h1]
  by_cases h2 : pos < 0 ∨ pos ≥ (size : Int)
  · rw [if_pos h2, if_pos h2]
  rw [if_neg h2, if_neg h2]
  by_cases h3 : peek val 0 = 39
  · rw [if_pos h3, if_pos h3]
    by_cases h4 : 39 ∈ val.drop 1
    · rw [if_pos h4, if_pos h4]
      by_cases h5 : ((val.drop 1).takeWhile (fun c => c != 39)).length + pos.toNat > size
      · rw [if_pos h5, if_pos h5]
      · rw [if_neg h5, if_neg h5]
    · rw [if_neg h4, if_neg h4]
  · rw [if_neg h3, if_neg h3]
    by_cases h4 : 48 ≤ peek val 0 ∧ peek val 0 ≤ 57
    · rw [if_pos h4, if_pos h4]
    · rw [if_neg h4, if_neg h4]

theorem drop_length_takeWhile (p : Nat → Bool) (l : Bytes) :
    l.drop (l.takeWhile p).length = l.dropWhile p := by
  induction l with
  | nil => rfl
  | cons c cs ih =>
    by_cases h : p c = true
    · simp [List.takeWhile_cons_of_pos h, List.dropWhile_cons_of_pos h, ih]
    · simp [List.takeWhile_cons_of_neg h, List.dropWhile_cons_of_neg h]

theorem sscanf_entry_staged (cp : Bytes) :
    sscanf_entry cp
      = if (signOf ((cstr cp).dropWhile isspace)).2.1.takeWhile isdigit = [] then
          (if (cstr cp).dropWhile isspace = [] then -1 else 0, 0, [], 0)
        else
          match (signOf ((cstr cp).dropWhile isspace)).2.1.dropWhile isdigit with
          | 61 :: s4 =>
            if (s4.takeWhile (fun c => c != 44)).take 20 = [] then
              (1, scan_int (signOf ((cstr cp).dropWhile isspace)).1
                  (atoi_n ((signOf ((cstr cp).dropWhile isspace)).2.1.takeWhile isdigit)
                    ((signOf ((cstr cp).dropWhile isspace)).2.1.takeWhile isdigit).length),
                [], 0)
            else
              (2, scan_int (signOf ((cstr cp).dropWhile isspace)).1
                  (atoi_n ((signOf ((cstr cp).dropWhile isspace)).2.1.takeWhile isdigit)
                    ((signOf ((cstr cp).dropWhile isspace)).2.1.takeWhile isdigit).length),
                (s4.takeWhile (fun c => c != 44)).take 20,
                ((cstr cp).takeWhile isspace).length + (signOf ((cstr cp).dropWhile isspace)).2.2
                  + ((signOf ((cstr cp).dropWhile isspace)).2.1.takeWhile isdigit).length + 1
                  + ((s4.takeWhile (fun c => c != 44)).take 20).length)
          | _ =>
            (1, scan_int (signOf ((cstr cp).dropWhile isspace)).1
                (atoi_n ((signOf ((cstr cp).dropWhile isspace)).2.1.takeWhile isdigit)
                  ((signOf ((cstr cp).dropWhile isspace)).2.1.takeWhile isdigit).length),
              [], 0) := by
  unfold sscanf_entry
  dsimp only
  rw [drop_length_takeWhile, drop_length_takeWhile]
  rfl

theorem signOf_spec (s1 : Bytes) :
    ∃ sg, (sg = [] ∨ sg = [45] ∨ sg = [43]) ∧ s1 = sg ++ (signOf s1).2.1 ∧
      (signOf s1).2.2 = sg.length ∧ ((signOf s1).1 = true ↔ sg = [45]) := by
  unfold signOf
  split
  · exact ⟨[45], by simp, rfl, rfl, by simp⟩
  · exact ⟨[43], by simp, rfl, rfl, by simp⟩
  · exact ⟨[], by simp, rfl, rfl, by simp⟩

theorem dropWhile_head (p : Nat → Bool) (l : Bytes) :
    l.dropWhile p = [] ∨ ∃ c r, l.dropWhile p = c :: r ∧ p c = false := by
  induction l with
  | nil => exact Or.inl rfl
  | cons c cs ih =>
    by_cases h : p c = true
    · rw [List.dropWhile_cons_of_pos h]; exact ih
    · rw [List.dropWhile_cons_of_neg h]
      exact Or.inr ⟨c, cs, rfl, by simpa using h⟩

/-- The shape of the text on which `sscanf` converts both items: white space,
an optional sign, digits, `=`, and a non-empty value that runs up to the next
comma, of which at most 20 bytes are taken. -/
theorem sscanf_shape (cp : Bytes) (h : ¬ ((sscanf_entry cp).1 < 2)) :
    ∃ ws sg ds v rest,
      cstr cp = ws ++ (sg ++ (ds ++ 61 :: (v ++ rest))) ∧
      (∀ c ∈ ws, isspace c = true) ∧ (sg = [] ∨ sg = [45] ∨ sg = [43]) ∧ ds ≠ [] ∧
      (∀ c ∈ ds, isdigit c = true) ∧ v ≠ [] ∧ (∀ c ∈ v, (c != 44) = true) ∧
      (rest = [] ∨ ∃ r, rest = 44 :: r) ∧
      sscanf_entry cp
        = (2, scan_int (decide (sg = [45])) (atoi_n ds ds.length), v.take 20,
          ws.length + sg.length + ds.length + 1 + (v.take 20).length) := by
  rw [sscanf_entry_staged] at h ⊢
  obtain ⟨sg, hsgc, hs1, hn, hneg⟩ := signOf_spec ((cstr cp).dropWhile isspace)
  generalize signOf ((cstr cp).dropWhile isspace) = sgn at h hs1 hn hneg ⊢
  obtain ⟨neg, s2, n⟩ := sgn
  dsimp only at h hs1 hn hneg ⊢
  by_cases hds : s2.takeWhile isdigit = []
  · rw [if_pos hds] at h
    exfalso
    apply h
    dsimp only
    split <;> decide
  rw [if_neg hds] at h ⊢
  split at h
  · next s4 heq =>
    by_cases hv : (s4.takeWhile (fun c => c != 44)).take 20 = []
    · rw [if_pos hv] at h
      exact absurd (show (1 : Int) < 2 by decide) h
    rw [if_neg hv]
    refine ⟨(cstr cp).takeWhile isspace, sg, s2.takeWhile isdigit,
      s4.takeWhile (fun c => c != 44), s4.dropWhile (fun c => c != 44), ?_,
      fun c hc => List.mem_takeWhile_imp hc, hsgc, hds,
      fun c hc => List.mem_takeWhile_imp hc, ?_,
      fun c hc => List.mem_takeWhile_imp (p := fun c => c != 44) hc, ?_, ?_⟩
    · rw [List.takeWhile_append_dropWhile, ← heq, List.takeWhile_append_dropWhile, ← hs1,
        List.takeWhile_append_dropWhile]
    · intro hnil
      rw [hnil] at hv
      exact hv rfl
    · rcases dropWhile_head (fun c => c != 44) s4 with h0 | ⟨c, r, h1, h2⟩
      · exact Or.inl h0
      · refine Or.inr ⟨r, ?_⟩
        rw [h1]
        have : c = 44 := by simpa using h2
        rw [this]
    · rw [hn]
      have hb : neg = decide (sg = [45]) := by
        by_cases h45 : sg = [45]
        · rw [hneg.mpr h45]; simp [h45]
        · have : neg = false := by
            cases neg with
            | false => rfl
            | true => exact absurd (hneg.mp rfl) h45
          rw [this]; simp [h45]
      rw [hb]
  · exact absurd (show (1 : Int) < 2 by decide) h

theorem space_props (c : Nat) (h : isspace c = true) :
    (c != 44) = true ∧ (c != 61) = true ∧ c ≠ 45 ∧ c ≠ 43 ∧ isdigit c = false := by
  simp only [isspace, Bool.or_eq_true, Bool.and_eq_true, decide_eq_true_eq] at h
  simp only [bne_iff_ne, ne_eq, isdigit, Bool.and_eq_false_imp, decide_eq_true_eq,
    decide_eq_false_iff_not]
  omega

theorem digit_props (c : Nat) (h : isdigit c = true) :
    (c != 44) = true ∧ (c != 61) = true ∧ c ≠ 45 ∧ c ≠ 43 ∧ isspace c = false := by
  simp only [isdigit, Bool.and_eq_true, decide_eq_true_eq] at h
  simp only [bne_iff_ne, ne_eq, isspace, Bool.or_eq_false_iff, decide_eq_false_iff_not,
    Bool.and_eq_false_imp, decide_eq_true_eq]
  omega

theorem sign_props (sg : Bytes) (h : sg = [] ∨ sg = [45] ∨ sg = [43]) :
    ∀ c ∈ sg, (c != 44) = true ∧ (c != 61) = true ∧ isspace c = false := by
  intro c hc
  rcases h with h | h | h <;> subst h
  · simp at hc
  · simp only [List.mem_singleton] at hc; subst hc; decide
  · simp only [List.mem_singleton] at hc; subst hc; decide

/-- The position text `ws ++ sg ++ ds` read by `%d` is a decimal number text
with the value `%d` stores. -/
theorem number_of_shape (ws sg ds : Bytes) (hws : ∀ c ∈ ws, isspace c = true)
    (hsg : sg = [] ∨ sg = [45] ∨ sg = [43]) (hds0 : ds ≠ [])
    (hds : ∀ c ∈ ds, isdigit c = true) :
    isNumber (ws ++ (sg ++ ds)) = true ∧
    storedInt (ws ++ (sg ++ ds)) = scan_int (decide (sg = [45])) (atoi_n ds ds.length) := by
  obtain ⟨d, ds1, rfl⟩ := List.exists_cons_of_ne_nil hds0
  have hd := digit_props d (hds d (List.mem_cons_self _ _))
  have hdrop : (ws ++ (sg ++ d :: ds1)).dropWhile isspace = sg ++ d :: ds1 := by
    rw [List.dropWhile_append_of_pos hws]
    rcases hsg with h | h | h <;> subst h
    · rw [List.nil_append, List.dropWhile_cons_of_neg (by simp [hd.2.2.2.2])]
    · exact List.dropWhile_cons_of_neg (by decide)
    · exact List.dropWhile_cons_of_neg (by decide)
  have hu : unsignedPart (ws ++ (sg ++ d :: ds1)) = d :: ds1 := by
    unfold unsignedPart
    rw [hdrop]
    rcases hsg with h | h | h <;> subst h
    · rw [List.nil_append]
      split
      · next u hu => exact absurd (List.cons.inj hu).1 hd.2.2.1
      · next u hu => exact absurd (List.cons.inj hu).1 hd.2.2.2.1
      · rfl
    · rfl
    · rfl
  have hn : isNegative (ws ++ (sg ++ d :: ds1)) = decide (sg = [45]) := by
    unfold isNegative
    rw [hdrop]
    rcases hsg with h | h | h <;> subst h
    · rw [List.nil_append]
      split
      · next u hu => exact absurd (List.cons.inj hu).1 hd.2.2.1
      · rfl
    · rfl
    · rfl
  refine ⟨?_, ?_⟩
  · unfold isNumber
    rw [hu]
    rw [Bool.and_eq_true]
    exact ⟨rfl, List.all_eq_true.mpr hds⟩
  · unfold storedInt
    rw [hu, hn]

/-- The entry text, position text and value text of a cursor of the shape
`ws ++ sg ++ ds ++ "=" ++ v ++ rest`, where `rest` is empty or starts with a
comma. -/
theorem texts_of_shape (ws sg ds v rest : Bytes) (hws : ∀ c ∈ ws, isspace c = true)
    (hsg : sg = [] ∨ sg = [45] ∨ sg = [43]) (hds : ∀ c ∈ ds, isdigit c = true)
    (hv : ∀ c ∈ v, (c != 44) = true) (hrest : rest = [] ∨ ∃ r, rest = 44 :: r) :
    entryText (ws ++ (sg ++ (ds ++ 61 :: (v ++ rest)))) = ws ++ (sg ++ (ds ++ 61 :: v)) ∧
    entryPosText (ws ++ (sg ++ (ds ++ 61 :: v))) = ws ++ (sg ++ ds) ∧
    entryValue (ws ++ (sg ++ (ds ++ 61 :: v))) = v := by
  have hP44 : ∀ c ∈ ws ++ (sg ++ ds), (c != 44) = true := by
    intro c hc
    rcases List.mem_append.mp hc with h | h
    · exact (space_props c (hws c h)).1
    · rcases List.mem_append.mp h with h | h
      · exact (sign_props sg hsg c h).1
      · exact (digit_props c (hds c h)).1
  have hP61 : ∀ c ∈ ws ++ (sg ++ ds), (c != 61) = true := by
    intro c hc
    rcases List.mem_append.mp hc with h | h
    · exact (space_props c (hws c h)).2.1
    · rcases List.mem_append.mp h with h | h
      · exact (sign_props sg hsg c h).2.1
      · exact (digit_props c (hds c h)).2.1
  have e1 : ws ++ (sg ++ (ds ++ 61 :: (v ++ rest))) = (ws ++ (sg ++ ds)) ++ (61 :: v ++ rest) := by
    simp only [List.append_assoc, List.cons_append]
  have e2 : ws ++ (sg ++ (ds ++ 61 :: v)) = (ws ++ (sg ++ ds)) ++ 61 :: v := by
    simp only [List.append_assoc]
  have hrt : rest.takeWhile (fun c => c != 44) = [] := by
    rcases hrest with h | ⟨r, h⟩ <;> subst h
    · rfl
    · exact List.takeWhile_cons_of_neg (by decide)
  refine ⟨?_, ?_, ?_⟩
  · unfold entryText
    rw [e1, e2, List.takeWhile_append_of_pos hP44]
    have hv2 : ∀ c ∈ 61 :: v, (c != 44) = true := by
      intro c hc
      rcases List.mem_cons.mp hc with h | h
      · subst h; decide
      · exact hv c h
    rw [List.takeWhile_append_of_pos hv2, hrt, List.append_nil]
  · unfold entryPosText
    rw [e2, List.takeWhile_append_of_pos hP61, List.takeWhile_cons_of_neg (by decide),
      List.append_nil]
  · unfold entryValue
    rw [e2, List.dropWhile_append_of_pos hP61, List.dropWhile_cons_of_neg (by decide)]
    rfl

theorem take_length_takeWhile (p : Nat → Bool) (l : Bytes) :
    l.take (l.takeWhile p).length = l.takeWhile p := by
  induction l with
  | nil => rfl
  | cons c cs ih =>
    by_cases h : p c = true
    · simp [List.takeWhile_cons_of_pos h, ih]
    · simp [List.takeWhile_cons_of_neg h]

theorem takeWhile_take_of_mem (p : Nat → Bool) (l : Bytes) (n x : Nat) (hx : x ∈ l.take n)
    (hp : p x = false) : (l.take n).takeWhile p = l.takeWhile p := by
  induction l generalizing n with
  | nil => simp
  | cons c cs ih =>
    cases n with
    | zero => simp at hx
    | succ n =>
      rw [List.take_succ_cons] at hx ⊢
      by_cases h : p c = true
      · rw [List.takeWhile_cons_of_pos h, List.takeWhile_cons_of_pos h]
        rcases List.mem_cons.mp hx with h1 | h1
        · subst h1; rw [hp] at h; exact absurd h (by decide)
        · rw [ih n h1]
      · rw [List.takeWhile_cons_of_neg h, List.takeWhile_cons_of_neg h]

theorem peek_take (v : Bytes) (n : Nat) (hv : v ≠ []) : peek (v.take (n + 1)) 0 = peek v 0 := by
  cases v with
  | nil => exact absurd rfl hv
  | cons c cs => rfl

/-- What an accepted round of the loop of `marc_exec_leader` says about the
entry text at its cursor. -/
theorem exec_entry_some (s : Bytes) (hs : cstr s = s) (size p : Nat) (bs : Bytes)
    (h : execEntry s size = some (p, bs)) :
    ∃ rest, s = entryText s ++ rest ∧ (rest = [] ∨ ∃ r, rest = 44 :: r) ∧
      (∀ c ∈ entryValue (entryText s), (c != 44) = true) ∧
      s.drop (sscanf_entry s).2.2.2 = (entryValue (entryText s)).drop 20 ++ rest ∧
      (sscanf_entry s).2.2.2 ≤ s.length ∧
      p = entryPos (entryText s) ∧ p < size ∧ p + bs.length ≤ size ∧
      bs.length = entryLen (entryText s) ∧
      ((entryValue (entryText s)).length ≤ 20 → bs = entryBytes (entryText s)) ∧
      ¬ EntryDefect size (entryText s) := by
  unfold execEntry at h
  rcases hr : sscanf_entry s with ⟨no, pos, val, no_read⟩
  rw [hr] at h
  dsimp only at h ⊢
  by_cases h1 : no < 2 ∨ no_read < 3
  · rw [if_pos h1] at h; exact absurd h (by simp)
  rw [if_neg h1] at h
  have hno : ¬ (sscanf_entry s).1 < 2 := by rw [hr]; exact fun hh => h1 (Or.inl hh)
  obtain ⟨ws, sg, ds, v, rest, hshape, hws, hsg, hds0, hds, hv0, hv, hrest, heq⟩ :=
    sscanf_shape s hno
  rw [hs] at hshape
  rw [hr] at heq
  simp only [Prod.mk.injEq] at heq
  obtain ⟨-, hpos, hval, hnr⟩ := heq
  obtain ⟨hnum, hnv⟩ := number_of_shape ws sg ds hws hsg hds0 hds
  obtain ⟨het, hpt, hvt⟩ := texts_of_shape ws sg ds v rest hws hsg hds hv hrest
  rw [← hshape] at het
  rw [← het] at hpt hvt
  rw [← hnv, ← hpt] at hpos
  by_cases h2 : pos < 0 ∨ pos ≥ (size : Int)
  · rw [if_pos h2] at h; exact absurd h (by simp)
  rw [if_neg h2] at h
  have hp0 : pos.toNat = entryPos (entryText s) := by rw [hpos]; rfl
  have hplt : entryPos (entryText s) < size := by rw [← hp0]; omega
  have hpk : peek val 0 = peek v 0 := by rw [hval]; exact peek_take v 19 hv0
  have hdt : val.drop 1 = (v.drop 1).take 19 := by rw [hval, List.drop_take]
  have hsrest : s = entryText s ++ rest := by
    rw [het]
    conv_lhs => rw [hshape]
    simp only [List.append_assoc, List.cons_append]
  have e : s = (ws ++ (sg ++ (ds ++ 61 :: v.take 20))) ++ (v.drop 20 ++ rest) := by
    conv_lhs => rw [hshape, ← List.take_append_drop 20 v]
    simp only [List.append_assoc, List.cons_append]
  have hpl : (ws ++ (sg ++ (ds ++ 61 :: v.take 20))).length = no_read := by
    rw [hnr]
    simp only [List.length_append, List.length_cons]
    omega
  have hdrop : s.drop no_read = v.drop 20 ++ rest := by
    rw [e]
    exact List.drop_left' hpl
  have hnle : no_read ≤ s.length := by
    rw [e, List.length_append, hpl]
    omega
  have hnotA : ¬ PositionNotDecimal (entryText s) := by
    unfold PositionNotDecimal
    rw [hpt, hnum]
    decide
  have hnotB : ¬ PositionOutOfRange size (entryText s) := by
    unfold PositionOutOfRange
    rw [← hpos]
    intro hb
    rcases hb.2 with hb | hb
    · exact h2 (Or.inl hb)
    · exact h2 (Or.inr hb)
  refine ⟨rest, hsrest, hrest, by rw [hvt]; exact hv, by rw [hvt]; exact hdrop, hnle, ?_⟩
  by_cases h3 : peek val 0 = 39
  · rw [if_pos h3] at h
    by_cases h4 : 39 ∈ val.drop 1
    · rw [if_pos h4] at h
      by_cases h5 : ((val.drop 1).takeWhile (fun c => c != 39)).length + pos.toNat > size
      · rw [if_pos h5] at h; exact absurd h (by simp)
      rw [if_neg h5, take_length_takeWhile] at h
      have htw : (val.drop 1).takeWhile (fun c => c != 39) = quotedLiteral v := by
        unfold quotedLiteral
        rw [hdt] at h4 ⊢
        exact takeWhile_take_of_mem _ _ _ 39 h4 (by decide)
      rw [htw] at h h5
      simp only [Option.some.injEq, Prod.mk.injEq] at h
      obtain ⟨hp, hb⟩ := h
      have hq : peek (entryValue (entryText s)) 0 = 39 := by rw [hvt, ← hpk]; exact h3
      have hbytes : bs = entryBytes (entryText s) := by
        unfold entryBytes
        rw [if_pos hq, hvt, hb]
      refine ⟨by rw [← hp, hp0], by rw [← hp, hp0]; exact hplt, ?_, ?_, fun _ => hbytes, ?_⟩
      · rw [← hp, ← hb]; omega
      · unfold entryLen
        rw [if_pos hq, hvt, hb]
      · rintro (hd | hd | hd | hd | hd)
        · exact hnotA hd
        · exact hnotB hd
        · apply hd.2
          rw [hvt]
          rw [hdt] at h4
          exact List.mem_of_mem_take h4
        · have := hd.2.2
          rw [hvt, ← hp0] at this
          omega
        · exact hd.1 hq
    · rw [if_neg h4] at h; exact absurd h (by simp)
  · rw [if_neg h3] at h
    by_cases h4 : 48 ≤ peek val 0 ∧ peek val 0 ≤ 57
    · rw [if_pos h4] at h
      simp only [Option.some.injEq, Prod.mk.injEq] at h
      obtain ⟨hp, hb⟩ := h
      have hq : ¬ peek (entryValue (entryText s)) 0 = 39 := by rw [hvt, ← hpk]; exact h3
      refine ⟨by rw [← hp, hp0], by rw [← hp, hp0]; exact hplt, ?_, ?_, ?_, ?_⟩
      · rw [← hp, ← hb, hp0]
        simp only [List.length_singleton]
        omega
      · unfold entryLen
        rw [if_neg hq, ← hb]
        rfl
      · intro hle
        unfold entryBytes
        rw [if_neg hq, hvt, ← hb, hval, List.take_of_length_le (by rw [hvt] at hle; exact hle)]
      · rintro (hd | hd | hd | hd | hd)
        · exact hnotA hd
        · exact hnotB hd
        · exact hq hd.1
        · exact hq hd.1
        · have := hd.2
          rw [hvt, ← hpk] at this
          simp only [isdigit, Bool.and_eq_false_imp, decide_eq_true_eq,
            decide_eq_false_iff_not] at this
          exact this h4.1 h4.2
    · rw [if_neg h4] at h; exact absurd h (by simp)

theorem exec_entry_defect (s : Bytes) (hs : cstr s = s) (size : Nat)
    (hd : EntryDefect size (entryText s)) : execEntry s size = none := by
  cases h : execEntry s size with
  | none => rfl
  | some w =>
    obtain ⟨p, bs⟩ := w
    obtain ⟨_, _, _, _, _, _, _, _, _, _, _, hnd⟩ := exec_entry_some s hs size p bs h
    exact absurd hd hnd

theorem cstr_eq_self (s : Bytes) (h : 0 ∉ s) : cstr s = s := by
  unfold cstr
  rw [List.takeWhile_eq_self_iff]
  intro x hx
  simp only [bne_iff_ne, ne_eq]
  rintro rfl
  exact h hx

theorem cstr_not_mem (s : Bytes) : 0 ∉ cstr s := by
  intro h
  have := List.mem_takeWhile_imp h
  simp at this

theorem cstr_idem (s : Bytes) : cstr (cstr s) = cstr s := cstr_eq_self _ (cstr_not_mem s)

theorem splitComma_plain (A : Bytes) (hA : ∀ c ∈ A, (c != 44) = true) : splitComma A = [A] := by
  induction A with
  | nil => rfl
  | cons c cs ih =>
    have hc : c ≠ 44 := by simpa using hA c (List.mem_cons_self _ _)
    unfold splitComma
    rw [if_neg hc, ih (fun x hx => hA x (List.mem_cons_of_mem _ hx))]

theorem splitComma_append (A r : Bytes) (hA : ∀ c ∈ A, (c != 44) = true) :
    splitComma (A ++ 44 :: r) = A :: splitComma r := by
  induction A with
  | nil =>
    rw [List.nil_append, splitComma, if_pos rfl]
  | cons c cs ih =>
    have hc : c ≠ 44 := by simpa using hA c (List.mem_cons_self _ _)
    rw [List.cons_append]
    conv_lhs => unfold splitComma
    rw [if_neg hc, ih (fun x hx => hA x (List.mem_cons_of_mem _ hx))]

theorem entryText_plain (s : Bytes) : ∀ c ∈ entryText s, (c != 44) = true :=
  fun _ hc => List.mem_takeWhile_imp (p := fun c => c != 44) hc

/-- The three ways one round of the loop of `marc_exec_leader` can go on a
NUL-free specification: the entry is rejected; the entry is applied and the
loop stops (at the end of the text, or because the value was cut at 20
bytes); the entry is applied and the loop goes on after the comma. -/
theorem exec_step_cases (fuel : Nat) (s L : Bytes) (size : Nat) (hs : 0 ∉ s) :
    (execEntry s size = none ∧ marc_exec_leader_loop (fuel + 1) s L size = (-1, L)) ∨
    (∃ p bs, execEntry s size = some (p, bs) ∧
      marc_exec_leader_loop (fuel + 1) s L size = (0, poke L p bs) ∧
      (splitComma s = [entryText s] ∨ 20 < (entryValue (entryText s)).length)) ∨
    (∃ p bs r, execEntry s size = some (p, bs) ∧ s = entryText s ++ 44 :: r ∧
      (entryValue (entryText s)).length ≤ 20 ∧
      splitComma s = entryText s :: splitComma r ∧
      marc_exec_leader_loop (fuel + 1) s L size
        = marc_exec_leader_loop fuel r (poke L p bs) size) := by
  rw [exec_loop_step]
  cases h : execEntry s size with
  | none => exact Or.inl ⟨rfl, rfl⟩
  | some w =>
    obtain ⟨p, bs⟩ := w
    obtain ⟨rest, hsr, hrest, hv, hdrop, _, _⟩ :=
      exec_entry_some s (cstr_eq_self s hs) size p bs h
    dsimp only
    rw [hdrop]
    by_cases hlen : (entryValue (entryText s)).length ≤ 20
    · rw [List.drop_eq_nil_of_le hlen, List.nil_append]
      rcases hrest with h0 | ⟨r, h1⟩
      · subst h0
        refine Or.inr (Or.inl ⟨p, bs, rfl, ?_, Or.inl ?_⟩)
        · rw [if_pos (by decide)]
        · rw [List.append_nil] at hsr
          conv_lhs => rw [hsr]
          exact splitComma_plain _ (entryText_plain s)
      · subst h1
        refine Or.inr (Or.inr ⟨p, bs, r, rfl, hsr, hlen, ?_, ?_⟩)
        · conv_lhs => rw [hsr]
          exact splitComma_append _ _ (entryText_plain s)
        · rw [if_neg (by simp [peek])]
          rfl
    · refine Or.inr (Or.inl ⟨p, bs, rfl, ?_, Or.inr (by omega)⟩)
      obtain ⟨c, t, hct⟩ : ∃ c t, (entryValue (entryText s)).drop 20 = c :: t := by
        cases hd : (entryValue (entryText s)).drop 20 with
        | nil =>
          have := List.drop_eq_nil_iff.mp hd
          omega
        | cons c t => exact ⟨c, t, rfl⟩
      have hc : (c != 44) = true :=
        hv c (List.mem_of_mem_drop (by rw [hct]; exact List.mem_cons_self _ _))
      rw [hct, if_pos]
      simpa [peek] using hc

theorem exec_loop_code_indep (fuel : Nat) (cp L1 L2 : Bytes) (size : Nat) :
    (marc_exec_leader_loop fuel cp L1 size).1 = (marc_exec_leader_loop fuel cp L2 size).1 := by
  induction fuel generalizing cp L1 L2 with
  | zero => rfl
  | succ fuel ih =>
    rw [exec_loop_step, exec_loop_step]
    cases execEntry cp size with
    | none => rfl
    | some w =>
      dsimp only
      split
      · rfl
      · exact ih _ _ _

/-! ## Leader-spec: the whole loop -/

theorem sscanf_entry_cstr (cp : Bytes) : sscanf_entry (cstr cp) = sscanf_entry cp := by
  unfold sscanf_entry
  rw [cstr_idem]

theorem execEntry_cstr (cp : Bytes) (size : Nat) : execEntry (cstr cp) size = execEntry cp size := by
  unfold execEntry
  rw [sscanf_entry_cstr]

theorem cstr_append_tail (cp : Bytes) :
    ∃ tail, cp = cstr cp ++ tail ∧ (tail = [] ∨ ∃ t, tail = 0 :: t) := by
  refine ⟨cp.dropWhile (fun c => c != 0), (List.takeWhile_append_dropWhile _ cp).symm, ?_⟩
  rcases dropWhile_head (fun c => c != 0) cp with h | ⟨c, r, h1, h2⟩
  · exact Or.inl h
  · refine Or.inr ⟨r, ?_⟩
    have : c = 0 := by simpa using h2
    rw [h1, this]

theorem cstr_append (t tail : Bytes) (ht : 0 ∉ t) (htail : tail = [] ∨ ∃ u, tail = 0 :: u) :
    cstr (t ++ tail) = t := by
  unfold cstr
  rw [List.takeWhile_append_of_pos (fun x hx => by
    simp only [bne_iff_ne, ne_eq]
    rintro rfl
    exact ht hx)]
  rcases htail with h | ⟨u, h⟩ <;> subst h
  · simp
  · rw [List.takeWhile_cons_of_neg (by decide), List.append_nil]

theorem peek_tail (tail : Bytes) (htail : tail = [] ∨ ∃ u, tail = 0 :: u) : peek tail 0 = 0 := by
  rcases htail with h | ⟨u, h⟩ <;> subst h <;> rfl

/-- The loop of `marc_exec_leader` reads its specification as a C string. -/
theorem exec_loop_cstr (fuel : Nat) (cp L : Bytes) (size : Nat) :
    marc_exec_leader_loop fuel cp L size = marc_exec_leader_loop fuel (cstr cp) L size := by
  induction fuel generalizing cp L with
  | zero => rfl
  | succ fuel ih =>
    rw [exec_loop_step, exec_loop_step, execEntry_cstr, sscanf_entry_cstr]
    cases h : execEntry cp size with
    | none => rfl
    | some w =>
      obtain ⟨p, bs⟩ := w
      rw [← execEntry_cstr] at h
      obtain ⟨rest, _, _, _, _, hnle, _⟩ :=
        exec_entry_some (cstr cp) (cstr_idem cp) size p bs h
      rw [sscanf_entry_cstr] at hnle
      obtain ⟨tail, hcp, htail⟩ := cstr_append_tail cp
      dsimp only
      have hd : cp.drop (sscanf_entry cp).2.2.2
          = (cstr cp).drop (sscanf_entry cp).2.2.2 ++ tail := by
        have hh := @List.drop_append_of_le_length Nat (cstr cp) tail _ hnle
        rw [← hcp] at hh
        exact hh
      rw [hd]
      cases hY : (cstr cp).drop (sscanf_entry cp).2.2.2 with
      | nil =>
        rw [List.nil_append, if_pos (by rw [peek_tail tail htail]; decide),
          if_pos (by decide)]
      | cons c t =>
        have ht : 0 ∉ t := fun h0 =>
          cstr_not_mem cp (List.mem_of_mem_drop (by rw [hY]; exact List.mem_cons_of_mem _ h0))
        by_cases hc : c = 44
        · subst hc
          rw [if_neg (by simp [peek]), if_neg (by simp [peek])]
          simp only [List.cons_append, List.drop_succ_cons, List.drop_zero]
          rw [ih (t ++ tail), cstr_append t tail ht htail]
        · rw [if_pos (by simpa [peek] using hc), if_pos (by simpa [peek] using hc)]

theorem exec_leader_eq (S L : Bytes) (size : Nat) :
    marc_exec_leader (some S) L size
      = marc_exec_leader_loop (S.length + 1) (cstr S) L size := by
  unfold marc_exec_leader
  exact exec_loop_cstr _ _ _ _

theorem cstr_length_le (S : Bytes) : (cstr S).length ≤ S.length :=
  (List.takeWhile_sublist _).length_le

theorem splitComma_head (s : Bytes) : ∃ es, splitComma s = entryText s :: es := by
  rcases dropWhile_head (fun c => c != 44) s with h | ⟨c, r, h1, h2⟩
  · have hs : s = entryText s := by
      conv_lhs => rw [← List.takeWhile_append_dropWhile (fun c => c != 44) s, h, List.append_nil]
      rfl
    exact ⟨[], by conv_lhs => rw [hs]; exact splitComma_plain _ (entryText_plain s)⟩
  · have hc : c = 44 := by simpa using h2
    subst hc
    have hs : s = entryText s ++ 44 :: r := by
      conv_lhs => rw [← List.takeWhile_append_dropWhile (fun c => c != 44) s, h1]
      rfl
    exact ⟨splitComma r, by conv_lhs => rw [hs]; exact splitComma_append _ _ (entryText_plain s)⟩

/-- A defective entry that the parser reaches makes the loop return -1. -/
theorem exec_loop_rejects (k : Nat) (fuel : Nat) (s L : Bytes) (size : Nat) (e : Bytes)
    (hs : 0 ∉ s) (hf : s.length < fuel) (hk : (splitComma s)[k]? = some e)
    (hreach : EntryReached (splitComma s) k) (hbad : EntryDefect size e) :
    (marc_exec_leader_loop fuel s L size).1 = -1 := by
  induction k generalizing fuel s L with
  | zero =>
    obtain ⟨fuel, rfl⟩ : ∃ f, fuel = f + 1 := ⟨fuel - 1, by omega⟩
    obtain ⟨es, hes⟩ := splitComma_head s
    rw [hes] at hk
    simp only [List.getElem?_cons_zero, Option.some.injEq] at hk
    subst hk
    rw [exec_loop_step, exec_entry_defect s (cstr_eq_self s hs) size hbad]
  | succ k ih =>
    obtain ⟨fuel, rfl⟩ : ∃ f, fuel = f + 1 := ⟨fuel - 1, by omega⟩
    rcases exec_step_cases fuel s L size hs with ⟨_, h⟩ | ⟨p, bs, _, _, h⟩ | ⟨p, bs, r, _, hsr, hv, hsp, h⟩
    · rw [h]
    · exfalso
      rcases h with h | h
      · rw [h] at hk
        simp at hk
      · obtain ⟨es, hes⟩ := splitComma_head s
        have := hreach (entryText s) (by rw [hes]; simp)
        omega
    · rw [h]
      have hr0 : 0 ∉ r := fun h0 => hs (by rw [hsr]; simp [h0])
      have hrl : r.length < fuel := by
        have : s.length = (entryText s).length + (r.length + 1) := by
          conv_lhs => rw [hsr]
          simp
        omega
      rw [hsp] at hk hreach
      refine ih fuel r _ hr0 hrl (by simpa using hk) ?_
      intro x hx
      exact hreach x (by simp [List.take_succ_cons, hx])

/-! ## Leader-spec: frame, failure and full application -/

theorem poke_length (L : Bytes) (p : Nat) (bs : Bytes) (h : p + bs.length ≤ L.length) :
    (poke L p bs).length = L.length := by
  simp only [poke, List.length_append, List.length_take, List.length_drop]
  omega

theorem peek_take_lt (L : Bytes) (p i : Nat) (h : i < p) : peek (L.take p) i = peek L i := by
  simp [peek, List.getD_eq_getElem?_getD, List.getElem?_take, h]

theorem peek_poke_outside (L : Bytes) (p : Nat) (bs : Bytes) (i : Nat)
    (h : p + bs.length ≤ L.length) (hout : i < p ∨ p + bs.length ≤ i) :
    peek (poke L p bs) i = peek L i := by
  unfold poke
  have hl : (L.take p ++ bs).length = p + bs.length := by
    simp only [List.length_append, List.length_take]
    omega
  rcases hout with hi | hi
  · rw [peek_append_left _ _ _ (by rw [hl]; omega),
      peek_append_left _ _ _ (by simp only [List.length_take]; omega), peek_take_lt L p i hi]
  · obtain ⟨k, rfl⟩ : ∃ k, i = (L.take p ++ bs).length + k := ⟨i - (p + bs.length), by omega⟩
    rw [peek_append_right, peek_drop, hl]

/-- Frame of the loop of `marc_exec_leader`, whatever it returns: the leader
keeps its length, and a byte changes only inside the range of an entry. -/
theorem exec_loop_frame (fuel : Nat) (s L : Bytes) (size : Nat) (hs : 0 ∉ s)
    (hL : L.length = size) :
    (marc_exec_leader_loop fuel s L size).2.length = size ∧
    ∀ i, peek (marc_exec_leader_loop fuel s L size).2 i ≠ peek L i →
      ∃ e ∈ splitComma s, entryPos e ≤ i ∧ i < entryPos e + entryLen e := by
  induction fuel generalizing s L with
  | zero => exact ⟨hL, fun i h => absurd rfl h⟩
  | succ fuel ih =>
    obtain ⟨es, hes⟩ := splitComma_head s
    have hin : ∀ p bs, execEntry s size = some (p, bs) →
        (poke L p bs).length = size ∧
        ∀ i, peek (poke L p bs) i ≠ peek L i →
          ∃ e ∈ splitComma s, entryPos e ≤ i ∧ i < entryPos e + entryLen e := by
      intro p bs hex
      obtain ⟨_, _, _, _, _, _, hp, _, hpl, hbl, _, _⟩ :=
        exec_entry_some s (cstr_eq_self s hs) size p bs hex
      have hfit : p + bs.length ≤ L.length := by omega
      refine ⟨by rw [poke_length L p bs hfit, hL], fun i hi => ?_⟩
      refine ⟨entryText s, by rw [hes]; exact List.mem_cons_self _ _, ?_⟩
      by_contra hcon
      apply hi
      apply peek_poke_outside L p bs i hfit
      rw [← hp, ← hbl] at hcon
      omega
    rcases exec_step_cases fuel s L size hs with ⟨_, h⟩ | ⟨p, bs, hex, h, _⟩ |
      ⟨p, bs, r, hex, hsr, _, hsp, h⟩
    · rw [h]
      exact ⟨hL, fun i h => absurd rfl h⟩
    · rw [h]
      exact hin p bs hex
    · rw [h]
      obtain ⟨hlen, hfr⟩ := hin p bs hex
      have hr0 : 0 ∉ r := fun h0 => hs (by rw [hsr]; simp [h0])
      obtain ⟨h1, h2⟩ := ih r (poke L p bs) hr0 hlen
      refine ⟨h1, fun i hi => ?_⟩
      by_cases hc : peek (marc_exec_leader_loop fuel r (poke L p bs) size).2 i
          = peek (poke L p bs) i
      · rw [hc] at hi
        exact hfr i hi
      · obtain ⟨e, he, hr⟩ := h2 i hc
        exact ⟨e, by rw [hsp]; exact List.mem_cons_of_mem _ he, hr⟩

theorem applyEntries_cons (e : Bytes) (es : List Bytes) (L : Bytes) :
    applyEntries (e :: es) L = applyEntries es (poke L (entryPos e) (entryBytes e)) := rfl

/-- When the loop of `marc_exec_leader` fails, the entries before the rejected
one, none of them defective, have been applied in order. -/
theorem exec_loop_failure (fuel : Nat) (s L : Bytes) (size : Nat) (hs : 0 ∉ s)
    (hf : (marc_exec_leader_loop fuel s L size).1 ≠ 0) :
    ∃ n, n < (splitComma s).length ∧ (∀ e ∈ (splitComma s).take n, ¬ EntryDefect size e) ∧
      (marc_exec_leader_loop fuel s L size).2 = applyEntries ((splitComma s).take n) L := by
  induction fuel generalizing s L with
  | zero => exact absurd rfl hf
  | succ fuel ih =>
    obtain ⟨es, hes⟩ := splitComma_head s
    rcases exec_step_cases fuel s L size hs with ⟨_, h⟩ | ⟨p, bs, _, h, _⟩ |
      ⟨p, bs, r, hex, hsr, hv, hsp, h⟩
    · refine ⟨0, by rw [hes]; simp, by simp, ?_⟩
      rw [h]
      rfl
    · rw [h] at hf
      exact absurd rfl hf
    · rw [h] at hf ⊢
      have hr0 : 0 ∉ r := fun h0 => hs (by rw [hsr]; simp [h0])
      obtain ⟨n, hn, hnd, hres⟩ := ih r (poke L p bs) hr0 hf
      obtain ⟨_, _, _, _, _, _, hp, _, _, _, hb, hdef⟩ :=
        exec_entry_some s (cstr_eq_self s hs) size p bs hex
      refine ⟨n + 1, by rw [hsp]; simp; omega, ?_, ?_⟩
      · rw [hsp, List.take_succ_cons]
        intro e he
        rcases List.mem_cons.mp he with h1 | h1
        · rw [h1]; exact hdef
        · exact hnd e h1
      · rw [hres, hsp, List.take_succ_cons, applyEntries_cons, ← hp, ← hb hv]

/-- When the loop of `marc_exec_leader` succeeds on a specification none of
whose values is longer than 20 bytes, every entry has been applied in order. -/
theorem exec_loop_all (fuel : Nat) (s L : Bytes) (size : Nat) (hs : 0 ∉ s)
    (hfuel : s.length < fuel) (h0 : (marc_exec_leader_loop fuel s L size).1 = 0)
    (hlen : ∀ e ∈ splitComma s, (entryValue e).length ≤ 20) :
    (marc_exec_leader_loop fuel s L size).2 = applyEntries (splitComma s) L := by
  induction fuel generalizing s L with
  | zero => omega
  | succ fuel ih =>
    obtain ⟨es, hes⟩ := splitComma_head s
    have hv0 : (entryValue (entryText s)).length ≤ 20 :=
      hlen _ (by rw [hes]; exact List.mem_cons_self _ _)
    rcases exec_step_cases fuel s L size hs with ⟨_, h⟩ | ⟨p, bs, hex, h, hstop⟩ |
      ⟨p, bs, r, hex, hsr, hv, hsp, h⟩
    · rw [h] at h0
      exact absurd h0 (show ¬ ((-1 : Int) = 0) by decide)
    · obtain ⟨_, _, _, _, _, _, hp, _, _, _, hb, _⟩ :=
        exec_entry_some s (cstr_eq_self s hs) size p bs hex
      rcases hstop with h1 | h1
      · rw [h, h1, hp, hb hv0]
        rfl
      · omega
    · obtain ⟨_, _, _, _, _, _, hp, _, _, _, hb, _⟩ :=
        exec_entry_some s (cstr_eq_self s hs) size p bs hex
      rw [h] at h0 ⊢
      have hr0 : 0 ∉ r := fun h0 => hs (by rw [hsr]; simp [h0])
      have hrl : r.length < fuel := by
        have : s.length = (entryText s).length + (r.length + 1) := by
          conv_lhs => rw [hsr]
          simp
        omega
      rw [ih r (poke L p bs) hr0 hrl h0 (fun e he => hlen e (by
        rw [hsp]; exact List.mem_cons_of_mem _ he)), hsp, applyEntries_cons, ← hp, ← hb hv]

/-! ## Leader-spec: the claims -/

theorem exec_loop_fuel (f1 f2 : Nat) (s L : Bytes) (size : Nat) (h1 : s.length < f1)
    (h2 : s.length < f2) :
    marc_exec_leader_loop f1 s L size = marc_exec_leader_loop f2 s L size := by
  induction f1 generalizing f2 s L with
  | zero => omega
  | succ f1 ih =>
    obtain ⟨f2, rfl⟩ : ∃ f, f2 = f + 1 := ⟨f2 - 1, by omega⟩
    rw [exec_loop_step, exec_loop_step]
    cases execEntry s size with
    | none => rfl
    | some w =>
      dsimp only
      by_cases hc : peek (s.drop (sscanf_entry s).2.2.2) 0 ≠ 44
      · rw [if_pos hc, if_pos hc]
      · rw [if_neg hc, if_neg hc]
        have hlen : ((s.drop (sscanf_entry s).2.2.2).drop 1).length < s.length := by
          cases hd : s.drop (sscanf_entry s).2.2.2 with
          | nil => rw [hd] at hc; exact absurd (by decide) hc
          | cons c t =>
            have := congrArg List.length hd
            simp only [List.length_drop, List.length_cons] at this
            simp only [List.drop_succ_cons, List.drop_zero]
            omega
        exact ih f2 _ _ (by omega) (by omega)

theorem exec_leader_cstr (S L : Bytes) (size : Nat) :
    marc_exec_leader (some (cstr S)) L size = marc_exec_leader (some S) L size := by
  rw [exec_leader_eq, exec_leader_eq, cstr_idem]
  exact exec_loop_fuel _ _ _ _ _ (by omega) (by have := cstr_length_le S; omega)

theorem exec_leader_rejects (S L : Bytes) (size k : Nat) (e : Bytes)
    (hk : (leaderSpecEntries S)[k]? = some e) (hreach : EntryReached (leaderSpecEntries S) k)
    (hbad : EntryDefect size e) : (marc_exec_leader (some S) L size).1 = -1 := by
  rw [exec_leader_eq]
  exact exec_loop_rejects k _ _ _ _ e (cstr_not_mem S)
    (by have := cstr_length_le S; omega) hk hreach hbad

theorem leader_spec_of_reject (mt : yaz_marc_t) (S dummy_leader : Bytes)
    (h : (marc_exec_leader (some S) dummy_leader 24).1 = -1) :
    yaz_marc_leader_spec mt (some S) dummy_leader = (-1, { mt with leader_spec := none }) := by
  unfold yaz_marc_leader_spec
  dsimp only
  rw [if_pos (by rw [h]; decide)]

theorem leader_spec_of_accept (mt : yaz_marc_t) (S dummy_leader : Bytes)
    (h : (yaz_marc_leader_spec mt (some S) dummy_leader).1 = 0) :
    (marc_exec_leader (some S) dummy_leader 24).1 = 0 ∧
    yaz_marc_leader_spec mt (some S) dummy_leader
      = (0, { mt with leader_spec := some (cstr S) }) := by
  unfold yaz_marc_leader_spec at h ⊢
  dsimp only at h ⊢
  by_cases hc : (marc_exec_leader (some S) dummy_leader 24).1 ≠ 0
  · rw [if_pos hc] at h
    exact absurd h (show ¬ ((-1 : Int) = 0) by decide)
  · rw [if_neg hc]
    exact ⟨not_not.mp hc, rfl⟩

/-- C13 as stated fails: the leader-spec `5=1x`, whose value is neither quoted
nor all digits, is accepted (the byte 1 is written at offset 5); and in
`0=000000000000000000065,5=x` the parser stops after the first 20 bytes of the
first value, so the entry `5=x` is never looked at and the result is 0. -/
theorem leader_spec_value_counterexample :
    (leaderSpecEntries digitJunkSpec = [str "5=1x"] ∧
      entryPos (str "5=1x") = 5 ∧ entryValue (str "5=1x") = str "1x" ∧
      marc_exec_leader (some digitJunkSpec) plainLeader 24
        = (0, str "00000" ++ [1] ++ str "am a2200000 a 4500") ∧
      (yaz_marc_leader_spec yaz_marc_create (some digitJunkSpec) plainLeader).1 = 0) ∧
    (leaderSpecEntries longValueSpec = [str "0=000000000000000000065", str "5=x"] ∧
      entryPos (str "5=x") = 5 ∧ entryValue (str "5=x") = str "x" ∧
      (marc_exec_leader (some longValueSpec) plainLeader 24).1 = 0 ∧
      (yaz_marc_leader_spec yaz_marc_create (some longValueSpec) plainLeader).1 = 0) := by
  decide

/-- C13, amended.  If some entry of the leader-spec `S` that the parser
reaches (no earlier value is cut at 20 bytes) has a value that starts with
neither a single quote nor a decimal digit (the empty value included), then
`marc_exec_leader` returns -1 on every leader and `yaz_marc_leader_spec`
returns -1. -/
theorem leader_spec_value (S : Bytes) (k : Nat) (e : Bytes)
    (hk : (leaderSpecEntries S)[k]? = some e) (hreach : EntryReached (leaderSpecEntries S) k)
    (hbad : ValueUnclassified e) :
    (∀ L : Bytes, (marc_exec_leader (some S) L 24).1 = -1) ∧
    ∀ (mt : yaz_marc_t) (dummy_leader : Bytes),
      (yaz_marc_leader_spec mt (some S) dummy_leader).1 = -1 := by
  have hd : EntryDefect 24 e := Or.inr (Or.inr (Or.inr (Or.inr hbad)))
  refine ⟨fun L => exec_leader_rejects S L 24 k e hk hreach hd, fun mt d => ?_⟩
  rw [leader_spec_of_reject mt S d (exec_leader_rejects S d 24 k e hk hreach hd)]

theorem leader_spec_value_witness :
    (∀ L : Bytes, (marc_exec_leader (some letterSpec) L 24).1 = -1) ∧
    ∀ (mt : yaz_marc_t) (dummy_leader : Bytes),
      (yaz_marc_leader_spec mt (some letterSpec) dummy_leader).1 = -1 :=
  leader_spec_value letterSpec 1 (str "22=x") (by decide)
    (by unfold EntryReached; decide) (by unfold ValueUnclassified; decide)

/-- C15 as stated fails: on the leader-spec `0='X',99=1` `marc_exec_leader`
returns -1 at the second entry, after the first entry has put `X` at offset 0
of the leader. -/
theorem exec_leader_failure_counterexample :
    plainLeader.length = 24 ∧
    marc_exec_leader (some lateFailSpec) plainLeader 24
      = (-1, str "X0000nam a2200000 a 4500") ∧
    str "X0000nam a2200000 a 4500" ≠ plainLeader := by
  decide

/-- C15, amended.  For a leader-spec `S` and a 24-byte leader `L` on which
`marc_exec_leader` returns an error: the buffer still has 24 bytes and holds
`L` with the first `n` entries of `S` applied in order, where entry `n` exists
and none of the `n` entries before it is defective; so the buffer is
byte-identical to `L` when the first entry of `S` is defective.  An entry is
applied at its position as the `int` variable `pos` holds it, a decimal value
giving the byte that the `int` of `atoi` becomes as a `char`. -/
theorem exec_leader_failure (S L : Bytes) (hL : L.length = 24)
    (hf : (marc_exec_leader (some S) L 24).1 ≠ 0) :
    (marc_exec_leader (some S) L 24).2.length = 24 ∧
    (∃ n, n < (leaderSpecEntries S).length ∧
      (∀ e ∈ (leaderSpecEntries S).take n, ¬ EntryDefect 24 e) ∧
      (marc_exec_leader (some S) L 24).2 = applyEntries ((leaderSpecEntries S).take n) L) ∧
    ((∀ e, (leaderSpecEntries S)[0]? = some e → EntryDefect 24 e) →
      (marc_exec_leader (some S) L 24).2 = L) := by
  have hfr := exec_loop_frame (S.length + 1) (cstr S) L 24 (cstr_not_mem S) hL
  rw [exec_leader_eq] at hf ⊢
  obtain ⟨n, hn, hnd, hres⟩ := exec_loop_failure (S.length + 1) (cstr S) L 24 (cstr_not_mem S) hf
  refine ⟨hfr.1, ⟨n, hn, hnd, hres⟩, fun hfirst => ?_⟩
  cases n with
  | zero => rw [hres]; rfl
  | succ n =>
    exfalso
    obtain ⟨es, hes⟩ := splitComma_head (cstr S)
    have h1 := hfirst (entryText (cstr S)) (by unfold leaderSpecEntries; rw [hes]; simp)
    exact hnd (entryText (cstr S)) (by rw [hes]; simp) h1

theorem exec_leader_failure_witness :
    (marc_exec_leader (some lateFailSpec) plainLeader 24).2.length = 24 ∧
    (∃ n, n < (leaderSpecEntries lateFailSpec).length ∧
      (∀ e ∈ (leaderSpecEntries lateFailSpec).take n, ¬ EntryDefect 24 e) ∧
      (marc_exec_leader (some lateFailSpec) plainLeader 24).2
        = applyEntries ((leaderSpecEntries lateFailSpec).take n) plainLeader) ∧
    ((∀ e, (leaderSpecEntries lateFailSpec)[0]? = some e → EntryDefect 24 e) →
      (marc_exec_leader (some lateFailSpec) plainLeader 24).2 = plainLeader) :=
  exec_leader_failure lateFailSpec plainLeader (by decide) (by decide)

/-- C16 as stated fails: `yaz_marc_leader_spec` accepts the leader-spec
`0=000000000000000000065,5='x'`, but the codec then stores a Leader node in
which offset 0 holds the byte 6 (the value of the first 20 digits) and offset
5 is untouched, whereas the two entries applied in order give `A` at offset 0
and `x` at offset 5. -/
theorem leader_spec_applied_counterexample :
    yaz_marc_leader_spec yaz_marc_create (some truncSpec) plainLeader
      = (0, { yaz_marc_create with leader_spec := some truncSpec }) ∧
    leaderSpecEntries truncSpec = [str "0=000000000000000000065", str "5='x'"] ∧
    (yaz_marc_read_leader { yaz_marc_create with leader_spec := some truncSpec }
        plainLeader).1.nodes
      = [yaz_marc_node.leader ([6] ++ str "0000nam a2200000 a 4500")] ∧
    applyEntries (leaderSpecEntries truncSpec) (patchedLeader plainLeader)
      = str "A0000xam a2200000 a 4500" := by
  refine ⟨?_, by decide, by decide, by decide⟩
  rw [(leader_spec_of_accept yaz_marc_create truncSpec plainLeader (by decide)).2]
  rfl

/-- C16, amended.  If `yaz_marc_leader_spec (mt, S)` returns 0, then on every
handle that still carries the leader-spec it stored, `marc_exec_leader`
succeeds on every leader; and if no value of `S` is longer than 20 bytes, the
Leader node the codec stores for a 24-byte leader is the codec-patched leader
with every entry of `S` applied in order, each at its position as the `int`
variable `pos` holds it, a decimal value giving the byte that the `int` of
`atoi` becomes as a `char`. -/
theorem leader_spec_applied (mt mt2 : yaz_marc_t) (S dummy_leader L : Bytes)
    (hacc : (yaz_marc_leader_spec mt (some S) dummy_leader).1 = 0)
    (hkeep : mt2.leader_spec = (yaz_marc_leader_spec mt (some S) dummy_leader).2.leader_spec)
    (hL : L.length = 24) :
    (∀ L1 : Bytes, (marc_exec_leader mt2.leader_spec L1 24).1 = 0) ∧
    ((∀ e ∈ leaderSpecEntries S, (entryValue e).length ≤ 20) →
      ∃ cs : List Bytes, (yaz_marc_read_leader mt2 L).1.nodes
        = mt2.nodes ++ cs.map yaz_marc_node.comment
          ++ [yaz_marc_node.leader (applyEntries (leaderSpecEntries S) (patchedLeader L))]) := by
  obtain ⟨h0, heq⟩ := leader_spec_of_accept mt S dummy_leader hacc
  rw [heq] at hkeep
  dsimp only at hkeep
  have hall : ∀ L1 : Bytes, (marc_exec_leader (some S) L1 24).1 = 0 := by
    intro L1
    rw [exec_leader_eq] at h0 ⊢
    rw [exec_loop_code_indep _ _ L1 dummy_leader]
    exact h0
  refine ⟨fun L1 => by rw [hkeep, exec_leader_cstr]; exact hall L1, fun hlen => ?_⟩
  obtain ⟨cs, hcs⟩ := read_leader_gen mt2 L hL
  refine ⟨cs, ?_⟩
  rw [hcs, hkeep, exec_leader_cstr]
  have h1 := hall (patchedLeader L)
  rw [exec_leader_eq] at h1 ⊢
  rw [exec_loop_all _ _ _ _ (cstr_not_mem S) (by have := cstr_length_le S; omega) h1 hlen]
  rfl

theorem leader_spec_applied_witness :
    (∀ L1 : Bytes,
      (marc_exec_leader ({ yaz_marc_create with leader_spec := some threeSpec }).leader_spec
        L1 24).1 = 0) ∧
    ((∀ e ∈ leaderSpecEntries threeSpec, (entryValue e).length ≤ 20) →
      ∃ cs : List Bytes,
        (yaz_marc_read_leader { yaz_marc_create with leader_spec := some threeSpec }
          sampleLeader).1.nodes
        = ({ yaz_marc_create with leader_spec := some threeSpec }).nodes
          ++ cs.map yaz_marc_node.comment
          ++ [yaz_marc_node.leader
            (applyEntries (leaderSpecEntries threeSpec) (patchedLeader sampleLeader))]) :=
  leader_spec_applied yaz_marc_create { yaz_marc_create with leader_spec := some threeSpec }
    threeSpec plainLeader sampleLeader (by decide)
    (by rw [(leader_spec_of_accept yaz_marc_create threeSpec plainLeader (by decide)).2]
        exact congrArg some (by decide : threeSpec = cstr threeSpec))
    (by decide)

/-! ## XML writers -/

theorem peek_cstr (x : Bytes) (i : Nat) (h : ∀ k, k ≤ i → peek x k ≠ 0) :
    peek (cstr x) i = peek x i := by
  induction x generalizing i with
  | nil => rfl
  | cons c cs ih =>
    have hc : c ≠ 0 := h 0 (Nat.zero_le _)
    have hcs : cstr (c :: cs) = c :: cstr cs := by
      unfold cstr
      rw [List.takeWhile_cons_of_pos (by simpa using hc)]
    rw [hcs]
    cases i with
    | zero => rfl
    | succ i =>
      have := ih i (fun k hk => h (k + 1) (by omega))
      simpa [peek] using this

set_option maxRecDepth 20000 in
/-- C23 fails on the code.  For a control field with the data `a<b&c>d` and a
subfield with the value `X<Y&Z>`, `yaz_marc_write_marcxchange` and
`yaz_marc_write_marcxml` escape the subfield value but write the control-field
data raw. -/
theorem write_xml_escape_failing :
    markupModel.iconv_cd = none ∧
    yaz_marc_write_marcxchange markupModel [] none none
      = (0, str "<record xmlns=\"http://www.bs.dk/standards/MarcXchange\">\n"
          ++ str "  <leader>00000nam a2200000 a 4500</leader>\n"
          ++ str "  <controlfield tag=\"001\">a<b&c>d</controlfield>\n"
          ++ str "  <datafield tag=\"245\" ind1=\"1\" ind2=\"0\">\n"
          ++ str "    <subfield code=\"a\">X&lt;Y&amp;Z&gt;</subfield>\n"
          ++ str "  </datafield>\n" ++ str "</record>\n") ∧
    (yaz_marc_write_marcxml markupModel []).2.1
      = str "<record xmlns=\"http://www.loc.gov/MARC21/slim\">\n"
          ++ str "  <leader>00000nam a2200000 a 4500</leader>\n"
          ++ str "  <controlfield tag=\"001\">a<b&c>d</controlfield>\n"
          ++ str "  <datafield tag=\"245\" ind1=\"1\" ind2=\"0\">\n"
          ++ str "    <subfield code=\"a\">X&lt;Y&amp;Z&gt;</subfield>\n"
          ++ str "  </datafield>\n" ++ str "</record>\n" :=
  ⟨rfl, by decide, by decide⟩

set_option maxRecDepth 20000 in
/-- C24 fails on the code.  `yaz_marc_write_marcxchange` called with the format
`MARC21` and the type `Bibliographic` emits a `<record>` start tag without
`format` and `type` attributes, although the common writer puts them there
when it is handed them. -/
theorem write_marcxchange_attrs_failing :
    yaz_marc_write_marcxchange lineModel [] (some (str "MARC21")) (some (str "Bibliographic"))
      = (0, str "<record xmlns=\"http://www.bs.dk/standards/MarcXchange\">\n"
          ++ str "  <leader>00000nam a2200000 a 4500</leader>\n"
          ++ str "  <controlfield tag=\"001\">abc</controlfield>\n"
          ++ str "  <datafield tag=\"245\" ind1=\" \" ind2=\" \">\n"
          ++ str "    <subfield code=\"a\">Title</subfield>\n"
          ++ str "  </datafield>\n" ++ str "</record>\n") ∧
    yaz_marc_write_marcxml_ns lineModel [] (str "http://www.bs.dk/standards/MarcXchange")
        (some (str "MARC21")) (some (str "Bibliographic"))
      = (0, str ("<record xmlns=\"http://www.bs.dk/standards/MarcXchange\""
            ++ " format=\"MARC21\" type=\"Bibliographic\">\n")
          ++ str "  <leader>00000nam a2200000 a 4500</leader>\n"
          ++ str "  <controlfield tag=\"001\">abc</controlfield>\n"
          ++ str "  <datafield tag=\"245\" ind1=\" \" ind2=\" \">\n"
          ++ str "    <subfield code=\"a\">Title</subfield>\n"
          ++ str "  </datafield>\n" ++ str "</record>\n") :=
  ⟨by decide, by decide⟩

/-! ## Identifier width -/

/-- C28 as stated fails for the identifier-length digit 0: the width is
computed in `size_t`, where 0 - 1 is the largest value of the type and not
-1. -/
theorem using_code_len_counterexample :
    using_code_len yaz_marc_create 0 (str "aTitle") = 18446744073709551615 ∧
    ((using_code_len yaz_marc_create 0 (str "aTitle") : Nat) : Int) ≠ (0 : Int) - 1 := by
  decide

/-- C28, amended.  The code width `using_code_len` that the line and XML
writers use for the identifier-length digit `d` and the subfield bytes `b` is
`d - 1` when `d` is not 2 and at least 1; when `d` is 2 and no converter is
set, 1; when `d` is 2 and a converter is set, the least `w` in 1..4 for which
the conversion of the first `w` bytes of `b` does not report failure, and 1 if
it fails for all four. -/
theorem using_code_len_width (mt : yaz_marc_t) (d : Nat) (b : Bytes) (hd : d ≤ 9) :
    (d ≠ 2 → 1 ≤ d → using_code_len mt d b = d - 1) ∧
    (d = 2 → mt.iconv_cd = none → using_code_len mt d b = 1) ∧
    (d = 2 → ∀ c : Iconv, mt.iconv_cd = some c →
      (∀ w, 1 ≤ w → w ≤ 4 → c.probe (mem b 0 w) = true →
        (∀ v, 1 ≤ v → v < w → c.probe (mem b 0 v) = false) → using_code_len mt d b = w) ∧
      ((∀ w, 1 ≤ w → w ≤ 4 → c.probe (mem b 0 w) = false) → using_code_len mt d b = 1)) := by
  refine ⟨fun h2 h1 => ?_, fun h2 hcd => ?_, fun h2 c hcd => ⟨fun w hw1 hw4 hp hmin => ?_,
    fun hall => ?_⟩⟩
  · unfold using_code_len SIZE_T_RANGE
    rw [if_pos h2]
    omega
  · unfold using_code_len cdata_one_character
    rw [if_neg (by simpa using h2), hcd]
  · unfold using_code_len cdata_one_character
    rw [if_neg (by simpa using h2), hcd]
    dsimp only
    have hw : w = 1 ∨ w = 2 ∨ w = 3 ∨ w = 4 := by omega
    rcases hw with rfl | rfl | rfl | rfl
    · rw [if_pos hp]
    · rw [if_neg (by rw [hmin 1 (by omega) (by omega)]; decide), if_pos hp]
    · rw [if_neg (by rw [hmin 1 (by omega) (by omega)]; decide),
        if_neg (by rw [hmin 2 (by omega) (by omega)]; decide), if_pos hp]
    · rw [if_neg (by rw [hmin 1 (by omega) (by omega)]; decide),
        if_neg (by rw [hmin 2 (by omega) (by omega)]; decide),
        if_neg (by rw [hmin 3 (by omega) (by omega)]; decide), if_pos hp]
  · unfold using_code_len cdata_one_character
    rw [if_neg (by simpa using h2), hcd]
    dsimp only
    rw [if_neg (by rw [hall 1 (by omega) (by omega)]; decide),
      if_neg (by rw [hall 2 (by omega) (by omega)]; decide),
      if_neg (by rw [hall 3 (by omega) (by omega)]; decide),
      if_neg (by rw [hall 4 (by omega) (by omega)]; decide)]

theorem using_code_len_width_witness :
    (2 ≠ 2 → 1 ≤ 2 →
      using_code_len { yaz_marc_create with iconv_cd := some twoByteConverter } 2
        (str "aTitle") = 2 - 1) ∧
    (2 = 2 → ({ yaz_marc_create with iconv_cd := some twoByteConverter }).iconv_cd = none →
      using_code_len { yaz_marc_create with iconv_cd := some twoByteConverter } 2
        (str "aTitle") = 1) ∧
    (2 = 2 → ∀ c : Iconv,
      ({ yaz_marc_create with iconv_cd := some twoByteConverter }).iconv_cd = some c →
      (∀ w, 1 ≤ w → w ≤ 4 → c.probe (mem (str "aTitle") 0 w) = true →
        (∀ v, 1 ≤ v → v < w → c.probe (mem (str "aTitle") 0 v) = false) →
        using_code_len { yaz_marc_create with iconv_cd := some twoByteConverter } 2
          (str "aTitle") = w) ∧
      ((∀ w, 1 ≤ w → w ≤ 4 → c.probe (mem (str "aTitle") 0 w) = false) →
        using_code_len { yaz_marc_create with iconv_cd := some twoByteConverter } 2
          (str "aTitle") = 1)) :=
  using_code_len_width { yaz_marc_create with iconv_cd := some twoByteConverter } 2
    (str "aTitle") (by decide)

/-! ## Readers on example inputs -/

set_option maxRecDepth 20000 in
/-- C21 fails on the code.  On a handle that still holds the two nodes of an
earlier record, `yaz_marc_read_iso2709` leaves only the nodes of the record it
reads (it starts with `yaz_marc_reset`), but `yaz_marc_read_xml`, which does
not reset the handle, returns 0 with the two old nodes still in front of the
new ones. -/
theorem read_xml_keeps_nodes_failing :
    usedHandle.nodes = [.leader plainLeader, .controlfield (str "001") (str "old")] ∧
    (yaz_marc_read_iso2709 usedHandle (tailBuffer []) (-1)).map (fun r => (r.1, r.2.nodes))
      = some (40, [.leader (str "00040nam a2200037 a 4500"),
          .controlfield (str "001") (str "a")]) ∧
    ((yaz_marc_read_xml usedHandle newRecordXml).1,
        (yaz_marc_read_xml usedHandle newRecordXml).2.nodes)
      = (0, [.leader plainLeader, .controlfield (str "001") (str "old"),
          .leader plainLeader, .controlfield (str "001") (str "new")]) :=
  ⟨rfl, by decide, by decide⟩

set_option maxRecDepth 20000 in
/-- C30 fails on the code.  Two buffers that hold the same 40-byte record and
differ only at index 40, behind the record, are read differently: for the
`001` field at offsets 37..38 the reader probes the bytes at offsets 39 and
40 for the identifier separator, and with 0x1F at offset 40 it builds a data
field whose indicator bytes are copied from offsets 38 and 39 and then tests
the byte at offset 40 for a separator. -/
theorem read_iso2709_past_record_failing :
    atoi_n (tailBuffer [31, 65]) 5 = 40 ∧ atoi_n (tailBuffer [0, 0]) 5 = 40 ∧
    (tailBuffer [31, 65]).take 40 = (tailBuffer [0, 0]).take 40 ∧
    (yaz_marc_read_iso2709 yaz_marc_create (tailBuffer [0, 0]) 42).map
        (fun r => (r.1, r.2.nodes))
      = some (40, [.leader (str "00040nam a2200037 a 4500"),
          .controlfield (str "001") (str "a")]) ∧
    (yaz_marc_read_iso2709 yaz_marc_create (tailBuffer [31, 65]) 42).map
        (fun r => (r.1, r.2.nodes))
      = some (40, [.leader (str "00040nam a2200037 a 4500"),
          .datafield (str "001") [30, 29] [],
          .comment (str "No separator at end of field length=2")]) :=
  ⟨by decide, by decide, by decide, by decide, by decide⟩
/-! ## Field classification of the ISO2709 reader -/

theorem coreExtends_refl (a : List yaz_marc_node) : CoreExtends a a := ⟨[], by simp⟩

theorem coreExtends_trans (a b c : List yaz_marc_node) (h1 : CoreExtends a b)
    (h2 : CoreExtends b c) : CoreExtends a c := by
  obtain ⟨e1, h1⟩ := h1
  obtain ⟨e2, h2⟩ := h2
  exact ⟨e1 ++ e2, by rw [h2, h1, List.append_assoc]⟩

theorem coreExtends_append (a e : List yaz_marc_node) : CoreExtends a (a ++ e) :=
  ⟨e.map nodeCore, by simp⟩

theorem appendSubfield_core (ns : List yaz_marc_node) :
    ∀ (idx : Nat) (s : Bytes), (appendSubfield ns idx s).map nodeCore = ns.map nodeCore := by
  induction ns with
  | nil => intro idx s; rfl
  | cons n ns ih =>
    intro idx s
    cases idx with
    | zero => cases n <;> simp [appendSubfield, nodeCore]
    | succ k => cases n <;> simp [appendSubfield, ih]

theorem cprintf_nodes (mt : yaz_marc_t) (text : Bytes) :
    (yaz_marc_cprintf mt text).nodes
      = mt.nodes ++ [yaz_marc_node.comment (cstr ((cstr text).take 199))] := rfl

theorem coreExtends_cprintf (mt : yaz_marc_t) (text : Bytes) :
    CoreExtends mt.nodes (yaz_marc_cprintf mt text).nodes := by
  rw [cprintf_nodes]; exact coreExtends_append _ _

theorem coreExtends_attach (mt1 : yaz_marc_t) (s : Bytes) :
    CoreExtends mt1.nodes
      (match mt1.subfield_pp with
        | some idx => { mt1 with nodes := appendSubfield mt1.nodes idx s }
        | none => mt1).nodes := by
  cases mt1.subfield_pp with
  | none => exact coreExtends_refl _
  | some idx => exact ⟨[], by simp [appendSubfield_core]⟩

theorem coreExtends_add_subfield (mt : yaz_marc_t) (code_data : Bytes) (n : Nat) :
    CoreExtends mt.nodes (yaz_marc_add_subfield mt code_data n).nodes := by
  unfold yaz_marc_add_subfield
  refine coreExtends_trans _ _ _ ?_ (coreExtends_attach _ _)
  split
  · exact coreExtends_append _ _
  · exact coreExtends_refl _

theorem coreExtends_readSubfields (buf : Bytes) (end_offset : Nat) :
    ∀ (fuel : Nat) (mt : yaz_marc_t) (i : Nat),
      CoreExtends mt.nodes (readSubfields buf end_offset fuel mt i).1.nodes := by
  intro fuel
  induction fuel with
  | zero => intro mt i; exact coreExtends_refl _
  | succ fuel ih =>
    intro mt i
    rw [readSubfields]
    split
    · exact coreExtends_trans _ _ _ (coreExtends_add_subfield mt _ _) (ih _ _)
    · exact coreExtends_refl _

theorem scanWhile_spec (buf : Bytes) (stop : Nat → Bool) :
    ∀ (n i : Nat), i ≤ scanWhile buf stop n i ∧ scanWhile buf stop n i ≤ i + n ∧
      (∀ k, i ≤ k → k < scanWhile buf stop n i → stop (peek buf k) = false) ∧
      (scanWhile buf stop n i < i + n → stop (peek buf (scanWhile buf stop n i)) = true) := by
  intro n
  induction n with
  | zero =>
    intro i
    simp only [scanWhile]
    refine ⟨Nat.le_refl _, Nat.le_refl _, ?_, ?_⟩
    · intro k h1 h2; omega
    · intro h; omega
  | succ n ih =>
    intro i
    rw [scanWhile]
    by_cases hs : stop (peek buf i) = true
    · rw [if_pos hs]
      refine ⟨Nat.le_refl _, by omega, ?_, fun _ => hs⟩
      intro k h1 h2; omega
    · rw [if_neg hs]
      obtain ⟨h1, h2, h3, h4⟩ := ih (i + 1)
      refine ⟨by omega, by omega, ?_, ?_⟩
      · intro k hk1 hk2
        by_cases hki : k = i
        · subst hki; simpa using hs
        · exact h3 k (by omega) hk2
      · intro h; exact h4 (by omega)

theorem readField_tail (r : yaz_marc_t × Nat) (buf : Bytes)
    (data_length end_offset : Nat) :
    CoreExtends r.1.nodes
      (if peek buf r.2 ≠ ISO2709_RS ∧ peek buf r.2 ≠ ISO2709_FS then
        yaz_marc_cprintf
          (if r.2 < end_offset then
            yaz_marc_cprintf r.1
              (str "Separator but not at end of field length=" ++ dec data_length)
          else r.1)
          (str "No separator at end of field length=" ++ dec data_length)
      else
        (if r.2 < end_offset then
          yaz_marc_cprintf r.1
            (str "Separator but not at end of field length=" ++ dec data_length)
        else r.1)).nodes := by
  have h2 : CoreExtends r.1.nodes
      (if r.2 < end_offset then
          yaz_marc_cprintf r.1
            (str "Separator but not at end of field length=" ++ dec data_length)
        else r.1).nodes := by
    split
    · exact coreExtends_cprintf _ _
    · exact coreExtends_refl _
  split
  · exact coreExtends_trans _ _ _ h2 (coreExtends_cprintf _ _)
  · exact h2

theorem readField_extends (buf : Bytes) (f : LeaderFields) (mt : yaz_marc_t) (tag : Bytes)
    (data_length i0 end_offset : Nat) (r : yaz_marc_t × Nat)
    (hr : r = (if identifierFlag buf tag f.indicator_length i0 ≠ 0 then
        readSubfields buf end_offset
          (end_offset - (i0 + (identifierFlag buf tag f.indicator_length i0 - 1)
            + f.indicator_length))
          (yaz_marc_add_datafield mt tag
            (buf.drop (i0 + (identifierFlag buf tag f.indicator_length i0 - 1)))
            f.indicator_length)
          (i0 + (identifierFlag buf tag f.indicator_length i0 - 1) + f.indicator_length)
      else
        (yaz_marc_add_controlfield mt tag (buf.drop i0)
          (scanWhile buf isRsFs (end_offset - i0) i0 - i0),
          scanWhile buf isRsFs (end_offset - i0) i0))) :
    CoreExtends r.1.nodes (readField buf f mt tag data_length i0 end_offset).nodes := by
  unfold readField
  dsimp only
  rw [← hr]
  exact readField_tail r buf data_length end_offset

theorem readField_core (buf : Bytes) (f : LeaderFields) (mt : yaz_marc_t) (tag : Bytes)
    (data_length i0 end_offset : Nat) :
    ∃ ext, (readField buf f mt tag data_length i0 end_offset).nodes.map nodeCore
      = mt.nodes.map nodeCore ++
        (if identifierFlag buf tag f.indicator_length i0 ≠ 0 then
          yaz_marc_node.datafield (cstr tag)
            (mem buf (i0 + (identifierFlag buf tag f.indicator_length i0 - 1))
              f.indicator_length) []
        else
          yaz_marc_node.controlfield (cstr tag)
            (mem buf i0 (scanWhile buf isRsFs (end_offset - i0) i0 - i0))) :: ext := by
  obtain ⟨e1, h1⟩ := readField_extends buf f mt tag data_length i0 end_offset _ rfl
  by_cases hflag : identifierFlag buf tag f.indicator_length i0 ≠ 0
  · rw [if_pos hflag] at h1
    rw [if_pos hflag]
    obtain ⟨e2, h2⟩ := coreExtends_readSubfields buf end_offset
      (end_offset - (i0 + (identifierFlag buf tag f.indicator_length i0 - 1)
        + f.indicator_length))
      (yaz_marc_add_datafield mt tag
        (buf.drop (i0 + (identifierFlag buf tag f.indicator_length i0 - 1)))
        f.indicator_length)
      (i0 + (identifierFlag buf tag f.indicator_length i0 - 1) + f.indicator_length)
    refine ⟨e2 ++ e1, ?_⟩
    rw [h1, h2]
    simp [yaz_marc_add_datafield, yaz_marc_add_node, nodeCore, mem_drop]
  · rw [if_neg hflag] at h1
    rw [if_neg hflag]
    by_cases hd : mt.debug ≠ 0
    · refine ⟨nodeCore (.comment (cstr (hexdump (str "controlfield:") (buf.drop i0)
        (scanWhile buf isRsFs (end_offset - i0) i0 - i0)))) :: e1, ?_⟩
      rw [h1]
      simp [yaz_marc_add_controlfield, yaz_marc_add_node, yaz_marc_add_comment, hd, nodeCore,
        mem_drop]
    · refine ⟨e1, ?_⟩
      rw [h1]
      simp [yaz_marc_add_controlfield, yaz_marc_add_node, hd, nodeCore, mem_drop]

theorem identifierFlag_data (buf tag : Bytes) (il i : Nat) (h : tag.take 2 ≠ [48, 48]) :
    identifierFlag buf tag il i = 1 := by
  unfold identifierFlag
  rw [if_pos h]

theorem identifierFlag_ne_zero (buf tag : Bytes) (il i : Nat) (h : tag.take 2 = [48, 48]) :
    identifierFlag buf tag il i ≠ 0 ↔
      (1 ≤ il ∧ il ≤ 3 ∧
        (peek buf (i + il) = ISO2709_IDFS ∨ peek buf (i + il + 1) = ISO2709_IDFS)) := by
  unfold identifierFlag
  rw [if_neg (by simp [h])]
  by_cases hil : il < 4 ∧ il > 0
  · rw [if_pos hil]
    by_cases h1 : peek buf (i + il) = ISO2709_IDFS
    · rw [if_pos h1]
      constructor
      · intro _; exact ⟨by omega, by omega, Or.inl h1⟩
      · intro _; decide
    · rw [if_neg h1]
      by_cases h2 : peek buf (i + il + 1) = ISO2709_IDFS
      · rw [if_pos h2]
        constructor
        · intro _; exact ⟨by omega, by omega, Or.inr h2⟩
        · intro _; decide
      · rw [if_neg h2]
        constructor
        · intro h0; exact absurd rfl h0
        · rintro ⟨_, _, h3 | h3⟩
          · exact absurd h3 h1
          · exact absurd h3 h2
  · rw [if_neg hil]
    constructor
    · intro h0; exact absurd rfl h0
    · rintro ⟨h3, h4, _⟩; exact absurd ⟨by omega, by omega⟩ hil

theorem isRsFs_false (c : Nat) (h : isRsFs c = false) : c ≠ ISO2709_RS ∧ c ≠ ISO2709_FS := by
  simpa [isRsFs] using h

theorem isRsFs_true (c : Nat) (h : isRsFs c = true) : c = ISO2709_RS ∨ c = ISO2709_FS := by
  simpa [isRsFs] using h

/-- C27: field classification in the field pass of the ISO2709 reader.  The
handling of one directory entry (tag `tag`, field start `i0`, field end
`end_offset`) extends the node list by a first node, possibly followed by
subfield attachments and comments.  If the tag does not begin with `00` the
first node is a data field with the tag and the `indicator_length` bytes at the
field start.  If the tag begins with `00`, the first node is a data field only
if the byte at `i0 + indicator_length` or the one after it is the identifier
separator `0x1F` (and it is one whenever that holds and the indicator length is
1, 2 or 3); otherwise it is a control field whose data are the bytes from `i0`
up to `j`, where no byte in `[i0, j)` is `0x1D` or `0x1E` and `j` is either the
position of such a byte before `end_offset` or `end_offset` itself. -/
theorem read_field_classification (buf : Bytes) (f : LeaderFields) (mt : yaz_marc_t)
    (tag : Bytes) (data_length i0 end_offset : Nat) :
    ∃ first ext,
      (readField buf f mt tag data_length i0 end_offset).nodes.map nodeCore
        = mt.nodes.map nodeCore ++ first :: ext ∧
      (tag.take 2 ≠ [48, 48] →
        first = yaz_marc_node.datafield (cstr tag) (mem buf i0 f.indicator_length) []) ∧
      (tag.take 2 = [48, 48] → (∃ t ind ss, first = yaz_marc_node.datafield t ind ss) →
        (peek buf (i0 + f.indicator_length) = ISO2709_IDFS ∨
          peek buf (i0 + f.indicator_length + 1) = ISO2709_IDFS)) ∧
      (tag.take 2 = [48, 48] → 1 ≤ f.indicator_length → f.indicator_length ≤ 3 →
        (peek buf (i0 + f.indicator_length) = ISO2709_IDFS ∨
          peek buf (i0 + f.indicator_length + 1) = ISO2709_IDFS) →
        ∃ ind, first = yaz_marc_node.datafield (cstr tag) ind []) ∧
      (tag.take 2 = [48, 48] →
        ¬(peek buf (i0 + f.indicator_length) = ISO2709_IDFS ∨
          peek buf (i0 + f.indicator_length + 1) = ISO2709_IDFS) →
        ∃ j, first = yaz_marc_node.controlfield (cstr tag) (mem buf i0 (j - i0)) ∧
          i0 ≤ j ∧ j ≤ max i0 end_offset ∧
          (∀ k, i0 ≤ k → k < j → peek buf k ≠ ISO2709_RS ∧ peek buf k ≠ ISO2709_FS) ∧
          (j < end_offset → peek buf j = ISO2709_RS ∨ peek buf j = ISO2709_FS)) := by
  obtain ⟨ext, hext⟩ := readField_core buf f mt tag data_length i0 end_offset
  refine ⟨_, ext, hext, ?_, ?_, ?_, ?_⟩
  · intro h
    rw [identifierFlag_data buf tag _ _ h]
    simp
  · intro h hdf
    by_cases hflag : identifierFlag buf tag f.indicator_length i0 ≠ 0
    · exact ((identifierFlag_ne_zero buf tag _ _ h).mp hflag).2.2
    · rw [if_neg hflag] at hdf
      obtain ⟨t, ind, ss, hdf⟩ := hdf
      cases hdf
  · intro h h1 h3 hp
    have hflag : identifierFlag buf tag f.indicator_length i0 ≠ 0 :=
      (identifierFlag_ne_zero buf tag _ _ h).mpr ⟨h1, h3, hp⟩
    rw [if_pos hflag]
    exact ⟨_, rfl⟩
  · intro h hp
    have hflag : ¬ identifierFlag buf tag f.indicator_length i0 ≠ 0 := fun hf =>
      hp ((identifierFlag_ne_zero buf tag _ _ h).mp hf).2.2
    rw [if_neg hflag]
    obtain ⟨s1, s2, s3, s4⟩ := scanWhile_spec buf isRsFs (end_offset - i0) i0
    refine ⟨scanWhile buf isRsFs (end_offset - i0) i0, rfl, s1, ?_, ?_, ?_⟩
    · rw [le_max_iff]; omega
    · intro k hk1 hk2
      exact isRsFs_false _ (s3 k hk1 hk2)
    · intro hj
      exact isRsFs_true _ (s4 (by omega))
/-! ## XML reader -/

theorem read_xml_leader_skip (mt : yaz_marc_t) (pre rest : List xmlNode)
    (hpre : ∀ p ∈ pre, p.type ≠ .XML_ELEMENT_NODE) :
    yaz_marc_read_xml_leader mt (pre ++ rest) = yaz_marc_read_xml_leader mt rest := by
  induction pre with
  | nil => rfl
  | cons p pre ih =>
    rw [List.cons_append, yaz_marc_read_xml_leader,
      if_neg (hpre p (List.mem_cons_self _ _))]
    exact ih (fun q hq => hpre q (List.mem_cons_of_mem _ hq))

theorem read_xml_skip (mt : yaz_marc_t) (pre rest : List xmlNode)
    (hpre : ∀ p ∈ pre, p.type ≠ .XML_ELEMENT_NODE) :
    yaz_marc_read_xml mt (pre ++ rest) = yaz_marc_read_xml mt rest := by
  induction pre with
  | nil => rfl
  | cons p pre ih =>
    rw [List.cons_append, yaz_marc_read_xml, if_neg (hpre p (List.mem_cons_self _ _))]
    exact ih (fun q hq => hpre q (List.mem_cons_of_mem _ hq))

theorem read_xml_document (mt : yaz_marc_t) (doc : List xmlNode) (L : Bytes)
    (fields : List xmlNode) (h : RecordDocument doc L fields) :
    yaz_marc_read_xml mt doc = yaz_marc_read_xml_fields (yaz_marc_read_leader mt L).1 fields := by
  obtain ⟨pre, rec, post, lpre, lel, hdoc, hpre, hrt, hrn, hch, hlpre, hlt, hln, htext, hlen⟩ := h
  rw [hdoc, read_xml_skip mt pre _ hpre, yaz_marc_read_xml, if_pos hrt, if_pos hrn, hch,
    read_xml_leader_skip mt lpre _ hlpre, yaz_marc_read_xml_leader, if_pos hlt, if_pos hln, htext]
  simp [hlen]

theorem read_xml_fields_append (good rest : List xmlNode) :
    ∀ (mt mt2 : yaz_marc_t), yaz_marc_read_xml_fields mt good = (0, mt2) →
      yaz_marc_read_xml_fields mt (good ++ rest) = yaz_marc_read_xml_fields mt2 rest := by
  induction good with
  | nil =>
    intro mt mt2 h
    simp only [yaz_marc_read_xml_fields, Prod.mk.injEq, true_and] at h
    rw [h]; rfl
  | cons p good ih =>
    intro mt mt2 h
    rw [List.cons_append]
    rw [yaz_marc_read_xml_fields] at h ⊢
    by_cases ht : p.type = .XML_ELEMENT_NODE
    · rw [if_pos ht] at h ⊢
      by_cases hc : cstr p.name = str "controlfield"
      · rw [if_pos hc] at h ⊢
        cases hattr : controlfieldAttrs p.properties [] with
        | error name => rw [hattr] at h; simp at h
        | ok pt =>
          rw [hattr] at h
          cases pt with
          | nil => simp at h
          | cons t ts => exact ih _ _ h
      · rw [if_neg hc] at h ⊢
        by_cases hd : cstr p.name = str "datafield"
        · rw [if_pos hd] at h ⊢
          cases hattr : datafieldAttrs p.properties [] (List.replicate 11 0) with
          | error name => rw [hattr] at h; simp at h
          | ok r =>
            rw [hattr] at h
            obtain ⟨pt, indstr⟩ := r
            cases pt with
            | nil => simp at h
            | cons t ts =>
              dsimp only at h ⊢
              by_cases hr : (yaz_marc_read_xml_subfields
                  (yaz_marc_add_datafield_xml mt (t :: ts) (indstr.drop 1)
                    (cstr (indstr.drop 1)).length) p.children).1 ≠ 0
              · rw [if_pos hr] at h; simp at h
              · rw [if_neg hr] at h ⊢
                exact ih _ _ h
        · rw [if_neg hd] at h; simp at h
    · rw [if_neg ht] at h ⊢
      exact ih _ _ h
theorem xmlRecord_document (L : Bytes) (fields : List xmlNode) (h : (cstr L).length = 24) :
    RecordDocument (xmlRecord L fields) L fields :=
  ⟨[], xmlElement (str "record") [] (xmlElement (str "leader") [] [xmlText L] :: fields), [], [],
    xmlElement (str "leader") [] [xmlText L], rfl, by simp, rfl,
    show cstr (str "record") = str "record" by decide, rfl, by simp, rfl,
    show cstr (str "leader") = str "leader" by decide, rfl, h⟩

theorem datafieldAttrs_no_tag :
    ∀ (props : List (Bytes × List xmlNode)) (pt : List xmlNode) (ind : Bytes),
      (∀ a ∈ props, cstr a.1 ≠ str "tag" ∧ IndLike a.1) →
      ∃ ind1, datafieldAttrs props pt ind = .ok (pt, ind1) := by
  intro props
  induction props with
  | nil => intro pt ind _; exact ⟨ind, rfl⟩
  | cons a props ih =>
    intro pt ind h
    obtain ⟨name, children⟩ := a
    have ha := h (name, children) (List.mem_cons_self _ _)
    have hrest : ∀ a ∈ props, cstr a.1 ≠ str "tag" ∧ IndLike a.1 :=
      fun b hb => h b (List.mem_cons_of_mem _ hb)
    have ha1 : ¬ cstr name = str "tag" := ha.1
    have ha2 : (cstr name).length = 4 ∧ mem name 0 3 = str "ind" := ha.2
    rw [datafieldAttrs, if_neg ha1, if_pos ha2]
    dsimp only
    cases children with
    | nil => exact ih pt ind hrest
    | cons c cs =>
      dsimp only
      split
      · exact ih pt _ hrest
      · exact ih pt ind hrest

/-- C25: the XML reader rejects fields without a tag.  Let the XML tree have a
`record` element with a leader of 24 characters followed by the siblings
`good ++ bad :: rest`, where the reader takes the siblings `good` with result
0 and handle `mt2`, and `bad` is an element.  If `bad` is a `datafield` whose
attributes are all four-byte `ind.` names other than `tag`, or a `controlfield`
without attributes, then `yaz_marc_read_xml` returns -1 and the node list is
that of `mt2` followed by one comment, `Missing attribute 'tag' for
'datafield'` (respectively `'controlfield'`). -/
theorem read_xml_missing_tag (mt : yaz_marc_t) (doc : List xmlNode) (L : Bytes)
    (good : List xmlNode) (bad : xmlNode) (rest : List xmlNode) (mt2 : yaz_marc_t)
    (hdoc : RecordDocument doc L (good ++ bad :: rest))
    (hgood : yaz_marc_read_xml_fields (yaz_marc_read_leader mt L).1 good = (0, mt2))
    (hel : bad.type = .XML_ELEMENT_NODE) :
    (cstr bad.name = str "datafield" →
      (∀ a ∈ bad.properties, cstr a.1 ≠ str "tag" ∧ IndLike a.1) →
      (yaz_marc_read_xml mt doc).1 = -1 ∧
      (yaz_marc_read_xml mt doc).2.nodes
        = mt2.nodes ++ [.comment (str "Missing attribute 'tag' for 'datafield'")]) ∧
    (cstr bad.name = str "controlfield" → bad.properties = [] →
      (yaz_marc_read_xml mt doc).1 = -1 ∧
      (yaz_marc_read_xml mt doc).2.nodes
        = mt2.nodes ++ [.comment (str "Missing attribute 'tag' for 'controlfield'")]) := by
  rw [read_xml_document mt doc L _ hdoc, read_xml_fields_append good _ _ mt2 hgood,
    yaz_marc_read_xml_fields, if_pos hel]
  constructor
  · intro hname hattrs
    have hnc : ¬ cstr bad.name = str "controlfield" := by
      rw [hname]; decide
    obtain ⟨ind1, hattr⟩ := datafieldAttrs_no_tag bad.properties [] (List.replicate 11 0) hattrs
    rw [if_neg hnc, if_pos hname, hattr]
    refine ⟨rfl, ?_⟩
    rw [cprintf_nodes]
    have hmsg : cstr ((cstr (str "Missing attribute 'tag' for 'datafield'")).take 199)
        = str "Missing attribute 'tag' for 'datafield'" := by decide
    rw [hmsg]
  · intro hname hattrs
    rw [if_pos hname, hattrs]
    refine ⟨rfl, ?_⟩
    simp only [controlfieldAttrs]
    rw [cprintf_nodes]
    have hmsg : cstr ((cstr (str "Missing attribute 'tag' for 'controlfield'")).take 199)
        = str "Missing attribute 'tag' for 'controlfield'" := by decide
    rw [hmsg]

set_option maxRecDepth 20000 in
theorem read_xml_missing_tag_witness :
    (cstr (str "datafield") = str "datafield" →
      (∀ a ∈ [(str "ind1", [xmlText (str "1")])], cstr a.1 ≠ str "tag" ∧ IndLike a.1) →
      (yaz_marc_read_xml yaz_marc_create missingTagXml).1 = -1 ∧
      (yaz_marc_read_xml yaz_marc_create missingTagXml).2.nodes
        = [.leader plainLeader, .controlfield (str "001") (str "new")]
          ++ [.comment (str "Missing attribute 'tag' for 'datafield'")]) ∧
    (cstr (str "datafield") = str "controlfield" → [(str "ind1", [xmlText (str "1")])] = [] →
      (yaz_marc_read_xml yaz_marc_create missingTagXml).1 = -1 ∧
      (yaz_marc_read_xml yaz_marc_create missingTagXml).2.nodes
        = [.leader plainLeader, .controlfield (str "001") (str "new")]
          ++ [.comment (str "Missing attribute 'tag' for 'controlfield'")]) :=
  read_xml_missing_tag yaz_marc_create missingTagXml plainLeader
    [xmlElement (str "controlfield") [(str "tag", [xmlText (str "001")])] [xmlText (str "new")]]
    (xmlElement (str "datafield") [(str "ind1", [xmlText (str "1")])]
       [xmlElement (str "subfield") [(str "code", [xmlText (str "a")])] [xmlText (str "T")]])
    []
    { yaz_marc_create with
      nodes := [.leader plainLeader, .controlfield (str "001") (str "new")] }
    (xmlRecord_document plainLeader _ (by decide)) rfl rfl
/-! ## Indicators of the XML reader -/

theorem coreExtends_read_xml_subfields (l : List xmlNode) :
    ∀ (mt : yaz_marc_t), CoreExtends mt.nodes (yaz_marc_read_xml_subfields mt l).2.nodes := by
  induction l with
  | nil => intro mt; exact coreExtends_refl _
  | cons p l ih =>
    intro mt
    rw [yaz_marc_read_xml_subfields]
    split
    · split
      · split
        · exact coreExtends_cprintf _ _
        · exact coreExtends_cprintf _ _
        · split
          · exact coreExtends_trans _ _ _ (coreExtends_add_subfield mt _ _) (ih _)
          · exact coreExtends_cprintf _ _
      · exact coreExtends_cprintf _ _
    · exact ih mt

theorem add_datafield_xml_nodes (mt : yaz_marc_t) (pt : List xmlNode) (ind : Bytes) (n : Nat) :
    (yaz_marc_add_datafield_xml mt pt ind n).nodes
      = mt.nodes ++ [.datafield (nmem_text_node_cdata pt) (mem ind 0 n) []] := rfl

theorem add_controlfield_xml_nodes (mt : yaz_marc_t) (pt pd : List xmlNode) :
    (yaz_marc_add_controlfield_xml mt pt pd).nodes
      = mt.nodes ++ [.controlfield (nmem_text_node_cdata pt) (nmem_text_node_cdata pd)] := rfl

theorem coreExtends_read_xml_fields (l : List xmlNode) :
    ∀ (mt : yaz_marc_t), CoreExtends mt.nodes (yaz_marc_read_xml_fields mt l).2.nodes := by
  induction l with
  | nil => intro mt; exact coreExtends_refl _
  | cons p l ih =>
    intro mt
    rw [yaz_marc_read_xml_fields]
    split
    · split
      · split
        · exact coreExtends_cprintf _ _
        · exact coreExtends_cprintf _ _
        · refine coreExtends_trans _ _ _ ?_ (ih _)
          rw [add_controlfield_xml_nodes]
          exact coreExtends_append _ _
      · split
        · split
          · exact coreExtends_cprintf _ _
          · exact coreExtends_cprintf _ _
          · rename_i t ts indstr _
            dsimp only
            have h1 : CoreExtends mt.nodes
                (yaz_marc_add_datafield_xml mt (t :: ts) (indstr.drop 1)
                  (cstr (indstr.drop 1)).length).nodes := by
              rw [add_datafield_xml_nodes]
              exact coreExtends_append _ _
            have h2 := coreExtends_read_xml_subfields p.children
              (yaz_marc_add_datafield_xml mt (t :: ts) (indstr.drop 1)
                (cstr (indstr.drop 1)).length)
            split
            · exact coreExtends_trans _ _ _ h1 h2
            · exact coreExtends_trans _ _ _ h1 (coreExtends_trans _ _ _ h2 (ih _))
        · exact coreExtends_cprintf _ _
    · exact ih mt

theorem indName_eq (k : Nat) : indName k = [105, 110, 100, 48 + k] := rfl

theorem indName_facts (k : Nat) :
    ¬ cstr (indName k) = str "tag" ∧
    ((cstr (indName k)).length = 4 ∧ mem (indName k) 0 3 = str "ind") ∧
    peek (indName k) 3 = 48 + k := by
  have hc : cstr (indName k) = [105, 110, 100, 48 + k] := by
    rw [indName_eq]
    apply cstr_eq_self
    intro h
    simp at h
    omega
  refine ⟨?_, ⟨?_, ?_⟩, ?_⟩
  · rw [hc]
    intro h
    have h2 : str "tag" = [116, 97, 103] := by decide
    rw [h2] at h
    simp at h
  · rw [hc]; rfl
  · rw [indName_eq]
    have h2 : str "ind" = [105, 110, 100] := by decide
    rw [h2]
    rfl
  · rw [indName_eq]; rfl

theorem indName_ne_tag (k : Nat) : indName k ≠ str "tag" := by
  rw [indName_eq]
  have h2 : str "tag" = [116, 97, 103] := by decide
  rw [h2]
  simp

theorem indName_inj (j k : Nat) (h : indName j = indName k) : j = k := by
  rw [indName_eq, indName_eq] at h
  simpa using h

theorem indName_no (k : Nat) (hk : k ≤ 9) :
    (if isdigit (peek (indName k) 3) then peek (indName k) 3 - 48 else 0) = k := by
  rw [(indName_facts k).2.2]
  have : isdigit (48 + k) = true := by
    simp [isdigit]; omega
  rw [if_pos this]
  omega

theorem peek_setInd (ind : Bytes) (k v K : Nat) :
    peek (setInd ind k v) K = if K = k ∧ k < ind.length then v else peek ind K := by
  unfold peek setInd
  rw [List.getD_eq_getElem?_getD, List.getD_eq_getElem?_getD, List.getElem?_set]
  by_cases hK : k = K
  · subst hK
    by_cases hl : k < ind.length
    · simp [hl]
    · simp [hl]
      rw [List.getElem?_eq_none (by omega)]
      rfl
  · have : ¬ (K = k ∧ k < ind.length) := fun h => hK h.1.symm
    simp [hK, this]

theorem setInd_length (ind : Bytes) (k v : Nat) : (setInd ind k v).length = ind.length := by
  simp [setInd]

theorem mem_cstr (x : Bytes) : mem x 0 (cstr x).length = cstr x := by
  have h : cstr x ++ x.dropWhile (fun c => c != 0) = x := by
    unfold cstr
    exact List.takeWhile_append_dropWhile _ x
  have key := mem_prefix (cstr x) (x.dropWhile (fun c => c != 0))
  rw [h] at key
  exact key

/-- The attribute loop of `datafield` on permitted, pairwise different
attribute names. -/
theorem datafieldAttrs_spec :
    ∀ (props : List (Bytes × List xmlNode)) (pt : List xmlNode) (ind : Bytes),
      ind.length = 11 →
      (∀ a ∈ props, a.1 = str "tag" ∨ ∃ k, 1 ≤ k ∧ k ≤ 9 ∧ a.1 = indName k) →
      (props.map Prod.fst).Nodup →
      ∃ pt1 ind1, datafieldAttrs props pt ind = .ok (pt1, ind1) ∧ ind1.length = 11 ∧
        (∀ tc, (str "tag", tc) ∈ props → pt1 = tc) ∧
        ((∀ tc, (str "tag", tc) ∉ props) → pt1 = pt) ∧
        (∀ K c cs, 1 ≤ K → K ≤ 9 → (indName K, c :: cs) ∈ props →
          c.type = .XML_TEXT_NODE → peek ind1 K = peek c.content 0) ∧
        (∀ K, (∀ ch, (indName K, ch) ∉ props) → peek ind1 K = peek ind K) := by
  intro props
  induction props with
  | nil =>
    intro pt ind hlen _ _
    refine ⟨pt, ind, rfl, hlen, ?_, fun _ => rfl, ?_, fun _ _ => rfl⟩
    · intro tc h; simp at h
    · intro K c cs _ _ h; simp at h
  | cons a props ih =>
    intro pt ind hlen hperm hnd
    obtain ⟨name, children⟩ := a
    have hrest : ∀ a ∈ props, a.1 = str "tag" ∨ ∃ k, 1 ≤ k ∧ k ≤ 9 ∧ a.1 = indName k :=
      fun b hb => hperm b (List.mem_cons_of_mem _ hb)
    rw [List.map_cons, List.nodup_cons] at hnd
    obtain ⟨hfresh, hnd⟩ := hnd
    have hfresh2 : ∀ ch, (name, ch) ∉ props := by
      intro ch hmem
      exact hfresh (List.mem_map.mpr ⟨(name, ch), hmem, rfl⟩)
    rcases hperm (name, children) (List.mem_cons_self _ _) with htag | ⟨k, hk1, hk9, hname⟩
    · have htag2 : name = str "tag" := htag
      subst htag2
      have hc : cstr (str "tag") = str "tag" := by decide
      rw [datafieldAttrs, if_pos hc]
      obtain ⟨pt1, ind1, heq, hl1, h1, h2, h3, h4⟩ := ih children ind hlen hrest hnd
      refine ⟨pt1, ind1, heq, hl1, ?_, ?_, ?_, ?_⟩
      · intro tc hmem
        rcases List.mem_cons.mp hmem with h | h
        · have : tc = children := by
            have := congrArg Prod.snd h
            exact this
          rw [this]
          exact h2 hfresh2
        · exact absurd h (hfresh2 tc)
      · intro hno
        exact absurd (List.mem_cons_self _ _) (hno children)
      · intro K c cs hK1 hK9 hmem htext
        rcases List.mem_cons.mp hmem with h | h
        · have : indName K = str "tag" := congrArg Prod.fst h
          exact absurd this (indName_ne_tag K)
        · exact h3 K c cs hK1 hK9 h htext
      · intro K hno
        exact h4 K (fun ch hmem => hno ch (List.mem_cons_of_mem _ hmem))
    · have hname2 : name = indName k := hname
      subst hname2
      obtain ⟨f1, f2, f3⟩ := indName_facts k
      rw [datafieldAttrs, if_neg f1, if_pos f2]
      dsimp only
      rw [indName_no k hk9]
      have key : ∀ ind0 : Bytes, ind0.length = 11 →
          (∀ c cs, children = c :: cs → c.type = .XML_TEXT_NODE →
            peek ind0 k = peek c.content 0) →
          (∀ K, K ≠ k → peek ind0 K = peek ind K) →
          ∃ pt1 ind1, datafieldAttrs props pt ind0 = .ok (pt1, ind1) ∧ ind1.length = 11 ∧
            (∀ tc, (str "tag", tc) ∈ (indName k, children) :: props → pt1 = tc) ∧
            ((∀ tc, (str "tag", tc) ∉ (indName k, children) :: props) → pt1 = pt) ∧
            (∀ K c cs, 1 ≤ K → K ≤ 9 → (indName K, c :: cs) ∈ (indName k, children) :: props →
              c.type = .XML_TEXT_NODE → peek ind1 K = peek c.content 0) ∧
            (∀ K, (∀ ch, (indName K, ch) ∉ (indName k, children) :: props) →
              peek ind1 K = peek ind K) := by
        intro ind0 hl0 hset hother
        obtain ⟨pt1, ind1, heq, hl1, h1, h2, h3, h4⟩ := ih pt ind0 hl0 hrest hnd
        refine ⟨pt1, ind1, heq, hl1, ?_, ?_, ?_, ?_⟩
        · intro tc hmem
          rcases List.mem_cons.mp hmem with h | h
          · have : str "tag" = indName k := congrArg Prod.fst h
            exact absurd this.symm (indName_ne_tag k)
          · exact h1 tc h
        · intro hno
          exact h2 (fun tc hmem => hno tc (List.mem_cons_of_mem _ hmem))
        · intro K c cs hK1 hK9 hmem htext
          rcases List.mem_cons.mp hmem with h | h
          · have hKk : K = k := indName_inj K k (congrArg Prod.fst h)
            have hch : children = c :: cs := (congrArg Prod.snd h).symm
            subst hKk
            rw [h4 K hfresh2]
            exact hset c cs hch htext
          · exact h3 K c cs hK1 hK9 h htext
        · intro K hno
          have hKk : K ≠ k := by
            intro h
            subst h
            exact hno children (List.mem_cons_self _ _)
          rw [h4 K (fun ch hmem => hno ch (List.mem_cons_of_mem _ hmem))]
          exact hother K hKk
      cases children with
      | nil =>
        dsimp only
        exact key ind hlen (fun c cs h => by cases h) (fun _ _ => rfl)
      | cons c cs =>
        dsimp only
        by_cases htext : c.type = .XML_TEXT_NODE
        · rw [if_pos htext]
          refine key _ (by rw [setInd_length]; exact hlen) ?_ ?_
          · intro c1 cs1 h _
            have : c = c1 := by
              have := List.cons.inj h
              exact this.1
            subst this
            rw [peek_setInd, if_pos ⟨rfl, by omega⟩]
          · intro K hK
            rw [peek_setInd, if_neg (fun h => hK h.1)]
        · rw [if_neg htext]
          refine key ind hlen ?_ (fun _ _ => rfl)
          intro c1 cs1 h ht
          have : c = c1 := (List.cons.inj h).1
          subst this
          exact absurd ht htext
theorem attr_unique :
    ∀ (props : List (Bytes × List xmlNode)), (props.map Prod.fst).Nodup →
      ∀ (name : Bytes) (c1 c2 : List xmlNode), (name, c1) ∈ props → (name, c2) ∈ props →
        c1 = c2 := by
  intro props
  induction props with
  | nil => intro _ name c1 c2 h; simp at h
  | cons a props ih =>
    intro hnd name c1 c2 h1 h2
    rw [List.map_cons, List.nodup_cons] at hnd
    obtain ⟨hfresh, hnd⟩ := hnd
    rcases List.mem_cons.mp h1 with e1 | m1
    · rcases List.mem_cons.mp h2 with e2 | m2
      · exact (congrArg Prod.snd e1).trans (congrArg Prod.snd e2).symm
      · exact absurd (List.mem_map.mpr ⟨(name, c2), m2, (congrArg Prod.fst e1 : name = a.1)⟩) hfresh
    · rcases List.mem_cons.mp h2 with e2 | m2
      · exact absurd (List.mem_map.mpr ⟨(name, c1), m1, (congrArg Prod.fst e2 : name = a.1)⟩) hfresh
      · exact ih hnd name c1 c2 m1 m2

theorem datafieldAttrs_bad :
    ∀ (props : List (Bytes × List xmlNode)) (pt : List xmlNode) (ind : Bytes),
      (∃ a ∈ props, cstr a.1 ≠ str "tag" ∧ ¬ IndLike a.1) →
      ∃ name, datafieldAttrs props pt ind = .error name := by
  intro props
  induction props with
  | nil =>
    intro pt ind h
    obtain ⟨a, ha, _⟩ := h
    simp at ha
  | cons b props ih =>
    intro pt ind h
    obtain ⟨name, children⟩ := b
    rw [datafieldAttrs]
    by_cases htag : cstr name = str "tag"
    · rw [if_pos htag]
      obtain ⟨a, ha, h1, h2⟩ := h
      rcases List.mem_cons.mp ha with heq | hmem
      · rw [heq] at h1
        exact absurd htag h1
      · exact ih _ _ ⟨a, hmem, h1, h2⟩
    · rw [if_neg htag]
      by_cases hind : (cstr name).length = 4 ∧ mem name 0 3 = str "ind"
      · rw [if_pos hind]
        have hrest : ∃ a ∈ props, cstr a.1 ≠ str "tag" ∧ ¬ IndLike a.1 := by
          obtain ⟨a, ha, h1, h2⟩ := h
          rcases List.mem_cons.mp ha with heq | hmem
          · rw [heq] at h2
            exact absurd hind h2
          · exact ⟨a, hmem, h1, h2⟩
        dsimp only
        cases children with
        | nil => exact ih _ _ hrest
        | cons c cs =>
          dsimp only
          split
          · exact ih _ _ hrest
          · exact ih _ _ hrest
      · rw [if_neg hind]
        exact ⟨name, rfl⟩

/-- C26 as stated fails.  A `datafield` element with the attributes `tag` and
`ind2="x"` (no `ind1`) is read with result 0 into a data field with the empty
indicator, so position 2 does not hold `x`; and with the attributes `tag` and
`indx="1"`, whose name is neither `tag` nor one of `ind1..ind9`, the reader
returns 0, not -1. -/
theorem read_xml_indicators_counterexample :
    ((yaz_marc_read_xml yaz_marc_create
        (datafieldXml [(str "tag", [xmlText (str "245")]), (str "ind2", [xmlText (str "x")])])).1,
      (yaz_marc_read_xml yaz_marc_create
        (datafieldXml [(str "tag", [xmlText (str "245")]),
          (str "ind2", [xmlText (str "x")])])).2.nodes)
      = (0, [.leader plainLeader, .datafield (str "245") [] [str "aT"]]) ∧
    ((yaz_marc_read_xml yaz_marc_create
        (datafieldXml [(str "tag", [xmlText (str "245")]), (str "indx", [xmlText (str "1")])])).1,
      (yaz_marc_read_xml yaz_marc_create
        (datafieldXml [(str "tag", [xmlText (str "245")]),
          (str "indx", [xmlText (str "1")])])).2.nodes)
      = (0, [.leader plainLeader, .datafield (str "245") [] [str "aT"]]) :=
  ⟨by decide, by decide⟩

/-- C26, amended: indicators of the XML reader.  Let the XML tree have a
`record` element with a leader of 24 characters followed by the siblings
`good ++ el :: rest`, where the reader takes `good` with result 0 and handle
`mt2`, and `el` is a `datafield` element.  If the attribute names of `el` are
pairwise different and each is `tag` or one of `ind1..ind9`, and the `tag`
attribute has a value, then the node list continues that of `mt2` with a data
field with that tag whose indicator holds, for every `K` such that all of
`ind1..indK` are present with a text value, the first character of the value
of `indK` at position `K` (1-based).  If some attribute name is not `tag` and
not a four-byte name starting with `ind`, `yaz_marc_read_xml` returns -1. -/
theorem read_xml_indicators (mt : yaz_marc_t) (doc : List xmlNode) (L : Bytes)
    (good : List xmlNode) (el : xmlNode) (rest : List xmlNode) (mt2 : yaz_marc_t)
    (hdoc : RecordDocument doc L (good ++ el :: rest))
    (hgood : yaz_marc_read_xml_fields (yaz_marc_read_leader mt L).1 good = (0, mt2))
    (hel : el.type = .XML_ELEMENT_NODE) (hname : cstr el.name = str "datafield") :
    ((∀ a ∈ el.properties, a.1 = str "tag" ∨ ∃ k, 1 ≤ k ∧ k ≤ 9 ∧ a.1 = indName k) →
      (el.properties.map Prod.fst).Nodup →
      ∀ tagc, (str "tag", tagc) ∈ el.properties → tagc ≠ [] →
      ∃ ind ext,
        (yaz_marc_read_xml mt doc).2.nodes.map nodeCore
          = mt2.nodes.map nodeCore
            ++ yaz_marc_node.datafield (nmem_text_node_cdata tagc) ind [] :: ext ∧
        ∀ K, 1 ≤ K → K ≤ 9 →
          (∀ j, 1 ≤ j → j ≤ K → ∃ c cs, (indName j, c :: cs) ∈ el.properties ∧
            c.type = .XML_TEXT_NODE ∧ peek c.content 0 ≠ 0) →
          ∀ c cs, (indName K, c :: cs) ∈ el.properties →
            peek ind (K - 1) = peek c.content 0) ∧
    ((∃ a ∈ el.properties, cstr a.1 ≠ str "tag" ∧ ¬ IndLike a.1) →
      (yaz_marc_read_xml mt doc).1 = -1) := by
  have hnc : ¬ cstr el.name = str "controlfield" := by
    rw [hname]; decide
  rw [read_xml_document mt doc L _ hdoc, read_xml_fields_append good _ _ mt2 hgood,
    yaz_marc_read_xml_fields, if_pos hel, if_neg hnc, if_pos hname]
  constructor
  · intro hperm hnd tagc htag hne
    obtain ⟨pt1, ind1, heq, hl1, h1, _, h3, _⟩ :=
      datafieldAttrs_spec el.properties [] (List.replicate 11 0) (by simp) hperm hnd
    rw [heq]
    have hpt : pt1 = tagc := h1 tagc htag
    subst hpt
    cases pt1 with
    | nil => exact absurd rfl hne
    | cons t ts =>
      dsimp only
      have hsub := coreExtends_read_xml_subfields el.children
        (yaz_marc_add_datafield_xml mt2 (t :: ts) (ind1.drop 1) (cstr (ind1.drop 1)).length)
      have hall : CoreExtends
          (yaz_marc_add_datafield_xml mt2 (t :: ts) (ind1.drop 1)
            (cstr (ind1.drop 1)).length).nodes
          (if (yaz_marc_read_xml_subfields
                (yaz_marc_add_datafield_xml mt2 (t :: ts) (ind1.drop 1)
                  (cstr (ind1.drop 1)).length) el.children).1 ≠ 0 then
              ((-1 : Int), (yaz_marc_read_xml_subfields
                (yaz_marc_add_datafield_xml mt2 (t :: ts) (ind1.drop 1)
                  (cstr (ind1.drop 1)).length) el.children).2)
            else yaz_marc_read_xml_fields (yaz_marc_read_xml_subfields
                (yaz_marc_add_datafield_xml mt2 (t :: ts) (ind1.drop 1)
                  (cstr (ind1.drop 1)).length) el.children).2 rest).2.nodes := by
        split
        · exact hsub
        · exact coreExtends_trans _ _ _ hsub (coreExtends_read_xml_fields _ _)
      obtain ⟨ext, hext⟩ := hall
      refine ⟨cstr (ind1.drop 1), ext, ?_, ?_⟩
      · rw [hext, add_datafield_xml_nodes, mem_cstr]
        simp [nodeCore]
      · intro K hK1 hK9 hpres c cs hmem
        have hval : ∀ j, 1 ≤ j → j ≤ K → peek ind1 j ≠ 0 := by
          intro j hj1 hjK
          obtain ⟨c1, cs1, hm1, ht1, hz1⟩ := hpres j hj1 hjK
          rw [h3 j c1 cs1 hj1 (by omega) hm1 ht1]
          exact hz1
        obtain ⟨c1, cs1, hm1, ht1, _⟩ := hpres K hK1 (Nat.le_refl _)
        have hc : c = c1 :=
          (List.cons.inj (attr_unique el.properties hnd (indName K) _ _ hmem hm1)).1
        subst hc
        have hcs : peek (cstr (ind1.drop 1)) (K - 1) = peek (ind1.drop 1) (K - 1) := by
          apply peek_cstr
          intro k hk
          rw [peek_drop]
          exact hval (1 + k) (by omega) (by omega)
        rw [hcs, peek_drop, show 1 + (K - 1) = K by omega]
        exact h3 K c cs hK1 hK9 hmem ht1
  · intro hbad
    obtain ⟨name, herr⟩ := datafieldAttrs_bad el.properties [] (List.replicate 11 0) hbad
    rw [herr]

set_option maxRecDepth 20000 in
theorem read_xml_indicators_witness :
    ((∀ a ∈ [(str "tag", [xmlText (str "245")]), (indName 1, [xmlText (str "1")]),
          (indName 2, [xmlText (str "0")])],
        a.1 = str "tag" ∨ ∃ k, 1 ≤ k ∧ k ≤ 9 ∧ a.1 = indName k) →
      (([(str "tag", [xmlText (str "245")]), (indName 1, [xmlText (str "1")]),
          (indName 2, [xmlText (str "0")])] : List (Bytes × List xmlNode)).map Prod.fst).Nodup →
      ∀ tagc, (str "tag", tagc) ∈ [(str "tag", [xmlText (str "245")]),
          (indName 1, [xmlText (str "1")]), (indName 2, [xmlText (str "0")])] → tagc ≠ [] →
      ∃ ind ext,
        (yaz_marc_read_xml yaz_marc_create
            (datafieldXml [(str "tag", [xmlText (str "245")]), (indName 1, [xmlText (str "1")]),
              (indName 2, [xmlText (str "0")])])).2.nodes.map nodeCore
          = [yaz_marc_node.leader plainLeader].map nodeCore
            ++ yaz_marc_node.datafield (nmem_text_node_cdata tagc) ind [] :: ext ∧
        ∀ K, 1 ≤ K → K ≤ 9 →
          (∀ j, 1 ≤ j → j ≤ K → ∃ c cs, (indName j, c :: cs) ∈
              [(str "tag", [xmlText (str "245")]), (indName 1, [xmlText (str "1")]),
                (indName 2, [xmlText (str "0")])] ∧
            c.type = .XML_TEXT_NODE ∧ peek c.content 0 ≠ 0) →
          ∀ c cs, (indName K, c :: cs) ∈ [(str "tag", [xmlText (str "245")]),
              (indName 1, [xmlText (str "1")]), (indName 2, [xmlText (str "0")])] →
            peek ind (K - 1) = peek c.content 0) ∧
    ((∃ a ∈ [(str "tag", [xmlText (str "245")]), (indName 1, [xmlText (str "1")]),
          (indName 2, [xmlText (str "0")])], cstr a.1 ≠ str "tag" ∧ ¬ IndLike a.1) →
      (yaz_marc_read_xml yaz_marc_create
        (datafieldXml [(str "tag", [xmlText (str "245")]), (indName 1, [xmlText (str "1")]),
          (indName 2, [xmlText (str "0")])])).1 = -1) :=
  read_xml_indicators yaz_marc_create
    (datafieldXml [(str "tag", [xmlText (str "245")]), (indName 1, [xmlText (str "1")]),
      (indName 2, [xmlText (str "0")])]) plainLeader []
    (xmlElement (str "datafield") [(str "tag", [xmlText (str "245")]),
        (indName 1, [xmlText (str "1")]), (indName 2, [xmlText (str "0")])]
      [xmlElement (str "subfield") [(str "code", [xmlText (str "a")])] [xmlText (str "T")]])
    [] { yaz_marc_create with nodes := [.leader plainLeader] }
    (xmlRecord_document plainLeader _ (by decide)) rfl rfl (by decide)
/-! ## Append cursor of the record model -/

theorem lastDatafield_append (ns : List yaz_marc_node) (n : yaz_marc_node) :
    lastDatafield (ns ++ [n]) = if isDatafield n then some ns.length else lastDatafield ns := by
  induction ns with
  | nil =>
    simp only [List.nil_append, lastDatafield, List.length_nil]
  | cons m ns ih =>
    rw [List.cons_append, lastDatafield, ih]
    by_cases hn : isDatafield n = true
    · simp [hn]
    · simp only [hn, Bool.false_eq_true, if_false]
      rw [lastDatafield]

theorem any_isDatafield (ns : List yaz_marc_node) :
    ns.any isDatafield = (lastDatafield ns).isSome := by
  induction ns with
  | nil => rfl
  | cons n ns ih =>
    rw [List.any_cons, ih, lastDatafield]
    cases lastDatafield ns with
    | some i => simp
    | none =>
      cases hn : isDatafield n <;> simp [hn]

theorem appendSubfield_attach (ns : List yaz_marc_node) :
    ∀ (idx : Nat) (s : Bytes), lastDatafield ns = some idx →
      appendSubfield ns idx s = attachLast ns s := by
  induction ns with
  | nil => intro idx s h; simp [lastDatafield] at h
  | cons n ns ih =>
    intro idx s h
    rw [lastDatafield] at h
    rw [attachLast, any_isDatafield]
    cases hl : lastDatafield ns with
    | some i =>
      rw [hl] at h
      simp only [Option.some.injEq] at h
      subst h
      simp only [Option.isSome_some, if_true]
      rw [← ih i s hl]
      cases n <;> rfl
    | none =>
      rw [hl] at h
      simp only [Option.isSome_none, Bool.false_eq_true, if_false]
      cases n with
      | datafield t i ss =>
        have h0 : idx = 0 := by
          simpa [isDatafield] using h.symm
        subst h0
        rfl
      | controlfield t d => simp [isDatafield] at h
      | comment t => simp [isDatafield] at h
      | leader l => simp [isDatafield] at h

theorem attachLast_none (ns : List yaz_marc_node) (s : Bytes) (h : lastDatafield ns = none) :
    attachLast ns s = ns := by
  induction ns with
  | nil => rfl
  | cons n ns ih =>
    rw [lastDatafield] at h
    rw [attachLast, any_isDatafield]
    cases hl : lastDatafield ns with
    | some i => rw [hl] at h; simp at h
    | none =>
      rw [hl] at h
      simp only [Option.isSome_none, Bool.false_eq_true, if_false]
      cases n with
      | datafield t i ss => simp [isDatafield] at h
      | controlfield t d => rfl
      | comment t => rfl
      | leader l => rfl

theorem lastDatafield_attach (ns : List yaz_marc_node) (s : Bytes) :
    lastDatafield (attachLast ns s) = lastDatafield ns := by
  induction ns with
  | nil => rfl
  | cons n ns ih =>
    rw [attachLast]
    by_cases ha : ns.any isDatafield = true
    · rw [if_pos ha, lastDatafield, ih, lastDatafield]
    · rw [if_neg ha]
      cases n <;> rfl

theorem attachLast_core (ns : List yaz_marc_node) (s : Bytes) :
    (attachLast ns s).map nodeCore = ns.map nodeCore := by
  induction ns with
  | nil => rfl
  | cons n ns ih =>
    rw [attachLast]
    by_cases ha : ns.any isDatafield = true
    · rw [if_pos ha, List.map_cons, ih, List.map_cons]
    · rw [if_neg ha]
      cases n <;> rfl

theorem attachLast_split (before : List yaz_marc_node) (t i : Bytes) (ss : List Bytes)
    (after : List yaz_marc_node) (s : Bytes) (h : ∀ n ∈ after, isDatafield n = false) :
    attachLast (before ++ .datafield t i ss :: after) s
      = before ++ .datafield t i (ss ++ [s]) :: after := by
  have hafter : after.any isDatafield = false := by
    rw [List.any_eq_false]
    intro n hn
    simp [h n hn]
  induction before with
  | nil =>
    rw [List.nil_append, attachLast, hafter]
    rfl
  | cons b before ih =>
    have hany : (before ++ yaz_marc_node.datafield t i ss :: after).any isDatafield = true := by
      rw [List.any_append, List.any_cons]
      simp [isDatafield]
    rw [List.cons_append, attachLast, if_pos hany, ih]
    rfl

theorem applyCall_step (mt : yaz_marc_t) (c : AddCall) (hdbg : mt.debug = 0)
    (hpp : mt.subfield_pp = lastDatafield mt.nodes) :
    (applyCall mt c).debug = 0 ∧ (applyCall mt c).leader_spec = mt.leader_spec ∧
    (applyCall mt c).subfield_pp = lastDatafield (applyCall mt c).nodes ∧
    (applyCall mt c).nodes = specStep mt.leader_spec mt.nodes c := by
  cases c with
  | leader l n =>
    refine ⟨hdbg, rfl, ?_, rfl⟩
    show mt.subfield_pp = lastDatafield (mt.nodes ++ [_])
    rw [lastDatafield_append, hpp]
    rfl
  | controlfield t d n =>
    have h : applyCall mt (.controlfield t d n)
        = yaz_marc_add_node mt (.controlfield (cstr t) (mem d 0 n)) := by
      show yaz_marc_add_controlfield mt t d n = _
      unfold yaz_marc_add_controlfield
      dsimp only
      rw [if_neg]
      intro h0
      exact h0 hdbg
    rw [h]
    refine ⟨hdbg, rfl, ?_, rfl⟩
    show mt.subfield_pp = lastDatafield (mt.nodes ++ [_])
    rw [lastDatafield_append, hpp]
    rfl
  | datafield t i n =>
    refine ⟨hdbg, rfl, ?_, rfl⟩
    show some mt.nodes.length = lastDatafield (mt.nodes ++ [_])
    rw [lastDatafield_append]
    rfl
  | comment t =>
    refine ⟨hdbg, rfl, ?_, rfl⟩
    show mt.subfield_pp = lastDatafield (mt.nodes ++ [_])
    rw [lastDatafield_append, hpp]
    rfl
  | subfield d n =>
    show (yaz_marc_add_subfield mt d n).debug = 0 ∧
      (yaz_marc_add_subfield mt d n).leader_spec = mt.leader_spec ∧
      (yaz_marc_add_subfield mt d n).subfield_pp
        = lastDatafield (yaz_marc_add_subfield mt d n).nodes ∧
      (yaz_marc_add_subfield mt d n).nodes = attachLast mt.nodes (mem d 0 n)
    have h : yaz_marc_add_subfield mt d n
        = (match lastDatafield mt.nodes with
          | some idx => { mt with nodes := appendSubfield mt.nodes idx (mem d 0 n) }
          | none => mt) := by
      unfold yaz_marc_add_subfield
      dsimp only
      rw [if_neg (fun h0 => h0 hdbg), hpp]
    rw [h]
    cases hl : lastDatafield mt.nodes with
    | none =>
      refine ⟨hdbg, rfl, ?_, ?_⟩
      · show mt.subfield_pp = lastDatafield mt.nodes
        exact hpp
      · show mt.nodes = attachLast mt.nodes (mem d 0 n)
        rw [attachLast_none _ _ hl]
    | some idx =>
      refine ⟨hdbg, rfl, ?_, ?_⟩
      · show mt.subfield_pp = lastDatafield (appendSubfield mt.nodes idx (mem d 0 n))
        rw [appendSubfield_attach _ _ _ hl, lastDatafield_attach, hpp]
      · show appendSubfield mt.nodes idx (mem d 0 n) = attachLast mt.nodes (mem d 0 n)
        exact appendSubfield_attach _ _ _ hl

theorem runCalls_spec (cs : List AddCall) :
    ∀ (mt : yaz_marc_t), mt.debug = 0 → mt.subfield_pp = lastDatafield mt.nodes →
      (runCalls mt cs).nodes = cs.foldl (specStep mt.leader_spec) mt.nodes ∧
      (runCalls mt cs).debug = 0 ∧
      (runCalls mt cs).subfield_pp = lastDatafield (runCalls mt cs).nodes ∧
      (runCalls mt cs).leader_spec = mt.leader_spec := by
  induction cs with
  | nil => intro mt hdbg hpp; exact ⟨rfl, hdbg, hpp, rfl⟩
  | cons c cs ih =>
    intro mt hdbg hpp
    obtain ⟨h1, h2, h3, h4⟩ := applyCall_step mt c hdbg hpp
    obtain ⟨i1, i2, i3, i4⟩ := ih (applyCall mt c) h1 h3
    refine ⟨?_, i2, i3, ?_⟩
    · show (runCalls (applyCall mt c) cs).nodes = _
      rw [i1, h2, h4]
      rfl
    · show (runCalls (applyCall mt c) cs).leader_spec = _
      rw [i4, h2]

theorem runCalls_append (mt : yaz_marc_t) (cs : List AddCall) (c : AddCall) :
    runCalls mt (cs ++ [c]) = applyCall (runCalls mt cs) c := by
  simp [runCalls, List.foldl_append]

theorem specStep_core (spec : Option Bytes) (ns : List yaz_marc_node) (c : AddCall) :
    (specStep spec ns c).map nodeCore = ns.map nodeCore ++ (callNode spec c).toList := by
  cases c with
  | subfield d n =>
    show (attachLast ns (mem d 0 n)).map nodeCore = _
    rw [attachLast_core]
    simp [callNode]
  | leader l n => simp [specStep, callNode, nodeCore]
  | controlfield t d n => simp [specStep, callNode, nodeCore]
  | datafield t i n => simp [specStep, callNode, nodeCore]
  | comment t => simp [specStep, callNode, nodeCore]

theorem specFold_core (spec : Option Bytes) (cs : List AddCall) :
    ∀ (ns : List yaz_marc_node),
      (cs.foldl (specStep spec) ns).map nodeCore
        = ns.map nodeCore ++ cs.filterMap (callNode spec) := by
  induction cs with
  | nil => intro ns; simp
  | cons c cs ih =>
    intro ns
    rw [List.foldl_cons, ih, specStep_core, List.append_assoc]
    congr 1
    cases h : callNode spec c with
    | none => simp [List.filterMap_cons, h]
    | some n => simp [List.filterMap_cons, h]

theorem isDatafield_core (n : yaz_marc_node) : isDatafield (nodeCore n) = isDatafield n := by
  cases n <;> rfl

theorem lastDatafield_none_of_core (ns : List yaz_marc_node)
    (h : ∀ n ∈ ns.map nodeCore, isDatafield n = false) : lastDatafield ns = none := by
  have hany : ns.any isDatafield = false := by
    rw [List.any_eq_false]
    intro n hn
    have := h (nodeCore n) (List.mem_map_of_mem _ hn)
    rw [isDatafield_core] at this
    simp [this]
  rw [any_isDatafield] at hany
  cases hl : lastDatafield ns with
  | none => rfl
  | some i => rw [hl] at hany; simp at hany
/-- C29 as stated fails.  On a handle in debug mode, `yaz_marc_add_datafield`
followed by `yaz_marc_add_subfield` leaves two nodes, the data field and the
comment `subfield: 61 54` that `yaz_marc_add_subfield` adds, whereas the only
non-subfield addition is the data field. -/
theorem append_cursor_counterexample :
    debugHandle.debug = 1 ∧
    (runCalls (yaz_marc_reset debugHandle)
        [.datafield (str "245") (str "10") 2, .subfield (str "aT") 2]).nodes
      = [.datafield (str "245") (str "10") [str "aT"], .comment (str "subfield: 61 54")] ∧
    [AddCall.datafield (str "245") (str "10") 2, .subfield (str "aT") 2].filterMap
        (callNode debugHandle.leader_spec)
      = [.datafield (str "245") (str "10") []] :=
  ⟨rfl, by decide, by decide⟩

/-- C29, amended: append-cursor invariant of the record model on a handle
whose debug level is 0.  After a reset and any sequence of
`yaz_marc_add_leader`, `yaz_marc_add_controlfield`, `yaz_marc_add_datafield`,
`yaz_marc_add_comment` and `yaz_marc_add_subfield` calls, the node list is the
one the specification describes (`specNodes`); without the subfield lists it
is the list of the non-subfield additions in call order; a further
`yaz_marc_add_subfield` appends its bytes at the end of the subfield list of
the last data field and changes nothing else; and if no data field was added
since the reset it changes nothing at all. -/
theorem append_cursor (mt : yaz_marc_t) (cs : List AddCall) (hdbg : mt.debug = 0) :
    (runCalls (yaz_marc_reset mt) cs).nodes = specNodes mt.leader_spec cs ∧
    (runCalls (yaz_marc_reset mt) cs).nodes.map nodeCore
      = cs.filterMap (callNode mt.leader_spec) ∧
    (∀ before t i ss after,
      (runCalls (yaz_marc_reset mt) cs).nodes = before ++ .datafield t i ss :: after →
      (∀ n ∈ after, isDatafield n = false) →
      ∀ code_data code_data_len,
        (runCalls (yaz_marc_reset mt) (cs ++ [.subfield code_data code_data_len])).nodes
          = before ++ .datafield t i (ss ++ [mem code_data 0 code_data_len]) :: after) ∧
    ((∀ c ∈ cs, ∀ t i n, c ≠ .datafield t i n) →
      ∀ code_data code_data_len,
        (runCalls (yaz_marc_reset mt) (cs ++ [.subfield code_data code_data_len])).nodes
          = (runCalls (yaz_marc_reset mt) cs).nodes) := by
  obtain ⟨h1, h2, h3, h4⟩ := runCalls_spec cs (yaz_marc_reset mt) hdbg rfl
  have hcore : (runCalls (yaz_marc_reset mt) cs).nodes.map nodeCore
      = cs.filterMap (callNode mt.leader_spec) := by
    rw [h1]
    have := specFold_core mt.leader_spec cs []
    simpa using this
  have hsub : ∀ code_data code_data_len,
      (runCalls (yaz_marc_reset mt) (cs ++ [.subfield code_data code_data_len])).nodes
        = attachLast (runCalls (yaz_marc_reset mt) cs).nodes (mem code_data 0 code_data_len) := by
    intro d n
    rw [runCalls_append]
    exact (applyCall_step _ (.subfield d n) h2 h3).2.2.2
  refine ⟨h1, hcore, ?_, ?_⟩
  · intro before t i ss after hn hafter d n
    rw [hsub, hn, attachLast_split _ _ _ _ _ _ hafter]
  · intro hno d n
    rw [hsub]
    apply attachLast_none
    apply lastDatafield_none_of_core
    rw [hcore]
    intro n hn
    obtain ⟨c, hc, hcn⟩ := List.mem_filterMap.mp hn
    cases c with
    | leader l k => simp only [callNode, Option.some.injEq] at hcn; rw [← hcn]; rfl
    | controlfield t d k => simp only [callNode, Option.some.injEq] at hcn; rw [← hcn]; rfl
    | datafield t i k => exact absurd rfl (hno _ hc t i k)
    | comment t => simp only [callNode, Option.some.injEq] at hcn; rw [← hcn]; rfl
    | subfield d k => simp [callNode] at hcn

theorem append_cursor_witness :
    (runCalls (yaz_marc_reset yaz_marc_create)
        [.subfield (str "aX") 2, .datafield (str "245") (str "10") 2, .comment (str "c"),
          .subfield (str "aT") 2]).nodes
      = specNodes yaz_marc_create.leader_spec
        [.subfield (str "aX") 2, .datafield (str "245") (str "10") 2, .comment (str "c"),
          .subfield (str "aT") 2] ∧
    (runCalls (yaz_marc_reset yaz_marc_create)
        [.subfield (str "aX") 2, .datafield (str "245") (str "10") 2, .comment (str "c"),
          .subfield (str "aT") 2]).nodes.map nodeCore
      = [AddCall.subfield (str "aX") 2, .datafield (str "245") (str "10") 2,
          .comment (str "c"), .subfield (str "aT") 2].filterMap
          (callNode yaz_marc_create.leader_spec) ∧
    (∀ before t i ss after,
      (runCalls (yaz_marc_reset yaz_marc_create)
        [.subfield (str "aX") 2, .datafield (str "245") (str "10") 2, .comment (str "c"),
          .subfield (str "aT") 2]).nodes = before ++ .datafield t i ss :: after →
      (∀ n ∈ after, isDatafield n = false) →
      ∀ code_data code_data_len,
        (runCalls (yaz_marc_reset yaz_marc_create)
          ([.subfield (str "aX") 2, .datafield (str "245") (str "10") 2, .comment (str "c"),
            .subfield (str "aT") 2] ++ [.subfield code_data code_data_len])).nodes
          = before ++ .datafield t i (ss ++ [mem code_data 0 code_data_len]) :: after) ∧
    ((∀ c ∈ [AddCall.subfield (str "aX") 2, .datafield (str "245") (str "10") 2,
          .comment (str "c"), .subfield (str "aT") 2], ∀ t i n, c ≠ .datafield t i n) →
      ∀ code_data code_data_len,
        (runCalls (yaz_marc_reset yaz_marc_create)
          ([.subfield (str "aX") 2, .datafield (str "245") (str "10") 2, .comment (str "c"),
            .subfield (str "aT") 2] ++ [.subfield code_data code_data_len])).nodes
          = (runCalls (yaz_marc_reset yaz_marc_create)
            [.subfield (str "aX") 2, .datafield (str "245") (str "10") 2, .comment (str "c"),
              .subfield (str "aT") 2]).nodes) :=
  append_cursor yaz_marc_create
    [.subfield (str "aX") 2, .datafield (str "245") (str "10") 2, .comment (str "c"),
      .subfield (str "aT") 2] rfl
/-! ## Code width of the line and XML writers -/

set_option maxRecDepth 40000 in
/-- C31 fails on the code.  From a record with two adjacent identifier
separators `yaz_marc_read_iso2709` builds a data field whose first subfield is
empty, under a leader whose byte 11 is the digit 2.  For that subfield the code
width of the writers is 1, which exceeds its length 0: `yaz_marc_write_line`
and `yaz_marc_write_marcxml` emit as its code the byte 0 that ends the stored
string, and take the value from behind it. -/
theorem code_width_exceeds_failing :
    (yaz_marc_read_iso2709 yaz_marc_create adjacentBuffer (-1)).map (fun r => (r.1, r.2.nodes))
      = some (45, [.leader (str "00045nam a2200037 a 4500"),
          .datafield (str "245") (str "10") [[], str "aT"]]) ∧
    isdigit (peek (str "00045nam a2200037 a 4500") 11) = true ∧
    using_code_len yaz_marc_create 2 [] = 1 ∧ ([] : Bytes).length = 0 ∧
    (yaz_marc_read_iso2709 yaz_marc_create adjacentBuffer (-1)).map
        (fun r => (yaz_marc_write_line r.2 []).2.take 34)
      = some (str "00045nam a2200037 a 4500\n245 10 $" ++ [0]) ∧
    (yaz_marc_read_iso2709 yaz_marc_create adjacentBuffer (-1)).map
        (fun r => (yaz_marc_write_marcxml r.2 []).2.1.take 155)
      = some (str "<record xmlns=\"http://www.loc.gov/MARC21/slim\">\n"
          ++ str "  <leader>00045nam a2200037 a 4500</leader>\n"
          ++ str "  <datafield tag=\"245\" ind1=\"1\" ind2=\"0\">\n"
          ++ str "    <subfield code=\"" ++ [0]) :=
  ⟨by decide, by decide, by decide, rfl, by decide, by decide⟩
/-! ## Termination of the ISO2709 reader -/

theorem readSubfields_exit (buf : Bytes) (end_offset : Nat) :
    ∀ (fuel : Nat) (mt : yaz_marc_t) (i : Nat), end_offset - i ≤ fuel →
      i ≤ (readSubfields buf end_offset fuel mt i).2 ∧
      (readSubfields buf end_offset fuel mt i).2 ≤ max i end_offset ∧
      ¬ ((readSubfields buf end_offset fuel mt i).2 < end_offset ∧
        peek buf (readSubfields buf end_offset fuel mt i).2 ≠ ISO2709_RS ∧
        peek buf (readSubfields buf end_offset fuel mt i).2 ≠ ISO2709_FS) := by
  intro fuel
  induction fuel with
  | zero =>
    intro mt i h
    simp only [readSubfields]
    refine ⟨Nat.le_refl _, le_max_left _ _, ?_⟩
    rintro ⟨h1, _⟩
    omega
  | succ fuel ih =>
    intro mt i h
    rw [readSubfields]
    by_cases hc : i < end_offset ∧ peek buf i ≠ ISO2709_RS ∧ peek buf i ≠ ISO2709_FS
    · rw [if_pos hc]
      dsimp only
      obtain ⟨s1, s2, _, _⟩ := scanWhile_spec buf isRsIdfsFs (end_offset - (i + 1)) (i + 1)
      have hi := hc.1
      obtain ⟨h1, h2, h3⟩ := ih
        (yaz_marc_add_subfield mt (buf.drop (i + 1))
          (scanWhile buf isRsIdfsFs (end_offset - (i + 1)) (i + 1) - (i + 1)))
        (scanWhile buf isRsIdfsFs (end_offset - (i + 1)) (i + 1)) (by omega)
      refine ⟨by omega, ?_, h3⟩
      rw [le_max_iff] at h2 ⊢
      omega
    · rw [if_neg hc]
      exact ⟨Nat.le_refl _, le_max_left _ _, hc⟩

theorem dirOverrun_lt (buf : Bytes) (n l k : Nat) (hn : 25 ≤ n) (h : DirOverrun buf n l k) :
    24 + k * l < n := by
  cases k with
  | zero => omega
  | succ k =>
    have := (h.1 k (Nat.lt_succ_self k)).2.1
    rw [Nat.succ_mul]
    omega

/-- C32: the ISO2709 reader terminates on every input.  The reader returns a
result on every buffer.  For a declared length `n` of at least 25, the
directory scan started at offset 24 ends within `n` rounds at an offset
`24 + k * w`, `w = 3 + length_data_entry + length_starting`, that lies before
`n`: either with the fatal return, the entry there reaching `n`, or with that
offset as `end_of_directory`.  The field pass towards `24 + k * w`, with its
cursor at `24 + j * w`, `j ≤ k`, ends within `k - j + 1` rounds.  The subfield
loop started at `i` ends within `end_offset - i` rounds by its own condition, at
an offset between `i` and the larger of `i` and `end_offset`; each of its rounds
moves from `i` to an offset behind `i` and not behind `end_offset`; and the
control-field scan ends between its start and the larger of its start and
`end_offset`, at a separator or not before `end_offset`. -/
theorem read_iso2709_terminates (mt : yaz_marc_t) (buf : Bytes) (bsize : Int) :
    (yaz_marc_read_iso2709 mt buf bsize).isSome = true ∧
    (∀ (n lde ls : Nat) (m : yaz_marc_t), 25 ≤ n →
      ∃ k, 24 + k * (3 + lde + ls) < n ∧
        ((n ≤ 24 + k * (3 + lde + ls) + (3 + lde + ls) ∧
            ∃ m1, dirScan buf n lde ls n m 24 = some (.fatal m1)) ∨
          (∃ m1, dirScan buf n lde ls n m 24
            = some (.stop m1 (24 + k * (3 + lde + ls)))))) ∧
    (∀ (n : Nat) (f : LeaderFields) (k j : Nat) (m : yaz_marc_t), j ≤ k →
      (fieldPass buf n f (24 + k * (3 + f.length_data_entry + f.length_starting))
        (k - j + 1) m
        (24 + j * (3 + f.length_data_entry + f.length_starting))).isSome = true) ∧
    (∀ (end_offset i : Nat) (m : yaz_marc_t),
      i ≤ (readSubfields buf end_offset (end_offset - i) m i).2 ∧
      (readSubfields buf end_offset (end_offset - i) m i).2 ≤ max i end_offset ∧
      ¬ ((readSubfields buf end_offset (end_offset - i) m i).2 < end_offset ∧
        peek buf (readSubfields buf end_offset (end_offset - i) m i).2 ≠ ISO2709_RS ∧
        peek buf (readSubfields buf end_offset (end_offset - i) m i).2 ≠ ISO2709_FS)) ∧
    (∀ (end_offset i : Nat), i < end_offset →
      i < scanWhile buf isRsIdfsFs (end_offset - (i + 1)) (i + 1) ∧
      scanWhile buf isRsIdfsFs (end_offset - (i + 1)) (i + 1) ≤ end_offset) ∧
    (∀ (end_offset i0 : Nat),
      i0 ≤ scanWhile buf isRsFs (end_offset - i0) i0 ∧
      scanWhile buf isRsFs (end_offset - i0) i0 ≤ max i0 end_offset ∧
      ¬ (scanWhile buf isRsFs (end_offset - i0) i0 < end_offset ∧
        peek buf (scanWhile buf isRsFs (end_offset - i0) i0) ≠ ISO2709_RS ∧
        peek buf (scanWhile buf isRsFs (end_offset - i0) i0) ≠ ISO2709_FS)) := by
  refine ⟨read_iso2709_total mt buf bsize, ?_, ?_, ?_, ?_, ?_⟩
  · intro n lde ls m hn
    have hs := dirScan_spec buf n lde ls n 0 m (fun j hj => absurd hj (Nat.not_lt_zero j))
      (by omega) (by omega)
    simp only [Nat.zero_mul, Nat.add_zero] at hs
    rcases hs with ⟨k1, m1, _, hov, hres⟩ | ⟨k1, m1, _, _, hlt, hres⟩
    · exact ⟨k1, dirOverrun_lt buf n _ k1 hn hov, Or.inl ⟨hov.2.2, m1, hres⟩⟩
    · exact ⟨k1, hlt, Or.inr ⟨m1, hres⟩⟩
  · intro n f k j m hjk
    apply fieldPass_isSome
    refine ⟨k - j, ?_, by omega⟩
    have : k = j + (k - j) := by omega
    conv_rhs => rw [this, Nat.add_mul]
    omega
  · intro end_offset i m
    exact readSubfields_exit buf end_offset (end_offset - i) m i (Nat.le_refl _)
  · intro end_offset i hi
    obtain ⟨s1, s2, _, _⟩ := scanWhile_spec buf isRsIdfsFs (end_offset - (i + 1)) (i + 1)
    exact ⟨by omega, by omega⟩
  · intro end_offset i0
    obtain ⟨s1, s2, _, s4⟩ := scanWhile_spec buf isRsFs (end_offset - i0) i0
    refine ⟨s1, ?_, ?_⟩
    · rw [le_max_iff]; omega
    · rintro ⟨h1, h2, h3⟩
      rcases isRsFs_true _ (s4 (by omega)) with h | h
      · exact h2 h
      · exact h3 h

end Yaz
